/-
  Verification of the scene-graph / physics-bridge core of osp-magnum.

  The repository ships the declarations (ActiveScene.h, SysNewton.h,
  ospnewton.h, worker.h); the corresponding .cpp bodies are not part of the
  source tree given here.  Every operation below is therefore modelled from
  the specification and from the behavioural contracts written in the header
  doc comments, as a shallow embedding:
    - entities are natural numbers, entt::null is Option.none;
    - a sparse component store is an association list;
    - 4x4 float matrices become rational 4x4 matrices;
    - the Newton backend is a store of body positions.
-/
import Mathlib

namespace OspActive

/-- Entity handle (`ActiveEnt` = `entt::entity`); `entt::null` is `none`. -/
abbrev Ent := Nat

/-- From activetypes.h: `constexpr unsigned gc_heir_physics_level = 1;` -/
def gc_heir_physics_level : Nat := 1

/-- A sparse component store (the usage pattern of `entt::basic_registry`
restricted to one component type): an association list from entities to
records.  `get` finds the first binding. -/
def Store (α : Type) : Type := List (Ent × α)

namespace Store

variable {α : Type}

/-- `try_get<T>(e)`. -/
def get : Store α → Ent → Option α
  | [], _ => none
  | (k, v) :: rest, e => if k = e then some v else get rest e

/-- Overwrite the binding of an existing key; no-op if the key is absent. -/
def put : Store α → Ent → α → Store α
  | [], _, _ => []
  | (k, v) :: rest, e, w => if k = e then (k, w) :: rest else (k, v) :: put rest e w

/-- Add a fresh binding. -/
def insert (s : Store α) (e : Ent) (v : α) : Store α := (e, v) :: s

/-- `emplace_or_replace<T>`: replace if present, else add. -/
def setc (s : Store α) (e : Ent) (v : α) : Store α :=
  if (s.get e).isSome then s.put e v else s.insert e v

/-- Apply a function to the record of `e` when present. -/
def modify (s : Store α) (e : Ent) (f : α → α) : Store α :=
  match s.get e with
  | some v => s.put e (f v)
  | none => s

/-- Remove every binding whose key is listed in `es`. -/
def eraseMany (s : Store α) (es : List Ent) : Store α :=
  s.filter (fun kv => decide (¬ kv.1 ∈ es))

/-- The keys currently bound. -/
def keys (s : Store α) : List Ent := s.map Prod.fst

/-- Number of bindings. -/
def size (s : Store α) : Nat := s.length

end Store

/-- 3-component vector of rationals (`Vector3` with exact scalars). -/
abbrev Vec3 := Fin 3 → ℚ

/-- 4x4 rational matrix (`Matrix4` with exact scalars). -/
abbrev Mat4 := Matrix (Fin 4) (Fin 4) ℚ

/-- The position (translation column) of an affine 4x4 transform. -/
def Mat4.position (m : Mat4) : Vec3 := fun i => m i.castSucc 3

/-- Extend a 3-vector to the 4 rows, junk row 3 set to zero. -/
def padVec (d : Vec3) : Fin 4 → ℚ :=
  fun i => if h : (i : Nat) < 3 then d ⟨i, h⟩ else 0

/-- Add `d` to the translation column of `m` (what
`m.translation() += d` does on a `Matrix4`). -/
def Mat4.translatedBy (m : Mat4) (d : Vec3) : Mat4 :=
  Matrix.of fun i j =>
    if j = (3 : Fin 4) ∧ (i : Nat) < 3 then m i j + padVec d i else m i j

/-- Pure translation transform. -/
def translationMat (d : Vec3) : Mat4 := Mat4.translatedBy 1 d

/-- ActiveScene.h: component for transformation (in meters). -/
structure ACompTransform where
  m_transform : Mat4
  m_transformWorld : Mat4
  m_enableFloatingOrigin : Bool
deriving DecidableEq

/-- ActiveScene.h: scene-graph hierarchy component. -/
structure ACompHierarchy where
  m_name : String := "Innocent Entity"
  m_level : Nat := 0
  m_parent : Option Ent := none
  m_siblingNext : Option Ent := none
  m_siblingPrev : Option Ent := none
  m_childCount : Nat := 0
  m_childFirst : Option Ent := none
deriving DecidableEq, Repr

/-- CommonPhysics.h (not in the given tree): collision shape tag. -/
inductive ECollisionShape where
  | NONE | SPHERE | BOX | CYLINDER | TERRAIN
deriving DecidableEq, Repr

/-- SysNewton.h: cached nearest rigid-body ancestor. -/
structure ACompRigidbodyAncestor where
  m_ancestor : Ent
  m_relTransform : Mat4
deriving DecidableEq

/-- SysNewton.h: rigid body record; the backend `NewtonBody*` is modelled by
presence of this component, the owning-entity back reference is kept. -/
structure ACompNwtBody where
  m_entity : Ent
  m_mass : ℚ := 0
deriving DecidableEq

/-- The scene: entity allocator, the per-component sparse stores of
`ActiveScene`'s registry, the floating-origin accumulator and flag, and a
model of the Newton backend as a store of rigid-body positions. -/
structure SceneState where
  m_next : Ent
  m_hier : Store ACompHierarchy
  m_transform : Store ACompTransform
  m_mass : Store ℚ
  m_shape : Store ECollisionShape
  m_rbAncestor : Store ACompRigidbodyAncestor
  m_nwtBody : Store ACompNwtBody
  m_backendPos : Store Vec3
  m_floatingOriginTranslate : Vec3
  m_floatingOriginInProgress : Bool

/-- Follow `m_siblingNext` links starting from `start`, fuel-bounded.
Fuel exhaustion and dangling entities cut the walk short; under the scene
invariant neither happens. -/
def chainFrom (s : Store ACompHierarchy) : Nat → Option Ent → List Ent
  | 0, _ => []
  | _ + 1, none => []
  | fuel + 1, some e =>
    e :: (match s.get e with
          | none => []
          | some h => chainFrom s fuel h.m_siblingNext)

/-- The linked child list of `p` (walking `m_childFirst` / `m_siblingNext`). -/
def childrenOf (s : Store ACompHierarchy) (p : Ent) : List Ent :=
  match s.get p with
  | none => []
  | some h => chainFrom s s.size h.m_childFirst

/-- Replace the three sibling/parent link fields of a hierarchy record. -/
def writeLinks (h : ACompHierarchy) (pa pr nx : Option Ent) : ACompHierarchy :=
  { h with m_parent := pa, m_siblingPrev := pr, m_siblingNext := nx }

/-- Relink the records listed in `cs` into the doubly linked child list of
`p`, in order; `prev` is the entity preceding the head (none at the front). -/
def writeChainAux (p : Ent) : Store ACompHierarchy → Option Ent → List Ent → Store ACompHierarchy
  | s, _, [] => s
  | s, prev, c :: rest =>
    writeChainAux p (s.modify c (fun h => writeLinks h (some p) prev rest.head?)) (some c) rest

/-- Make `cs` the child list of `p`: set `m_childFirst`/`m_childCount` of `p`
and the link fields of every member. -/
def writeChain (s : Store ACompHierarchy) (p : Ent) (cs : List Ent) : Store ACompHierarchy :=
  writeChainAux p
    (s.modify p (fun h => { h with m_childFirst := cs.head?, m_childCount := cs.length }))
    none cs

mutual

/-- Entities of the subtree rooted at `e` paired with their depth below the
subtree root, in preorder; fuel-bounded walk over the child chains. -/
def subtreeDepths (s : Store ACompHierarchy) : Nat → Ent → Nat → List (Ent × Nat)
  | 0, _, _ => []
  | fuel + 1, e, d => (e, d) :: subtreeDepthsF s fuel (childrenOf s e) (d + 1)
termination_by fuel _ _ => (fuel, 0)

def subtreeDepthsF (s : Store ACompHierarchy) : Nat → List Ent → Nat → List (Ent × Nat)
  | _, [], _ => []
  | fuel, c :: cs, d => subtreeDepths s fuel c d ++ subtreeDepthsF s fuel cs d
termination_by fuel cs _ => (fuel, cs.length + 1)

end

/-- Entities of the subtree rooted at `e` (preorder). -/
def subtreeEnts (s : Store ACompHierarchy) (fuel : Nat) (e : Ent) : List Ent :=
  (subtreeDepths s fuel e 0).map Prod.fst

/-- Rewrite `m_level` over the whole subtree of `c` so that `c` gets `base`
and each child one more than its parent (§4.1: levels are fixed up
recursively on reparent). -/
def relevel (s : Store ACompHierarchy) (c : Ent) (base : Nat) : Store ACompHierarchy :=
  (subtreeDepths s (s.size + 1) c 0).foldl
    (fun acc x => acc.modify x.1 (fun h => { h with m_level := base + x.2 })) s

/-- Modelled from the spec: body of `ActiveScene::hier_create_child`
(ActiveScene.cpp is not in the tree).  §4.1: allocates an entity, attaches a
hierarchy record with `level = parent.level + 1`, inserts it at the head of
the parent's child list and increments the parent's child count; fails
(`none`) when the parent has no hierarchy record. -/
def hier_create_child (sc : SceneState) (parent : Ent) (name : String) :
    Option (SceneState × Ent) :=
  match sc.m_hier.get parent with
  | none => none
  | some ph =>
    let child := sc.m_next
    let rec0 : ACompHierarchy :=
      { m_name := name, m_level := ph.m_level + 1, m_parent := some parent }
    let s1 := sc.m_hier.insert child rec0
    let s2 := writeChain s1 parent (child :: childrenOf s1 parent)
    some ({ sc with m_next := child + 1, m_hier := s2 }, child)

/-- Unlink `c` (a child of `q`) from `q`'s child list and clear `c`'s
parent/sibling links. -/
def detachStore (s : Store ACompHierarchy) (c q : Ent) : Store ACompHierarchy :=
  let s1 := writeChain s q ((childrenOf s q).erase c)
  s1.modify c (fun h => writeLinks h none none none)

/-- Modelled from the spec: body of `ActiveScene::hier_cut`
(ActiveScene.cpp is not in the tree).  §4.1: removes the entity from its
parent's child list and sibling chain and clears its parent link; the
subtree stays alive, rooted in isolation.  Rejected (`none`) when the
entity has no hierarchy record or no parent. -/
def hier_cut (sc : SceneState) (ent : Ent) : Option SceneState :=
  match sc.m_hier.get ent with
  | none => none
  | some h =>
    match h.m_parent with
    | none => none
    | some q => some { sc with m_hier := detachStore sc.m_hier ent q }

/-- Modelled from the spec: body of `ActiveScene::hier_destroy`
(ActiveScene.cpp is not in the tree).  §4.1: recursively destroys the whole
subtree rooted at `ent`, removing each member from the registry (all of its
components), after unlinking `ent` from its parent's child list. -/
def hier_destroy (sc : SceneState) (ent : Ent) : Option SceneState :=
  match sc.m_hier.get ent with
  | none => none
  | some h =>
    let sub := subtreeEnts sc.m_hier (sc.m_hier.size + 1) ent
    let s1 := match h.m_parent with
              | none => sc.m_hier
              | some q => writeChain sc.m_hier q ((childrenOf sc.m_hier q).erase ent)
    some { sc with
           m_hier := s1.eraseMany sub,
           m_transform := sc.m_transform.eraseMany sub,
           m_mass := sc.m_mass.eraseMany sub,
           m_shape := sc.m_shape.eraseMany sub,
           m_rbAncestor := sc.m_rbAncestor.eraseMany sub,
           m_nwtBody := sc.m_nwtBody.eraseMany sub,
           m_backendPos := sc.m_backendPos.eraseMany sub }

/-- Modelled from the spec: body of `ActiveScene::hier_set_parent_child`
(ActiveScene.cpp is not in the tree).  §4.1/§7: rejects (`none`, no state
change) a missing hierarchy record on either argument and any attempt to
parent an entity under its own descendant; otherwise detaches the child
from its current parent, re-levels the whole moved subtree to
`parent.level + 1`, and relinks the child at the head of the new parent's
child list. -/
def hier_set_parent_child (sc : SceneState) (parent child : Ent) : Option SceneState :=
  match sc.m_hier.get parent, sc.m_hier.get child with
  | some ph, some ch =>
    let sub := subtreeEnts sc.m_hier (sc.m_hier.size + 1) child
    if parent ∈ sub then none
    else
      let s1 := match ch.m_parent with
                | none => sc.m_hier
                | some q => detachStore sc.m_hier child q
      let s2 := relevel s1 child (ph.m_level + 1)
      let s3 := writeChain s2 parent (child :: childrenOf s2 parent)
      some { sc with m_hier := s3 }
  | _, _ => none

/-- `ActiveScene::floating_origin_translate`: accumulate a requested
translation (ActiveScene.h:113-118). -/
def floating_origin_translate (sc : SceneState) (amount : Vec3) : SceneState :=
  { sc with m_floatingOriginTranslate := sc.m_floatingOriginTranslate + amount }

/-- Shift the local transform of a record iff it participates in
floating-origin rebasing. -/
def translateRecord (d : Vec3) (t : ACompTransform) : ACompTransform :=
  if t.m_enableFloatingOrigin
  then { t with m_transform := t.m_transform.translatedBy d }
  else t

/-- Shift the local transform of every floating-origin-enabled entity. -/
def translateAllTransforms (s : Store ACompTransform) (d : Vec3) : Store ACompTransform :=
  s.map (fun kv => (kv.1, translateRecord d kv.2))

/-- Modelled from the spec: body of
`ActiveScene::floating_origin_translate_begin` (ActiveScene.cpp is not in
the tree).  §4.3: no-op when the accumulated total is zero; otherwise
enters `Translating`, shifts every flagged transform and every backend
rigid-body position by the total, resets the accumulator and returns to
`Idle`. -/
def floating_origin_translate_begin (sc : SceneState) : SceneState :=
  if sc.m_floatingOriginTranslate = 0 then sc
  else
    { sc with
      m_transform := translateAllTransforms sc.m_transform sc.m_floatingOriginTranslate,
      m_backendPos := sc.m_backendPos.map
        (fun kv => (kv.1, kv.2 + sc.m_floatingOriginTranslate)),
      m_floatingOriginTranslate := 0,
      m_floatingOriginInProgress := false }

/-- Largest `m_level` over the store. -/
def maxLevel (s : Store ACompHierarchy) : Nat :=
  s.foldl (fun acc kv => max acc kv.2.m_level) 0

/-- Entities whose hierarchy record sits at level `lvl`, in store order. -/
def entsAtLevel (s : Store ACompHierarchy) (lvl : Nat) : List Ent :=
  (s.filter (fun kv => kv.2.m_level == lvl)).map Prod.fst

/-- Topological processing order by `m_level` (§4.2). -/
def processOrder (s : Store ACompHierarchy) : List Ent :=
  (List.range (maxLevel s + 1)).flatMap (fun lvl => entsAtLevel s lvl)

/-- One step of transform propagation: `world = parent.world * local`,
except the root (no parent), whose world transform is its local one.
Entities lacking either record, or whose parent lacks a transform, are
skipped. -/
def propagateStep (hier : Store ACompHierarchy) (tr : Store ACompTransform) (e : Ent) :
    Store ACompTransform :=
  match hier.get e, tr.get e with
  | some h, some t =>
    match h.m_parent with
    | none => tr.put e { t with m_transformWorld := t.m_transform }
    | some p =>
      match tr.get p with
      | some pt => tr.put e { t with m_transformWorld := pt.m_transformWorld * t.m_transform }
      | none => tr
  | _, _ => tr

/-- Modelled from the spec: body of
`ActiveScene::update_hierarchy_transforms` (ActiveScene.cpp is not in the
tree).  §4.2: walk all entities with hierarchy + transform records in
ascending `m_level` order (every parent strictly before its children) and
recompute the cached world transform. -/
def update_hierarchy_transforms (sc : SceneState) : SceneState :=
  { sc with
    m_transform := (processOrder sc.m_hier).foldl (propagateStep sc.m_hier) sc.m_transform }

/-- Modelled from the spec and the contract at SysNewton.h:111-123: the
ancestor walk of `SysNewton::find_rigidbody_ancestor` (SysNewton.cpp is not
in the tree).  Climb parents from `ent` until the current record's level is
`gc_heir_physics_level`; `none` on a missing record or when the walk runs
past a parentless record (the C++ `try_get` on `entt::null`). -/
def rigidbodyAncestorWalk (sc : SceneState) : Nat → Ent → Option Ent
  | 0, _ => none
  | fuel + 1, cur =>
    match sc.m_hier.get cur with
    | none => none
    | some h =>
      if h.m_level = gc_heir_physics_level then some cur
      else
        match h.m_parent with
        | none => none
        | some p => rigidbodyAncestorWalk sc fuel p

/-- SysNewton.h:118-120 contract: returns the level-1 entity paired with the
`ACompNwtBody` found on it; `{entt::null, nullptr}` on a hierarchy error;
`{level-1 entity, nullptr}` when that entity carries no body. -/
def find_rigidbody_ancestor (sc : SceneState) (ent : Ent) :
    Option Ent × Option ACompNwtBody :=
  match rigidbodyAncestorWalk sc (sc.m_hier.size + 1) ent with
  | none => (none, none)
  | some a => (some a, sc.m_nwtBody.get a)

/-- Modelled from the spec: the accumulating walk of
`SysNewton::find_transform_rel_rigidbody_ancestor` (§4.4): same climb,
composing local transforms from `ent` up to, excluding, the ancestor. -/
def transformRelWalk (sc : SceneState) : Nat → Ent → Mat4 → Option (Ent × Mat4)
  | 0, _, _ => none
  | fuel + 1, cur, acc =>
    match sc.m_hier.get cur with
    | none => none
    | some h =>
      if h.m_level = gc_heir_physics_level then some (cur, acc)
      else
        match h.m_parent with
        | none => none
        | some p =>
          let lc := ((sc.m_transform.get cur).map ACompTransform.m_transform).getD 1
          transformRelWalk sc fuel p (lc * acc)

/-- Modelled from the spec and SysNewton.h:139-158: memoized ancestor
lookup.  A cached `ACompRigidbodyAncestor` is returned as-is; otherwise the
walk runs once and its result is stored on the entity.  Nothing in the
hierarchy mutations invalidates this cache. -/
def try_get_or_find_rigidbody_ancestor (sc : SceneState) (childEntity : Ent) :
    SceneState × Option ACompRigidbodyAncestor :=
  match sc.m_rbAncestor.get childEntity with
  | some rba => (sc, some rba)
  | none =>
    match transformRelWalk sc (sc.m_hier.size + 1) childEntity 1 with
    | some (a, m) =>
      let rba : ACompRigidbodyAncestor := { m_ancestor := a, m_relTransform := m }
      ({ sc with m_rbAncestor := sc.m_rbAncestor.setc childEntity rba }, some rba)
    | none => (sc, none)

mutual

/-- Preorder walk of a subtree collecting, for every member, the composed
transform from the subtree root (the root itself at `acc`). -/
def subtreeOffsets (sc : SceneState) : Nat → Ent → Mat4 → List (Ent × Mat4)
  | 0, _, _ => []
  | fuel + 1, e, acc => (e, acc) :: subtreeOffsetsF sc fuel (childrenOf sc.m_hier e) acc
termination_by fuel _ _ => (fuel, 0)

def subtreeOffsetsF (sc : SceneState) : Nat → List Ent → Mat4 → List (Ent × Mat4)
  | _, [], _ => []
  | fuel, c :: cs, acc =>
    let lc := ((sc.m_transform.get c).map ACompTransform.m_transform).getD 1
    subtreeOffsets sc fuel c (acc * lc) ++ subtreeOffsetsF sc fuel cs acc
termination_by fuel cs _ => (fuel, cs.length + 1)

end

/-- §4.4: an entity contributes its mass only when it carries both a mass
and a shape component; otherwise it contributes zero. -/
def massContrib (sc : SceneState) (e : Ent) : ℚ :=
  match sc.m_mass.get e, sc.m_shape.get e with
  | some m, some _ => m
  | _, _ => 0

/-- Modelled from the spec: body of `SysNewton::compute_hier_CoM`
(SysNewton.cpp is not in the tree).  §4.4 and SysNewton.h:216-237: treat
the subtree as point masses at their offsets from the subtree root, the
root's own mass excluded unless `includeRootMass`; returns (CoM, total
mass) — the `Vector4` with xyz=CoM, w=mass. -/
def compute_hier_CoM (includeRootMass : Bool) (sc : SceneState) (root : Ent) :
    Vec3 × ℚ :=
  let pairs0 := subtreeOffsets sc (sc.m_hier.size + 1) root 1
  let pairs := if includeRootMass then pairs0 else pairs0.drop 1
  let total : ℚ := (pairs.map (fun p => massContrib sc p.1)).sum
  let moment : Vec3 := (pairs.map (fun p => massContrib sc p.1 • Mat4.position p.2)).sum
  (if total = 0 then (fun _ => 0) else total⁻¹ • moment, total)

/-- The abstract shape of a hierarchy subtree: an entity and its child
subtrees in sibling order.  Used only to state and prove the invariant; the
operations act on the pointer store. -/
inductive HTree where
  | node : Ent → List HTree → HTree
deriving Repr

/-- The entity at the root of a subtree. -/
def HTree.root : HTree → Ent
  | .node e _ => e

mutual

/-- Preorder list of the entities of a subtree. -/
def HTree.flatten : HTree → List Ent
  | .node e ts => e :: HTree.flattenF ts

def HTree.flattenF : List HTree → List Ent
  | [] => []
  | t :: ts => t.flatten ++ HTree.flattenF ts

end

mutual

/-- Preorder list of (entity, depth) pairs, root at depth `d`. -/
def HTree.flattenDepth : HTree → Nat → List (Ent × Nat)
  | .node e ts, d => (e, d) :: HTree.flattenDepthF ts (d + 1)

def HTree.flattenDepthF : List HTree → Nat → List (Ent × Nat)
  | [], _ => []
  | t :: ts, d => t.flattenDepth d ++ HTree.flattenDepthF ts d

end

mutual

/-- Height of a subtree (leaf = 1). -/
def HTree.height : HTree → Nat
  | .node _ ts => HTree.heightF ts + 1

def HTree.heightF : List HTree → Nat
  | [] => 0
  | t :: ts => max t.height (HTree.heightF ts)

end

/-- Root entity of the first subtree of a sibling list (the value of the
parent's `m_childFirst`). -/
def rootsHead : List HTree → Option Ent
  | [] => none
  | t :: _ => some t.root

mutual

/-- Replace the children of the node carrying `p` (first occurrence). -/
def replaceAt (p : Ent) (vs : List HTree) : HTree → HTree
  | .node e ts => if e = p then .node e vs else .node e (replaceAtF p vs ts)

def replaceAtF (p : Ent) (vs : List HTree) : List HTree → List HTree
  | [] => []
  | t :: ts => replaceAt p vs t :: replaceAtF p vs ts

end

mutual

/-- The children of the node carrying `x`, if present. -/
def findNode (x : Ent) : HTree → Option (List HTree)
  | .node e ts => if e = x then some ts else findNodeF x ts

def findNodeF (x : Ent) : List HTree → Option (List HTree)
  | [] => none
  | t :: ts =>
    match findNode x t with
    | some us => some us
    | none => findNodeF x ts

end

/-- Drop the sibling subtree rooted at `c` from a sibling list. -/
def removeRoot (c : Ent) (ts : List HTree) : List HTree :=
  ts.filter (fun t => t.root != c)

mutual

/-- `RepT s lvl pa pr nx t`: the store `s` represents the subtree `t`,
whose root record carries level `lvl`, parent link `pa` and sibling links
`pr`/`nx`, and whose child list fields agree with `t`'s children. -/
inductive RepT : Store ACompHierarchy → Nat → Option Ent → Option Ent → Option Ent → HTree → Prop where
  | node {s : Store ACompHierarchy} {lvl : Nat} {pa pr nx : Option Ent}
      {e : Ent} {ts : List HTree} {h : ACompHierarchy} :
      s.get e = some h →
      h.m_level = lvl →
      h.m_parent = pa →
      h.m_siblingPrev = pr →
      h.m_siblingNext = nx →
      h.m_childCount = ts.length →
      h.m_childFirst = rootsHead ts →
      RepC s (lvl + 1) (some e) none ts →
      RepT s lvl pa pr nx (.node e ts)

/-- `RepC s lvl pa pr ts`: the store represents the sibling list `ts`, all
at level `lvl` with parent `pa`, the first record's `m_siblingPrev` being
`pr`; consecutive roots are linked by `m_siblingNext`/`m_siblingPrev`. -/
inductive RepC : Store ACompHierarchy → Nat → Option Ent → Option Ent → List HTree → Prop where
  | nil {s : Store ACompHierarchy} {lvl : Nat} {pa pr : Option Ent} :
      RepC s lvl pa pr []
  | cons {s : Store ACompHierarchy} {lvl : Nat} {pa pr : Option Ent}
      {t : HTree} {ts : List HTree} :
      RepT s lvl pa pr (rootsHead ts) t →
      RepC s lvl pa (some t.root) ts →
      RepC s lvl pa pr (t :: ts)

end

/-- A list of free root trees: parent and sibling links of every root are
cleared; root levels are arbitrary (`hier_cut` keeps them). -/
def RepF (s : Store ACompHierarchy) (ts : List HTree) : Prop :=
  ∀ t ∈ ts, ∃ lvl, RepT s lvl none none none t

/-- The hierarchy invariant, stated with an explicit forest witness:
the forest is represented in the store, entities occur at exactly one node,
the store binds exactly the forest's entities, keys are unique and below
the allocator mark. -/
def InvWith (next : Ent) (s : Store ACompHierarchy) (ts : List HTree) : Prop :=
  RepF s ts ∧ (HTree.flattenF ts).Nodup ∧
    (∀ e, (s.get e).isSome ↔ e ∈ HTree.flattenF ts) ∧
    s.keys.Nodup ∧ (∀ e ∈ s.keys, e < next)

/-- The hierarchy invariant. -/
def HierInv (next : Ent) (s : Store ACompHierarchy) : Prop :=
  ∃ ts, InvWith next s ts

/-- `AncestorOf s a e`: `a` is `e` or an ancestor of `e` along parent
links. -/
inductive AncestorOf (s : Store ACompHierarchy) (a : Ent) : Ent → Prop where
  | refl : AncestorOf s a a
  | step {e : Ent} {h : ACompHierarchy} {p : Ent} :
      s.get e = some h → h.m_parent = some p → AncestorOf s a p → AncestorOf s a e

/-- The scene-driver entry points that mutate the hierarchy (§6), plus
component emplacement (`ActiveScene::reg_emplace`). -/
inductive Op where
  | createChild (parent : Ent) (name : String)
  | setParentChild (parent child : Ent)
  | cut (ent : Ent)
  | destroy (ent : Ent)
  | emplaceTransform (ent : Ent) (t : ACompTransform)
  | emplaceMass (ent : Ent) (m : ℚ)
  | emplaceShape (ent : Ent) (sh : ECollisionShape)
  | emplaceBody (ent : Ent) (b : ACompNwtBody)

/-- Apply one operation; a rejected operation leaves the scene unchanged
(§7: structural errors are rejected before any mutation). -/
def applyOp (sc : SceneState) (op : Op) : SceneState :=
  match op with
  | .createChild p name =>
    match hier_create_child sc p name with
    | some (sc', _) => sc'
    | none => sc
  | .setParentChild p c => (hier_set_parent_child sc p c).getD sc
  | .cut e => (hier_cut sc e).getD sc
  | .destroy e => (hier_destroy sc e).getD sc
  | .emplaceTransform e t =>
    if (sc.m_hier.get e).isSome then { sc with m_transform := sc.m_transform.setc e t } else sc
  | .emplaceMass e m =>
    if (sc.m_hier.get e).isSome then { sc with m_mass := sc.m_mass.setc e m } else sc
  | .emplaceShape e sh =>
    if (sc.m_hier.get e).isSome then { sc with m_shape := sc.m_shape.setc e sh } else sc
  | .emplaceBody e b =>
    if (sc.m_hier.get e).isSome then { sc with m_nwtBody := sc.m_nwtBody.setc e b } else sc

/-- Run a sequence of operations. -/
def runOps (sc : SceneState) (ops : List Op) : SceneState := ops.foldl applyOp sc

/-- The scene right after construction: the single root entity (level 0, no
parent, no children) and nothing else. -/
def initialScene : SceneState :=
  { m_next := 1,
    m_hier := [(0, { m_name := "Root", m_level := 0 })],
    m_transform := [], m_mass := [], m_shape := [], m_rbAncestor := [],
    m_nwtBody := [], m_backendPos := [],
    m_floatingOriginTranslate := 0, m_floatingOriginInProgress := false }

/-- Scene states reachable from construction by the public mutators. -/
def Reachable (sc : SceneState) : Prop := ∃ ops, runOps initialScene ops = sc

/-- Entities whose hierarchy record has no parent link. -/
def rootsOfStore (s : Store ACompHierarchy) : List Ent :=
  (s.filter (fun kv => kv.2.m_parent.isNone)).map Prod.fst

/-- ospnewton.h:64-90 — the members of `ACtxNwtWorld`, in declaration
order. -/
inductive NwtWorldMember where
  | world | bodyIds | bodyPtrs | bodyToEnt | entToBody | colliders | pTransform
deriving DecidableEq

/-- Declaration order of the members of `ACtxNwtWorld` (ospnewton.h). -/
def nwtMemberDeclOrder : List NwtWorldMember :=
  [.world, .bodyIds, .bodyPtrs, .bodyToEnt, .entToBody, .colliders, .pTransform]

/-- C++ object lifetime rule: non-static data members are destroyed in
reverse declaration order. -/
def nwtMemberDestructOrder : List NwtWorldMember := nwtMemberDeclOrder.reverse

/-- Which member exclusively owns the rigid-body handles
(`std::vector<NwtBodyPtr_t> m_bodyPtrs`, owning `unique_ptr`s). -/
def ownsBodyHandles : NwtWorldMember → Bool
  | .bodyPtrs => true
  | _ => false

/-- Which member exclusively owns the collider handles
(`acomp_storage_t<ACompNwtCollider_t> m_colliders`, owning `unique_ptr`s). -/
def ownsColliderHandles : NwtWorldMember → Bool
  | .colliders => true
  | _ => false

/-- Which member owns the `NewtonWorld` handle
(`std::unique_ptr<NewtonWorld, Deleter> m_world`). -/
def ownsWorldHandle : NwtWorldMember → Bool
  | .world => true
  | _ => false

/-- A root entity 0 with two point-mass children 1 and 2 at local offsets
`o1`, `o2`, masses `m1`, `m2` (box shapes so §4.4's shape+mass requirement
is met); the root itself has mass `m0`. -/
def twoMassScene (m0 m1 m2 : ℚ) (o1 o2 : Vec3) : SceneState :=
  { m_next := 3,
    m_hier :=
      [(0, { m_name := "Root", m_level := 0, m_childCount := 2, m_childFirst := some 1 }),
       (1, { m_name := "A", m_level := 1, m_parent := some 0, m_siblingNext := some 2 }),
       (2, { m_name := "B", m_level := 1, m_parent := some 0, m_siblingPrev := some 1 })],
    m_transform :=
      [(1, { m_transform := translationMat o1, m_transformWorld := 1,
             m_enableFloatingOrigin := false }),
       (2, { m_transform := translationMat o2, m_transformWorld := 1,
             m_enableFloatingOrigin := false })],
    m_mass := [(0, m0), (1, m1), (2, m2)],
    m_shape := [(0, .BOX), (1, .BOX), (2, .BOX)],
    m_rbAncestor := [], m_nwtBody := [], m_backendPos := [],
    m_floatingOriginTranslate := 0, m_floatingOriginInProgress := false }

/-- Concrete scene used to exercise the rigidbody-ancestor cache: the two-mass
scene with a cached ancestor record on entity 2. -/
def cacheScene : SceneState :=
  { twoMassScene 1 1 1 (fun _ => 0) (fun _ => 0) with
    m_rbAncestor := [(2, { m_ancestor := 0, m_relTransform := 1 })] }

/-- Concrete scene with a nonzero pending floating-origin translation. -/
def pendingScene : SceneState :=
  { initialScene with m_floatingOriginTranslate := fun _ => 1 }

/-- Concrete scene with one flagged and one unflagged transform and one
backend body position. -/
def originScene : SceneState :=
  { initialScene with
    m_transform :=
      [(0, { m_transform := 1, m_transformWorld := 1, m_enableFloatingOrigin := true }),
       (1, { m_transform := 1, m_transformWorld := 1, m_enableFloatingOrigin := false })],
    m_backendPos := [(0, fun _ => 5)] }

/-- Concrete scene: a bodyless chain 0 → 1 → 2 → 3 with levels 0..3. -/
def chainScene : SceneState :=
  { m_next := 4,
    m_hier :=
      [(0, { m_name := "Root", m_level := 0, m_childCount := 1, m_childFirst := some 1 }),
       (1, { m_level := 1, m_parent := some 0, m_childCount := 1, m_childFirst := some 2 }),
       (2, { m_level := 2, m_parent := some 1, m_childCount := 1, m_childFirst := some 3 }),
       (3, { m_level := 3, m_parent := some 2 })],
    m_transform := [], m_mass := [], m_shape := [], m_rbAncestor := [],
    m_nwtBody := [], m_backendPos := [],
    m_floatingOriginTranslate := 0, m_floatingOriginInProgress := false }

/-- Concrete reachable scene: the root with one child. -/
def reparentScene : SceneState := runOps initialScene [Op.createChild 0 "A"]

/-- Concrete reachable scene: root, child 1, grandchild 2. -/
def destroyScene : SceneState :=
  runOps initialScene [Op.createChild 0 "A", Op.createChild 1 "B"]

/-- Concrete reachable scene: root and child 1, both carrying transforms. -/
def propagateScene : SceneState :=
  runOps initialScene
    [Op.createChild 0 "A",
     Op.emplaceTransform 0
       { m_transform := 1, m_transformWorld := 0, m_enableFloatingOrigin := false },
     Op.emplaceTransform 1
       { m_transform := 1, m_transformWorld := 0, m_enableFloatingOrigin := false }]

/-! ### Store lemmas -/

namespace Store

variable {α β : Type}

theorem get_nil {e : Ent} : get ([] : Store α) e = none := rfl

theorem get_cons {k : Ent} {v : α} {s : Store α} {e : Ent} :
    get ((k, v) :: s) e = if k = e then some v else s.get e := rfl

theorem keys_cons {k : Ent} {v : α} {s : Store α} :
    keys ((k, v) :: s) = k :: s.keys := rfl

theorem get_isSome_iff_mem_keys {s : Store α} {e : Ent} :
    (s.get e).isSome ↔ e ∈ s.keys := by
  induction s with
  | nil => simp [get_nil, keys]
  | cons kv rest ih =>
    obtain ⟨k, v⟩ := kv
    rw [get_cons, keys_cons]
    by_cases hk : k = e
    · subst hk; simp
    · rw [if_neg hk, List.mem_cons]
      simp only [ih]
      constructor
      · exact Or.inr
      · rintro (h | h)
        · exact absurd h.symm hk
        · exact h

theorem get_put_ne {s : Store α} {e e' : Ent} {v : α} (h : e' ≠ e) :
    (s.put e v).get e' = s.get e' := by
  induction s with
  | nil => rfl
  | cons kv rest ih =>
    obtain ⟨k, w⟩ := kv
    by_cases hk : k = e
    · subst hk
      have hne : ¬ k = e' := fun hh => h hh.symm
      simp [put, get_cons, hne]
    · simp [put, get_cons, hk, ih]

theorem get_put_self {s : Store α} {e : Ent} {v : α} (h : e ∈ s.keys) :
    (s.put e v).get e = some v := by
  induction s with
  | nil => simp [keys] at h
  | cons kv rest ih =>
    obtain ⟨k, w⟩ := kv
    by_cases hk : k = e
    · subst hk; simp [put, get_cons]
    · rw [keys_cons, List.mem_cons] at h
      rcases h with h | h
      · exact absurd h.symm hk
      · simp [put, get_cons, hk, ih h]

theorem keys_put {s : Store α} {e : Ent} {v : α} : (s.put e v).keys = s.keys := by
  induction s with
  | nil => rfl
  | cons kv rest ih =>
    obtain ⟨k, w⟩ := kv
    by_cases hk : k = e <;> simp [put, keys_cons, hk]
    exact ih

theorem get_modify_ne {s : Store α} {e e' : Ent} {f : α → α} (h : e' ≠ e) :
    (s.modify e f).get e' = s.get e' := by
  unfold modify
  cases s.get e with
  | none => rfl
  | some v => exact get_put_ne h

theorem get_modify_self {s : Store α} {e : Ent} {f : α → α} {v : α}
    (h : s.get e = some v) : (s.modify e f).get e = some (f v) := by
  unfold modify
  rw [h]
  exact get_put_self (get_isSome_iff_mem_keys.mp (by simp [h]))

theorem get_modify_absent {s : Store α} {e e' : Ent} {f : α → α}
    (h : s.get e = none) : (s.modify e f).get e' = s.get e' := by
  unfold modify
  rw [h]

theorem keys_modify {s : Store α} {e : Ent} {f : α → α} :
    (s.modify e f).keys = s.keys := by
  unfold modify
  cases s.get e with
  | none => rfl
  | some v => exact keys_put

theorem get_insert_self {s : Store α} {e : Ent} {v : α} :
    (s.insert e v).get e = some v := by simp [insert, get_cons]

theorem get_insert_ne {s : Store α} {e e' : Ent} {v : α} (h : e' ≠ e) :
    (s.insert e v).get e' = s.get e' := by
  have hne : ¬ e = e' := fun hh => h hh.symm
  simp [insert, get_cons, hne]

theorem keys_insert {s : Store α} {e : Ent} {v : α} :
    (s.insert e v).keys = e :: s.keys := rfl

theorem get_eraseMany_mem {s : Store α} {es : List Ent} {e : Ent} (h : e ∈ es) :
    (s.eraseMany es).get e = none := by
  induction s with
  | nil => rfl
  | cons kv rest ih =>
    obtain ⟨k, v⟩ := kv
    unfold eraseMany at *
    rw [List.filter_cons]
    by_cases hin : k ∈ es
    · simp only [hin, not_true_eq_false, decide_False, Bool.false_eq_true, if_false]
      exact ih
    · simp only [hin, not_false_eq_true, decide_True, if_true, get_cons]
      rw [if_neg (fun hk => hin (by rw [hk]; exact h))]
      exact ih

theorem get_eraseMany_notMem {s : Store α} {es : List Ent} {e : Ent} (h : ¬ e ∈ es) :
    (s.eraseMany es).get e = s.get e := by
  induction s with
  | nil => rfl
  | cons kv rest ih =>
    obtain ⟨k, v⟩ := kv
    unfold eraseMany at *
    rw [List.filter_cons]
    by_cases hin : k ∈ es
    · simp only [hin, not_true_eq_false, decide_False, Bool.false_eq_true, if_false]
      rw [ih, get_cons, if_neg (fun hk => h (by rw [← hk]; exact hin))]
    · simp only [hin, not_false_eq_true, decide_True, if_true, get_cons, get_cons, ih]

theorem keys_eraseMany_sublist {s : Store α} {es : List Ent} :
    ((s.eraseMany es).keys).Sublist s.keys := by
  induction s with
  | nil => exact List.Sublist.refl _
  | cons kv rest ih =>
    obtain ⟨k, v⟩ := kv
    unfold eraseMany at *
    rw [List.filter_cons]
    by_cases hin : k ∈ es
    · simp only [hin, not_true_eq_false, decide_False, Bool.false_eq_true, if_false]
      exact ih.trans (List.sublist_cons_self _ _)
    · simp only [hin, not_false_eq_true, decide_True, if_true, keys_cons]
      exact ih.cons₂ _

theorem get_setc_self {s : Store α} {e : Ent} {v : α} : (s.setc e v).get e = some v := by
  unfold setc
  by_cases h : (s.get e).isSome
  · simp only [h, if_true]
    exact get_put_self (get_isSome_iff_mem_keys.mp h)
  · simp only [h, if_false]
    exact get_insert_self

theorem get_setc_ne {s : Store α} {e e' : Ent} {v : α} (h : e' ≠ e) :
    (s.setc e v).get e' = s.get e' := by
  unfold setc
  by_cases hs : (s.get e).isSome
  · simp only [hs, if_true]; exact get_put_ne h
  · simp only [hs, if_false]; exact get_insert_ne h

theorem get_mapSnd {s : Store α} {g : α → β} {e : Ent} :
    get (s.map (fun kv => (kv.1, g kv.2))) e = (s.get e).map g := by
  induction s with
  | nil => rfl
  | cons kv rest ih =>
    obtain ⟨k, v⟩ := kv
    rw [List.map_cons]
    show get ((k, g v) :: _) e = _
    rw [get_cons, get_cons]
    by_cases hk : k = e
    · simp [hk]
    · simp [hk, ih]

end Store

/-! ### Tree lemmas -/

theorem flatten_node {e : Ent} {ts : List HTree} :
    (HTree.node e ts).flatten = e :: HTree.flattenF ts := by
  rw [HTree.flatten]

theorem flattenF_nil : HTree.flattenF [] = [] := by rw [HTree.flattenF]

theorem flattenF_cons {t : HTree} {ts : List HTree} :
    HTree.flattenF (t :: ts) = t.flatten ++ HTree.flattenF ts := by
  rw [HTree.flattenF]

theorem flattenF_append {a b : List HTree} :
    HTree.flattenF (a ++ b) = HTree.flattenF a ++ HTree.flattenF b := by
  induction a with
  | nil => simp [flattenF_nil]
  | cons t ts ih => simp [flattenF_cons, ih]

theorem root_mem_flatten {t : HTree} : t.root ∈ t.flatten := by
  cases t with
  | node e ts => simp [HTree.root, flatten_node]

theorem roots_sublist_flattenF {ts : List HTree} :
    (ts.map HTree.root).Sublist (HTree.flattenF ts) := by
  induction ts with
  | nil => simp [flattenF_nil]
  | cons t ts ih =>
    rw [List.map_cons, flattenF_cons]
    cases t with
    | node e us =>
      rw [flatten_node, HTree.root]
      exact List.Sublist.cons₂ e (ih.trans (List.sublist_append_right _ _))

theorem rootsHead_eq_head_map {ts : List HTree} :
    rootsHead ts = (ts.map HTree.root).head? := by
  cases ts <;> rfl

theorem mem_rootsHead_mem_flattenF {ts : List HTree} {e : Ent}
    (h : rootsHead ts = some e) : e ∈ HTree.flattenF ts := by
  cases ts with
  | nil => simp [rootsHead] at h
  | cons t ts =>
    rw [rootsHead] at h
    cases h
    rw [flattenF_cons]
    exact List.mem_append_left _ root_mem_flatten

theorem flattenDepth_node {e : Ent} {ts : List HTree} {d : Nat} :
    (HTree.node e ts).flattenDepth d = (e, d) :: HTree.flattenDepthF ts (d + 1) := by
  rw [HTree.flattenDepth]

theorem flattenDepthF_nil {d : Nat} : HTree.flattenDepthF [] d = [] := by
  rw [HTree.flattenDepthF]

theorem flattenDepthF_cons {t : HTree} {ts : List HTree} {d : Nat} :
    HTree.flattenDepthF (t :: ts) d = t.flattenDepth d ++ HTree.flattenDepthF ts d := by
  rw [HTree.flattenDepthF]

/-! ### writeChain lemmas -/

theorem get_writeChainAux_notMem {p : Ent} {cs : List Ent} {s : Store ACompHierarchy}
    {prev : Option Ent} {e : Ent} (h : ¬ e ∈ cs) :
    (writeChainAux p s prev cs).get e = s.get e := by
  induction cs generalizing s prev with
  | nil => rfl
  | cons c rest ih =>
    rw [writeChainAux]
    rw [ih (fun hm => h (List.mem_cons_of_mem _ hm))]
    exact Store.get_modify_ne (fun he => h (he ▸ List.mem_cons_self _ _))

theorem keys_writeChainAux {p : Ent} {cs : List Ent} {s : Store ACompHierarchy}
    {prev : Option Ent} : (writeChainAux p s prev cs).keys = s.keys := by
  induction cs generalizing s prev with
  | nil => rfl
  | cons c rest ih =>
    rw [writeChainAux, ih, Store.keys_modify]

theorem keys_writeChain {s : Store ACompHierarchy} {p : Ent} {cs : List Ent} :
    (writeChain s p cs).keys = s.keys := by
  rw [writeChain, keys_writeChainAux, Store.keys_modify]

theorem get_writeChain_notMem {s : Store ACompHierarchy} {p : Ent} {cs : List Ent}
    {e : Ent} (hp : e ≠ p) (hcs : ¬ e ∈ cs) :
    (writeChain s p cs).get e = s.get e := by
  rw [writeChain, get_writeChainAux_notMem hcs, Store.get_modify_ne hp]

theorem get_writeChain_self {s : Store ACompHierarchy} {p : Ent} {cs : List Ent}
    {hp : ACompHierarchy} (hgp : s.get p = some hp) (hmem : ¬ p ∈ cs) :
    (writeChain s p cs).get p =
      some { hp with m_childFirst := cs.head?, m_childCount := cs.length } := by
  rw [writeChain, get_writeChainAux_notMem hmem, Store.get_modify_self hgp]

/-! ### Representation machinery -/

mutual

theorem repT_frame {s s' : Store ACompHierarchy} {lvl : Nat} {pa pr nx : Option Ent}
    (t : HTree) (h : RepT s lvl pa pr nx t)
    (agree : ∀ e ∈ t.flatten, s'.get e = s.get e) :
    RepT s' lvl pa pr nx t := by
  cases t with
  | node e ts =>
    cases h with
    | node hget hlvl hpar hprev hnext hcount hfirst hch =>
      refine RepT.node ?_ hlvl hpar hprev hnext hcount hfirst ?_
      · rw [agree e (by rw [flatten_node]; exact List.mem_cons_self _ _)]; exact hget
      · exact repC_frame ts hch
          (fun e' he' => agree e' (by rw [flatten_node]; exact List.mem_cons_of_mem _ he'))

theorem repC_frame {s s' : Store ACompHierarchy} {lvl : Nat} {pa pr : Option Ent}
    (ts : List HTree) (h : RepC s lvl pa pr ts)
    (agree : ∀ e ∈ HTree.flattenF ts, s'.get e = s.get e) :
    RepC s' lvl pa pr ts := by
  cases ts with
  | nil => exact RepC.nil
  | cons t ts' =>
    cases h with
    | cons ht hts =>
      refine RepC.cons ?_ ?_
      · exact repT_frame t ht
          (fun e' he' => agree e' (by rw [flattenF_cons]; exact List.mem_append_left _ he'))
      · exact repC_frame ts' hts
          (fun e' he' => agree e' (by rw [flattenF_cons]; exact List.mem_append_right _ he'))

end

/-- Every member of a represented sibling list is itself represented. -/
theorem repC_mem {s : Store ACompHierarchy} {lvl : Nat} {pa pr : Option Ent}
    {ts : List HTree} (h : RepC s lvl pa pr ts) {t : HTree} (hm : t ∈ ts) :
    ∃ pr' nx', RepT s lvl pa pr' nx' t := by
  induction ts generalizing pr with
  | nil => cases hm
  | cons t' ts' ih =>
    cases h with
    | cons ht hts =>
      rcases List.mem_cons.mp hm with rfl | hm'
      · exact ⟨_, _, ht⟩
      · exact ih hts hm'

/-- The stored sibling chain of a represented sibling list is exactly the
list of its roots. -/
theorem repC_chainFrom {s : Store ACompHierarchy} {lvl : Nat} {pa pr : Option Ent}
    {ts : List HTree} (h : RepC s lvl pa pr ts) {fuel : Nat} (hf : ts.length ≤ fuel) :
    chainFrom s fuel (rootsHead ts) = ts.map HTree.root := by
  induction ts generalizing pr fuel with
  | nil =>
    cases fuel with
    | zero => rfl
    | succ f => rfl
  | cons t ts' ih =>
    cases h with
    | cons ht hts =>
      cases fuel with
      | zero => rw [List.length_cons] at hf; exact absurd hf (Nat.not_succ_le_zero _)
      | succ f =>
        cases t with
        | node e us =>
          cases ht with
          | node hget hlvl hpar hprev hnext hcount hfirst hch =>
            have hlen : ts'.length ≤ f := by
              rw [List.length_cons] at hf; omega
            simp only [rootsHead, HTree.root, chainFrom, hget]
            rw [hnext, ih hts hlen, List.map_cons, HTree.root]

theorem root_replaceAt {p : Ent} {vs : List HTree} {t : HTree} :
    (replaceAt p vs t).root = t.root := by
  cases t with
  | node e ts =>
    simp only [replaceAt]
    split <;> rfl

theorem replaceAtF_cons {p : Ent} {vs : List HTree} {t : HTree} {ts : List HTree} :
    replaceAtF p vs (t :: ts) = replaceAt p vs t :: replaceAtF p vs ts := by
  rw [replaceAtF]

theorem replaceAtF_nil {p : Ent} {vs : List HTree} : replaceAtF p vs [] = [] := by
  rw [replaceAtF]

theorem length_replaceAtF {p : Ent} {vs : List HTree} {ts : List HTree} :
    (replaceAtF p vs ts).length = ts.length := by
  induction ts with
  | nil => rfl
  | cons t ts ih => rw [replaceAtF_cons, List.length_cons, List.length_cons, ih]

theorem rootsHead_replaceAtF {p : Ent} {vs : List HTree} {ts : List HTree} :
    rootsHead (replaceAtF p vs ts) = rootsHead ts := by
  cases ts with
  | nil => rfl
  | cons t ts => rw [replaceAtF_cons, rootsHead, rootsHead, root_replaceAt]

mutual

theorem findNode_isSome_iff {x : Ent} (t : HTree) :
    (findNode x t).isSome ↔ x ∈ t.flatten := by
  cases t with
  | node e ts =>
    rw [findNode, flatten_node]
    by_cases he : e = x
    · subst he; simp
    · rw [if_neg he, List.mem_cons]
      rw [findNodeF_isSome_iff ts]
      constructor
      · exact Or.inr
      · rintro (h | h)
        · exact absurd h.symm he
        · exact h

theorem findNodeF_isSome_iff {x : Ent} (ts : List HTree) :
    (findNodeF x ts).isSome ↔ x ∈ HTree.flattenF ts := by
  cases ts with
  | nil => simp [findNodeF, flattenF_nil]
  | cons t ts' =>
    rw [findNodeF, flattenF_cons]
    cases hft : findNode x t with
    | some us =>
      have : x ∈ t.flatten := (findNode_isSome_iff t).mp (by rw [hft]; rfl)
      simp [this]
    | none =>
      have hnx : ¬ x ∈ t.flatten := fun hm => by
        have := (findNode_isSome_iff t).mpr hm
        rw [hft] at this
        exact absurd this (by simp)
      rw [List.mem_append]
      rw [findNodeF_isSome_iff ts']
      constructor
      · exact Or.inr
      · rintro (h | h)
        · exact absurd h hnx
        · exact h

end

mutual

theorem replaceAt_notMem {p : Ent} {vs : List HTree} (t : HTree)
    (h : ¬ p ∈ t.flatten) : replaceAt p vs t = t := by
  cases t with
  | node e ts =>
    rw [flatten_node] at h
    rw [replaceAt, if_neg (fun he : e = p => h (by rw [← he]; exact List.mem_cons_self _ _)),
      replaceAtF_notMem ts (fun hm => h (List.mem_cons_of_mem _ hm))]

theorem replaceAtF_notMem {p : Ent} {vs : List HTree} (ts : List HTree)
    (h : ¬ p ∈ HTree.flattenF ts) : replaceAtF p vs ts = ts := by
  cases ts with
  | nil => rfl
  | cons t ts' =>
    rw [flattenF_cons] at h
    rw [replaceAtF_cons,
      replaceAt_notMem t (fun hm => h (List.mem_append_left _ hm)),
      replaceAtF_notMem ts' (fun hm => h (List.mem_append_right _ hm))]

end

mutual

theorem flatten_replaceAt_decomp {p : Ent} {us v : List HTree} (t : HTree)
    (hnd : t.flatten.Nodup) (hfind : findNode p t = some us) :
    ∃ pre suf, t.flatten = pre ++ p :: (HTree.flattenF us ++ suf) ∧
      (replaceAt p v t).flatten = pre ++ p :: (HTree.flattenF v ++ suf) := by
  cases t with
  | node e ts =>
    rw [findNode] at hfind
    by_cases he : e = p
    · subst he
      rw [if_pos rfl] at hfind
      cases hfind
      refine ⟨[], [], ?_, ?_⟩
      · simp [flatten_node]
      · rw [replaceAt, if_pos rfl]
        simp [flatten_node]
    · rw [if_neg he] at hfind
      rw [flatten_node] at hnd
      obtain ⟨pre, suf, h1, h2⟩ :=
        flattenF_replaceAtF_decomp (v := v) ts (List.Nodup.of_cons hnd) hfind
      refine ⟨e :: pre, suf, ?_, ?_⟩
      · rw [flatten_node, h1]; rfl
      · rw [replaceAt, if_neg he, flatten_node, h2]; rfl

theorem flattenF_replaceAtF_decomp {p : Ent} {us v : List HTree} (ts : List HTree)
    (hnd : (HTree.flattenF ts).Nodup) (hfind : findNodeF p ts = some us) :
    ∃ pre suf, HTree.flattenF ts = pre ++ p :: (HTree.flattenF us ++ suf) ∧
      HTree.flattenF (replaceAtF p v ts) = pre ++ p :: (HTree.flattenF v ++ suf) := by
  cases ts with
  | nil => rw [findNodeF] at hfind; cases hfind
  | cons t ts' =>
    rw [findNodeF] at hfind
    rw [flattenF_cons] at hnd
    cases hft : findNode p t with
    | some us0 =>
      rw [hft] at hfind
      cases hfind
      have hdisj : ∀ a ∈ t.flatten, ¬ a ∈ HTree.flattenF ts' :=
        fun a ha hb => (List.disjoint_of_nodup_append hnd) ha hb
      have hp : p ∈ t.flatten := (findNode_isSome_iff t).mp (by rw [hft]; rfl)
      have hts' : replaceAtF p v ts' = ts' := replaceAtF_notMem ts' (hdisj p hp)
      obtain ⟨pre, suf, h1, h2⟩ :=
        flatten_replaceAt_decomp (v := v) t (hnd.sublist (List.sublist_append_left _ _)) hft
      refine ⟨pre, suf ++ HTree.flattenF ts', ?_, ?_⟩
      · rw [flattenF_cons, h1]; simp [List.append_assoc]
      · rw [replaceAtF_cons, flattenF_cons, h2, hts']; simp [List.append_assoc]
    | none =>
      rw [hft] at hfind
      have hnp : ¬ p ∈ t.flatten := fun hm => by
        have := (findNode_isSome_iff t).mpr hm
        rw [hft] at this
        exact absurd this (by simp)
      obtain ⟨pre, suf, h1, h2⟩ :=
        flattenF_replaceAtF_decomp (v := v) ts'
          (hnd.sublist (List.sublist_append_right _ _)) hfind
      refine ⟨t.flatten ++ pre, suf, ?_, ?_⟩
      · rw [flattenF_cons, h1]; simp [List.append_assoc]
      · rw [replaceAtF_cons, flattenF_cons, h2, replaceAt_notMem t hnp]
        simp [List.append_assoc]

end

/-- Locating a node inside a duplicate-free subtree: the node is a member,
its descendants are members, are duplicate-free and do not contain the node
itself. -/
theorem node_facts_of_findNode {p : Ent} {us : List HTree} (t : HTree)
    (hnd : t.flatten.Nodup) (hfind : findNode p t = some us) :
    p ∈ t.flatten ∧ (∀ e ∈ HTree.flattenF us, e ∈ t.flatten) ∧
      (HTree.flattenF us).Nodup ∧ ¬ p ∈ HTree.flattenF us := by
  obtain ⟨pre, suf, h1, _⟩ := flatten_replaceAt_decomp (v := us) t hnd hfind
  have hsl : (p :: (HTree.flattenF us ++ suf)).Sublist t.flatten := by
    rw [h1]; exact List.sublist_append_right _ _
  have hnd2 : (p :: (HTree.flattenF us ++ suf)).Nodup := hnd.sublist hsl
  refine ⟨?_, ?_, ?_, ?_⟩
  · rw [h1]; exact List.mem_append_right _ (List.mem_cons_self _ _)
  · intro e he
    rw [h1]
    exact List.mem_append_right _ (List.mem_cons_of_mem _ (List.mem_append_left _ he))
  · exact (List.Nodup.of_cons hnd2).sublist (List.sublist_append_left _ _)
  · intro hm
    exact (List.nodup_cons.mp hnd2).1 (List.mem_append_left _ hm)

mutual

theorem findNode_record {s : Store ACompHierarchy} {lvl : Nat} {pa pr nx : Option Ent}
    {x : Ent} {us : List HTree} (t : HTree) (h : RepT s lvl pa pr nx t)
    (hfind : findNode x t = some us) :
    ∃ hx, s.get x = some hx ∧ hx.m_childFirst = rootsHead us ∧
      hx.m_childCount = us.length ∧ RepC s (hx.m_level + 1) (some x) none us := by
  cases t with
  | node e ts =>
    cases h with
    | node hget hlvl hpar hprev hnext hcount hfirst hch =>
      rw [findNode] at hfind
      by_cases he : e = x
      · subst he
        rw [if_pos rfl] at hfind
        cases hfind
        exact ⟨_, hget, hfirst, hcount, by rw [hlvl]; exact hch⟩
      · rw [if_neg he] at hfind
        exact findNodeF_record ts hch hfind

theorem findNodeF_record {s : Store ACompHierarchy} {lvl : Nat} {pa pr : Option Ent}
    {x : Ent} {us : List HTree} (ts : List HTree) (h : RepC s lvl pa pr ts)
    (hfind : findNodeF x ts = some us) :
    ∃ hx, s.get x = some hx ∧ hx.m_childFirst = rootsHead us ∧
      hx.m_childCount = us.length ∧ RepC s (hx.m_level + 1) (some x) none us := by
  cases ts with
  | nil => rw [findNodeF] at hfind; cases hfind
  | cons t ts' =>
    cases h with
    | cons ht hts =>
      rw [findNodeF] at hfind
      cases hft : findNode x t with
      | some us0 =>
        rw [hft] at hfind
        cases hfind
        exact findNode_record t ht hft
      | none =>
        rw [hft] at hfind
        exact findNodeF_record ts' hts hfind

end

theorem height_node {e : Ent} {ts : List HTree} :
    (HTree.node e ts).height = HTree.heightF ts + 1 := by rw [HTree.height]

theorem heightF_cons {t : HTree} {ts : List HTree} :
    HTree.heightF (t :: ts) = max t.height (HTree.heightF ts) := by rw [HTree.heightF]

mutual

theorem height_le_length_flatten (t : HTree) : t.height ≤ t.flatten.length := by
  cases t with
  | node e ts =>
    rw [height_node, flatten_node, List.length_cons]
    exact Nat.succ_le_succ (heightF_le_length_flattenF ts)

theorem heightF_le_length_flattenF (ts : List HTree) :
    HTree.heightF ts ≤ (HTree.flattenF ts).length := by
  cases ts with
  | nil => rw [HTree.heightF, flattenF_nil]; exact Nat.le_refl 0
  | cons t ts' =>
    rw [heightF_cons, flattenF_cons, List.length_append]
    exact max_le
      (Nat.le_trans (height_le_length_flatten t) (Nat.le_add_right _ _))
      (Nat.le_trans (heightF_le_length_flattenF ts') (Nat.le_add_left _ _))

end

mutual

theorem map_fst_flattenDepth (t : HTree) (d : Nat) :
    (t.flattenDepth d).map Prod.fst = t.flatten := by
  cases t with
  | node e ts =>
    rw [flattenDepth_node, flatten_node, List.map_cons]
    rw [map_fst_flattenDepthF ts (d + 1)]

theorem map_fst_flattenDepthF (ts : List HTree) (d : Nat) :
    (HTree.flattenDepthF ts d).map Prod.fst = HTree.flattenF ts := by
  cases ts with
  | nil => rw [flattenDepthF_nil, flattenF_nil]; rfl
  | cons t ts' =>
    rw [flattenDepthF_cons, flattenF_cons, List.map_append,
      map_fst_flattenDepth t d, map_fst_flattenDepthF ts' d]

end

theorem length_keys {α : Type} {s : Store α} : s.keys.length = s.size :=
  List.length_map _ _

/-- Fuel bound for sibling-chain walks: a duplicate-free sibling list of
alive trees is no longer than the store. -/
theorem chain_fuel {s : Store ACompHierarchy} {ts : List HTree}
    (hnd : (HTree.flattenF ts).Nodup) (hsub : ∀ e ∈ HTree.flattenF ts, e ∈ s.keys) :
    ts.length ≤ s.size := by
  have h1 : (ts.map HTree.root).length ≤ (HTree.flattenF ts).length :=
    roots_sublist_flattenF.length_le
  have h2 : (HTree.flattenF ts).length ≤ s.keys.length :=
    (List.subperm_of_subset hnd (fun e he => hsub e he)).length_le
  rw [List.length_map] at h1
  rw [length_keys] at h2
  omega

/-- The flatten of a duplicate-free alive subtree is no longer than the
store. -/
theorem flatten_le_size {s : Store ACompHierarchy} {t : HTree}
    (hnd : t.flatten.Nodup) (hsub : ∀ e ∈ t.flatten, e ∈ s.keys) :
    t.flatten.length ≤ s.size := by
  have h2 : t.flatten.length ≤ s.keys.length :=
    (List.subperm_of_subset hnd (fun e he => hsub e he)).length_le
  rw [length_keys] at h2
  exact h2

mutual

theorem subtreeDepths_eq {s : Store ACompHierarchy} {lvl : Nat} {pa pr nx : Option Ent}
    (t : HTree) (h : RepT s lvl pa pr nx t) (hnd : t.flatten.Nodup)
    (hsub : ∀ e ∈ t.flatten, e ∈ s.keys) {fuel : Nat} (hf : t.height ≤ fuel) (d : Nat) :
    subtreeDepths s fuel t.root d = t.flattenDepth d := by
  cases t with
  | node e ts =>
    cases fuel with
    | zero =>
      rw [height_node] at hf
      exact absurd hf (Nat.not_succ_le_zero _)
    | succ f =>
      cases h with
      | node hget hlvl hpar hprev hnext hcount hfirst hch =>
        have hndF : (HTree.flattenF ts).Nodup := by
          rw [flatten_node] at hnd; exact List.Nodup.of_cons hnd
        have hsubF : ∀ e' ∈ HTree.flattenF ts, e' ∈ s.keys := fun e' he' =>
          hsub e' (by rw [flatten_node]; exact List.mem_cons_of_mem _ he')
        have hchain : childrenOf s e = ts.map HTree.root := by
          simp only [childrenOf, hget]
          rw [hfirst]
          exact repC_chainFrom hch (chain_fuel hndF hsubF)
        rw [HTree.root]
        simp only [subtreeDepths]
        rw [hchain, flattenDepth_node]
        rw [subtreeDepthsF_eq ts hch hndF hsubF
          (by rw [height_node] at hf; omega) (d + 1)]

theorem subtreeDepthsF_eq {s : Store ACompHierarchy} {lvl : Nat} {pa pr : Option Ent}
    (ts : List HTree) (h : RepC s lvl pa pr ts) (hnd : (HTree.flattenF ts).Nodup)
    (hsub : ∀ e ∈ HTree.flattenF ts, e ∈ s.keys) {fuel : Nat}
    (hf : HTree.heightF ts ≤ fuel) (d : Nat) :
    subtreeDepthsF s fuel (ts.map HTree.root) d = HTree.flattenDepthF ts d := by
  cases ts with
  | nil =>
    rw [List.map_nil, flattenDepthF_nil]
    simp [subtreeDepthsF]
  | cons t ts' =>
    cases h with
    | cons ht hts =>
      rw [List.map_cons, flattenDepthF_cons]
      simp only [subtreeDepthsF]
      rw [heightF_cons] at hf
      rw [flattenF_cons] at hnd hsub
      rw [subtreeDepths_eq t ht (hnd.sublist (List.sublist_append_left _ _))
        (fun e' he' => hsub e' (List.mem_append_left _ he'))
        (le_trans (le_max_left _ _) hf) d]
      rw [subtreeDepthsF_eq ts' hts (hnd.sublist (List.sublist_append_right _ _))
        (fun e' he' => hsub e' (List.mem_append_right _ he'))
        (le_trans (le_max_right _ _) hf) d]

end

/-! ### Relevel lemmas -/

theorem get_levelFold_notMem {base : Nat} {pairs : List (Ent × Nat)}
    {s : Store ACompHierarchy} {e : Ent} (h : ¬ e ∈ pairs.map Prod.fst) :
    (pairs.foldl
      (fun acc x => acc.modify x.1 (fun hh => { hh with m_level := base + x.2 })) s).get e
      = s.get e := by
  induction pairs generalizing s with
  | nil => rfl
  | cons x rest ih =>
    rw [List.map_cons, List.mem_cons] at h
    push_neg at h
    rw [List.foldl_cons, ih h.2, Store.get_modify_ne h.1]

theorem keys_levelFold {base : Nat} {pairs : List (Ent × Nat)} {s : Store ACompHierarchy} :
    (pairs.foldl
      (fun acc x => acc.modify x.1 (fun hh => { hh with m_level := base + x.2 })) s).keys
      = s.keys := by
  induction pairs generalizing s with
  | nil => rfl
  | cons x rest ih => rw [List.foldl_cons, ih, Store.keys_modify]

mutual

theorem repT_levelFold {s s0 : Store ACompHierarchy} {lvl : Nat} {pa pr nx : Option Ent}
    {b : Nat} (t : HTree) (h : RepT s lvl pa pr nx t) (hnd : t.flatten.Nodup)
    (hagree : ∀ e ∈ t.flatten, s0.get e = s.get e) (d : Nat) :
    RepT ((t.flattenDepth d).foldl
      (fun acc x => acc.modify x.1 (fun hh => { hh with m_level := b + x.2 })) s0)
      (b + d) pa pr nx t := by
  cases t with
  | node e ts =>
    cases h with
    | node hget hlvl hpar hprev hnext hcount hfirst hch =>
      rename_i h0
      rw [flatten_node] at hnd hagree
      have hndF : (HTree.flattenF ts).Nodup := List.Nodup.of_cons hnd
      have heF : ¬ e ∈ HTree.flattenF ts := (List.nodup_cons.mp hnd).1
      have hget0 : s0.get e = some h0 := (hagree e (List.mem_cons_self _ _)).trans hget
      have hagree1 : ∀ e' ∈ HTree.flattenF ts,
          (s0.modify e (fun hh => { hh with m_level := b + d })).get e' = s.get e' :=
        fun e' he' => by
          rw [Store.get_modify_ne (fun hee : e' = e => heF (hee ▸ he'))]
          exact hagree e' (List.mem_cons_of_mem _ he')
      rw [flattenDepth_node, List.foldl_cons]
      have hgs2 : ((HTree.flattenDepthF ts (d + 1)).foldl
          (fun acc x => acc.modify x.1 (fun hh => { hh with m_level := b + x.2 }))
          (s0.modify e (fun hh => { hh with m_level := b + d }))).get e
          = some { h0 with m_level := b + d } := by
        rw [get_levelFold_notMem (by rw [map_fst_flattenDepthF]; exact heF)]
        exact Store.get_modify_self hget0
      exact RepT.node hgs2 rfl hpar hprev hnext hcount hfirst
        (repC_levelFold ts hch hndF hagree1 (d + 1))

theorem repC_levelFold {s s0 : Store ACompHierarchy} {lvl : Nat} {pa pr : Option Ent}
    {b : Nat} (ts : List HTree) (h : RepC s lvl pa pr ts)
    (hnd : (HTree.flattenF ts).Nodup)
    (hagree : ∀ e ∈ HTree.flattenF ts, s0.get e = s.get e) (d : Nat) :
    RepC ((HTree.flattenDepthF ts d).foldl
      (fun acc x => acc.modify x.1 (fun hh => { hh with m_level := b + x.2 })) s0)
      (b + d) pa pr ts := by
  cases ts with
  | nil =>
    rw [flattenDepthF_nil]
    exact RepC.nil
  | cons t ts' =>
    cases h with
    | cons ht hts =>
      rw [flattenF_cons] at hnd hagree
      have hdisj := List.disjoint_of_nodup_append hnd
      have hndT : t.flatten.Nodup := hnd.sublist (List.sublist_append_left _ _)
      have hndF : (HTree.flattenF ts').Nodup := hnd.sublist (List.sublist_append_right _ _)
      rw [flattenDepthF_cons, List.foldl_append]
      have hA := repT_levelFold (b := b) t ht hndT
        (fun e' he' => hagree e' (List.mem_append_left _ he')) d
      have hAframe : ∀ e' ∈ HTree.flattenF ts',
          ((t.flattenDepth d).foldl
            (fun acc x => acc.modify x.1 (fun hh => { hh with m_level := b + x.2 })) s0).get e'
            = s.get e' := fun e' he' => by
        rw [get_levelFold_notMem
          (by rw [map_fst_flattenDepth]; exact fun hm => hdisj hm he')]
        exact hagree e' (List.mem_append_right _ he')
      refine RepC.cons ?_ (repC_levelFold ts' hts hndF hAframe d)
      exact repT_frame t hA (fun e' he' => by
        rw [get_levelFold_notMem
          (by rw [map_fst_flattenDepthF]; exact fun hm => hdisj he' hm)])

end

/-! ### writeChain establishment -/

theorem mem_flattenF_of_mem {t : HTree} {ts : List HTree} (ht : t ∈ ts) {e : Ent}
    (he : e ∈ t.flatten) : e ∈ HTree.flattenF ts := by
  induction ts with
  | nil => cases ht
  | cons x xs ih =>
    rw [flattenF_cons]
    rcases List.mem_cons.mp ht with rfl | hm
    · exact List.mem_append_left _ he
    · exact List.mem_append_right _ (ih hm)

theorem roots_mem_flattenF {ts : List HTree} {a : Ent} (h : a ∈ ts.map HTree.root) :
    a ∈ HTree.flattenF ts := by
  obtain ⟨t', ht', rfl⟩ := List.mem_map.mp h
  exact mem_flattenF_of_mem ht' root_mem_flatten

theorem repC_writeChainAux {p : Ent} {lvl : Nat} (us : List HTree) :
    ∀ {s : Store ACompHierarchy} {q : Option Ent},
    (∀ t ∈ us, ∃ pa0 pr0 nx0, RepT s lvl pa0 pr0 nx0 t) →
    (HTree.flattenF us).Nodup →
    ¬ p ∈ HTree.flattenF us →
    RepC (writeChainAux p s q (us.map HTree.root)) lvl (some p) q us := by
  induction us with
  | nil => intro s prev _ _ _; exact RepC.nil
  | cons t rest ih =>
    intro s prev hreps hnd hp
    rw [flattenF_cons] at hnd hp
    have hdisj := List.disjoint_of_nodup_append hnd
    have hndT : t.flatten.Nodup := hnd.sublist (List.sublist_append_left _ _)
    have hndR : (HTree.flattenF rest).Nodup := hnd.sublist (List.sublist_append_right _ _)
    have hpR : ¬ p ∈ HTree.flattenF rest := fun hm => hp (List.mem_append_right _ hm)
    obtain ⟨pa0, pr0, nx0, ht⟩ := hreps t (List.mem_cons_self _ _)
    cases t with
    | node e ts =>
      cases ht with
      | node hget hlvl hpar hprev hnext hcount hfirst hch =>
        rename_i h0
        have heT : e ∈ (HTree.node e ts).flatten := by
          rw [flatten_node]; exact List.mem_cons_self _ _
        have heNotR : ¬ e ∈ HTree.flattenF rest := fun hm => hdisj heT hm
        have heNotRoots : ¬ e ∈ rest.map HTree.root :=
          fun hm => heNotR (roots_mem_flattenF hm)
        have heNotTs : ¬ e ∈ HTree.flattenF ts := by
          rw [flatten_node] at hndT
          exact (List.nodup_cons.mp hndT).1
        have hrepsR : ∀ t' ∈ rest, ∃ a b c,
            RepT (s.modify e
              (fun hh => writeLinks hh (some p) prev ((rest.map HTree.root).head?)))
              lvl a b c t' := by
          intro t' ht'
          obtain ⟨a, b, c, hrep⟩ := hreps t' (List.mem_cons_of_mem _ ht')
          exact ⟨a, b, c, repT_frame t' hrep (fun e' he' =>
            Store.get_modify_ne (fun hee : e' = e =>
              heNotR (hee ▸ mem_flattenF_of_mem ht' he')))⟩
        have htail := ih (q := some e) hrepsR hndR hpR
        simp only [List.map_cons, HTree.root, writeChainAux]
        refine RepC.cons ?_ htail
        have hgetF : (writeChainAux p
            (s.modify e (fun hh => writeLinks hh (some p) prev ((rest.map HTree.root).head?)))
            (some e) (rest.map HTree.root)).get e
            = some (writeLinks h0 (some p) prev ((rest.map HTree.root).head?)) := by
          rw [get_writeChainAux_notMem heNotRoots]
          exact Store.get_modify_self hget
        refine RepT.node hgetF hlvl rfl rfl rootsHead_eq_head_map.symm hcount hfirst ?_
        refine repC_frame ts hch (fun e' he' => ?_)
        have he'T : e' ∈ (HTree.node e ts).flatten := by
          rw [flatten_node]; exact List.mem_cons_of_mem _ he'
        rw [get_writeChainAux_notMem (fun hm => hdisj he'T (roots_mem_flattenF hm))]
        exact Store.get_modify_ne (fun hee : e' = e => heNotTs (hee ▸ he'))

/-! ### Grafting new children at a node -/

mutual

theorem repT_graft {s s' : Store ACompHierarchy} {p : Ent} {us vs : List HTree}
    {lvl : Nat} {pa pr nx : Option Ent} (t : HTree)
    (h : RepT s lvl pa pr nx t)
    (hnd : t.flatten.Nodup)
    (hfind : findNode p t = some us)
    (agree : ∀ e ∈ t.flatten, e ≠ p → ¬ e ∈ HTree.flattenF us → s'.get e = s.get e)
    (hrec : ∀ hp0, s.get p = some hp0 → s'.get p =
        some { hp0 with m_childFirst := rootsHead vs, m_childCount := vs.length })
    (hvs : ∀ hp0, s.get p = some hp0 → RepC s' (hp0.m_level + 1) (some p) none vs) :
    RepT s' lvl pa pr nx (replaceAt p vs t) := by
  cases t with
  | node e ts =>
    cases h with
    | node hget hlvl hpar hprev hnext hcount hfirst hch =>
      rename_i h0
      rw [findNode] at hfind
      by_cases he : e = p
      · subst he
        rw [if_pos rfl] at hfind
        cases hfind
        rw [replaceAt, if_pos rfl]
        refine RepT.node (hrec h0 hget) hlvl hpar hprev hnext rfl rfl ?_
        have := hvs h0 hget
        rw [hlvl] at this
        exact this
      · rw [if_neg he] at hfind
        rw [flatten_node] at hnd
        obtain ⟨preD, sufD, hdec, _⟩ :=
          flattenF_replaceAtF_decomp (v := vs) ts (List.Nodup.of_cons hnd) hfind
        have heTs : ¬ e ∈ HTree.flattenF ts := (List.nodup_cons.mp hnd).1
        have husTs : ∀ a ∈ HTree.flattenF us, a ∈ HTree.flattenF ts := by
          intro a ha
          rw [hdec]
          exact List.mem_append_right _ (List.mem_cons_of_mem _ (List.mem_append_left _ ha))
        have hgete : s'.get e = some h0 := by
          rw [agree e (by rw [flatten_node]; exact List.mem_cons_self _ _) he
            (fun hm => heTs (husTs e hm))]
          exact hget
        rw [replaceAt, if_neg he]
        refine RepT.node hgete hlvl hpar hprev hnext
          (by rw [hcount, length_replaceAtF])
          (by rw [hfirst, rootsHead_replaceAtF]) ?_
        exact repC_graft ts hch (List.Nodup.of_cons hnd) hfind
          (fun e' he' hne' hnus' =>
            agree e' (by rw [flatten_node]; exact List.mem_cons_of_mem _ he') hne' hnus')
          hrec hvs

theorem repC_graft {s s' : Store ACompHierarchy} {p : Ent} {us vs : List HTree}
    {lvl : Nat} {pa pr : Option Ent} (ts : List HTree)
    (h : RepC s lvl pa pr ts)
    (hnd : (HTree.flattenF ts).Nodup)
    (hfind : findNodeF p ts = some us)
    (agree : ∀ e ∈ HTree.flattenF ts, e ≠ p → ¬ e ∈ HTree.flattenF us → s'.get e = s.get e)
    (hrec : ∀ hp0, s.get p = some hp0 → s'.get p =
        some { hp0 with m_childFirst := rootsHead vs, m_childCount := vs.length })
    (hvs : ∀ hp0, s.get p = some hp0 → RepC s' (hp0.m_level + 1) (some p) none vs) :
    RepC s' lvl pa pr (replaceAtF p vs ts) := by
  cases ts with
  | nil => rw [findNodeF] at hfind; cases hfind
  | cons t ts' =>
    cases h with
    | cons ht hts =>
      rw [findNodeF] at hfind
      rw [flattenF_cons] at hnd agree
      have hdisj := List.disjoint_of_nodup_append hnd
      have hndT : t.flatten.Nodup := hnd.sublist (List.sublist_append_left _ _)
      have hndR : (HTree.flattenF ts').Nodup := hnd.sublist (List.sublist_append_right _ _)
      rw [replaceAtF_cons]
      cases hft : findNode p t with
      | some us0 =>
        rw [hft] at hfind
        cases hfind
        have hp : p ∈ t.flatten := (findNode_isSome_iff t).mp (by rw [hft]; rfl)
        obtain ⟨hpmem, husT, hndus, hpus⟩ := node_facts_of_findNode t hndT hft
        have hts'eq : replaceAtF p vs ts' = ts' := replaceAtF_notMem ts' (hdisj hp)
        rw [hts'eq]
        refine RepC.cons ?_ ?_
        · exact repT_graft t ht hndT hft
            (fun e' he' hne' hnus' => agree e' (List.mem_append_left _ he') hne' hnus')
            hrec hvs
        · rw [root_replaceAt]
          refine repC_frame ts' hts (fun e' he' => ?_)
          refine agree e' (List.mem_append_right _ he')
            (fun hep => hdisj hp (hep ▸ he')) (fun hus => hdisj (husT e' hus) he')
      | none =>
        rw [hft] at hfind
        have hnp : ¬ p ∈ t.flatten := fun hm => by
          have := (findNode_isSome_iff t).mpr hm
          rw [hft] at this
          exact absurd this (by simp)
        obtain ⟨preD, sufD, hdec, _⟩ :=
          flattenF_replaceAtF_decomp (v := vs) ts' hndR hfind
        have husR : ∀ a ∈ HTree.flattenF us, a ∈ HTree.flattenF ts' := by
          intro a ha
          rw [hdec]
          exact List.mem_append_right _ (List.mem_cons_of_mem _ (List.mem_append_left _ ha))
        rw [replaceAt_notMem t hnp]
        refine RepC.cons ?_ ?_
        · rw [rootsHead_replaceAtF]
          refine repT_frame t ht (fun e' he' => ?_)
          exact agree e' (List.mem_append_left _ he')
            (fun hep => hnp (hep ▸ he')) (fun hus => hdisj he' (husR e' hus))
        · exact repC_graft ts' hts hndR hfind
            (fun e' he' hne' hnus' => agree e' (List.mem_append_right _ he') hne' hnus')
            hrec hvs

end

theorem flatten_sublist_flattenF {t : HTree} {ts : List HTree} (h : t ∈ ts) :
    t.flatten.Sublist (HTree.flattenF ts) := by
  induction ts with
  | nil => cases h
  | cons x xs ih =>
    rw [flattenF_cons]
    rcases List.mem_cons.mp h with rfl | hm
    · exact List.sublist_append_left _ _
    · exact (ih hm).trans (List.sublist_append_right _ _)

theorem replaceAtF_eq_map {p : Ent} {vs : List HTree} {ts : List HTree} :
    replaceAtF p vs ts = ts.map (replaceAt p vs) := by
  induction ts with
  | nil => rfl
  | cons t ts ih => rw [replaceAtF_cons, List.map_cons, ih]

/-- Navigation at the forest level: the record of a located node. -/
theorem repF_findNode_record {s : Store ACompHierarchy} {F : List HTree} {x : Ent}
    {us : List HTree} (hF : RepF s F) (hfind : findNodeF x F = some us) :
    ∃ hx, s.get x = some hx ∧ hx.m_childFirst = rootsHead us ∧
      hx.m_childCount = us.length ∧ RepC s (hx.m_level + 1) (some x) none us := by
  induction F with
  | nil => rw [findNodeF] at hfind; cases hfind
  | cons t F' ih =>
    rw [findNodeF] at hfind
    cases hft : findNode x t with
    | some us0 =>
      rw [hft] at hfind
      cases hfind
      obtain ⟨lvl, ht⟩ := hF t (List.mem_cons_self _ _)
      exact findNode_record t ht hft
    | none =>
      rw [hft] at hfind
      exact ih (fun t' ht' => hF t' (List.mem_cons_of_mem _ ht')) hfind

/-- Grafting new children at a node of the forest. -/
theorem repF_graft {s s' : Store ACompHierarchy} {p : Ent} {us vs : List HTree}
    (F : List HTree) (hF : RepF s F) (hnd : (HTree.flattenF F).Nodup)
    (hfind : findNodeF p F = some us)
    (agree : ∀ e ∈ HTree.flattenF F, e ≠ p → ¬ e ∈ HTree.flattenF us → s'.get e = s.get e)
    (hrec : ∀ hp0, s.get p = some hp0 → s'.get p =
        some { hp0 with m_childFirst := rootsHead vs, m_childCount := vs.length })
    (hvs : ∀ hp0, s.get p = some hp0 → RepC s' (hp0.m_level + 1) (some p) none vs) :
    RepF s' (replaceAtF p vs F) := by
  induction F with
  | nil => rw [findNodeF] at hfind; cases hfind
  | cons t F' ih =>
    rw [findNodeF] at hfind
    rw [flattenF_cons] at hnd agree
    have hdisj := List.disjoint_of_nodup_append hnd
    have hndT : t.flatten.Nodup := hnd.sublist (List.sublist_append_left _ _)
    have hndR : (HTree.flattenF F').Nodup := hnd.sublist (List.sublist_append_right _ _)
    intro t' ht'
    rw [replaceAtF_cons] at ht'
    cases hft : findNode p t with
    | some us0 =>
      rw [hft] at hfind
      cases hfind
      have hp : p ∈ t.flatten := (findNode_isSome_iff t).mp (by rw [hft]; rfl)
      obtain ⟨hpmem, husT, hndus, hpus⟩ := node_facts_of_findNode t hndT hft
      rcases List.mem_cons.mp ht' with rfl | hm
      · obtain ⟨lvl, ht0⟩ := hF t (List.mem_cons_self _ _)
        exact ⟨lvl, repT_graft t ht0 hndT hft
          (fun e' he' hne' hnus' => agree e' (List.mem_append_left _ he') hne' hnus')
          hrec hvs⟩
      · rw [replaceAtF_notMem F' (hdisj hp)] at hm
        obtain ⟨lvl, ht0⟩ := hF t' (List.mem_cons_of_mem _ hm)
        refine ⟨lvl, repT_frame t' ht0 (fun e' he' => ?_)⟩
        have he'F : e' ∈ HTree.flattenF F' :=
          mem_flattenF_of_mem hm he'
        exact agree e' (List.mem_append_right _ he'F)
          (fun hep => hdisj hp (hep ▸ he'F))
          (fun hus => hdisj (husT e' hus) he'F)
    | none =>
      rw [hft] at hfind
      have hnp : ¬ p ∈ t.flatten := fun hm => by
        have := (findNode_isSome_iff t).mpr hm
        rw [hft] at this
        exact absurd this (by simp)
      obtain ⟨preD, sufD, hdec, _⟩ :=
        flattenF_replaceAtF_decomp (v := vs) F' hndR hfind
      have husR : ∀ a ∈ HTree.flattenF us, a ∈ HTree.flattenF F' := by
        intro a ha
        rw [hdec]
        exact List.mem_append_right _ (List.mem_cons_of_mem _ (List.mem_append_left _ ha))
      rcases List.mem_cons.mp (by rw [replaceAt_notMem t hnp] at ht'; exact ht') with rfl | hm
      · obtain ⟨lvl, ht0⟩ := hF t' (List.mem_cons_self _ _)
        refine ⟨lvl, repT_frame t' ht0 (fun e' he' => ?_)⟩
        exact agree e' (List.mem_append_left _ he')
          (fun hep => hnp (hep ▸ he')) (fun hus => hdisj he' (husR e' hus))
      · exact ih (fun t0 ht0 => hF t0 (List.mem_cons_of_mem _ ht0)) hndR hfind
          (fun e' he' hne' hnus' => agree e' (List.mem_append_right _ he') hne' hnus')
          t' hm

/-! ### removeRoot and membership helpers -/

theorem size_insert {α : Type} {s : Store α} {e : Ent} {v : α} :
    (s.insert e v).size = s.size + 1 := List.length_cons _ _

theorem mem_flattenF_decomp {ts : List HTree} {e : Ent} (h : e ∈ HTree.flattenF ts) :
    ∃ t ∈ ts, e ∈ t.flatten := by
  induction ts with
  | nil => rw [flattenF_nil] at h; cases h
  | cons t ts' ih =>
    rw [flattenF_cons] at h
    rcases List.mem_append.mp h with h | h
    · exact ⟨t, List.mem_cons_self _ _, h⟩
    · obtain ⟨t', ht', he'⟩ := ih h
      exact ⟨t', List.mem_cons_of_mem _ ht', he'⟩

/-- A located node inside a member tree is located identically by the scan of
the whole duplicate-free list. -/
theorem findNodeF_trans {ts : List HTree} {t : HTree} {x : Ent} {usx : List HTree}
    (hnd : (HTree.flattenF ts).Nodup) (hm : t ∈ ts) (hfind : findNode x t = some usx) :
    findNodeF x ts = some usx := by
  induction ts with
  | nil => cases hm
  | cons t0 ts' ih =>
    rw [flattenF_cons] at hnd
    have hdisj := List.disjoint_of_nodup_append hnd
    rw [findNodeF]
    rcases List.mem_cons.mp hm with rfl | hm'
    · rw [hfind]
    · have hx : x ∈ t.flatten := (findNode_isSome_iff t).mp (by rw [hfind]; rfl)
      have hxF : x ∈ HTree.flattenF ts' := mem_flattenF_of_mem hm' hx
      have hnone : findNode x t0 = none := by
        cases hf0 : findNode x t0 with
        | none => rfl
        | some u =>
          exact absurd ((findNode_isSome_iff t0).mp (by rw [hf0]; rfl))
            (fun hmem => hdisj hmem hxF)
      rw [hnone]
      exact ih (hnd.sublist (List.sublist_append_right _ _)) hm'

/-- Forest version of `node_facts_of_findNode`. -/
theorem nodeF_facts_of_findNodeF {p : Ent} {us : List HTree} (ts : List HTree)
    (hnd : (HTree.flattenF ts).Nodup) (hfind : findNodeF p ts = some us) :
    p ∈ HTree.flattenF ts ∧ (∀ e ∈ HTree.flattenF us, e ∈ HTree.flattenF ts) ∧
      (HTree.flattenF us).Nodup ∧ ¬ p ∈ HTree.flattenF us := by
  obtain ⟨pre, suf, h1, _⟩ := flattenF_replaceAtF_decomp (v := us) ts hnd hfind
  have hsl : (p :: (HTree.flattenF us ++ suf)).Sublist (HTree.flattenF ts) := by
    rw [h1]; exact List.sublist_append_right _ _
  have hnd2 : (p :: (HTree.flattenF us ++ suf)).Nodup := hnd.sublist hsl
  refine ⟨?_, ?_, ?_, ?_⟩
  · rw [h1]; exact List.mem_append_right _ (List.mem_cons_self _ _)
  · intro e he
    rw [h1]
    exact List.mem_append_right _ (List.mem_cons_of_mem _ (List.mem_append_left _ he))
  · exact (List.Nodup.of_cons hnd2).sublist (List.sublist_append_left _ _)
  · intro hm
    exact (List.nodup_cons.mp hnd2).1 (List.mem_append_left _ hm)

theorem removeRoot_notMem {c : Ent} {ts : List HTree} (h : ¬ c ∈ ts.map HTree.root) :
    removeRoot c ts = ts := by
  induction ts with
  | nil => rfl
  | cons t ts' ih =>
    rw [List.map_cons, List.mem_cons] at h
    push_neg at h
    rw [removeRoot, List.filter_cons, if_pos (bne_iff_ne.mpr (fun hh => h.1 hh.symm))]
    show t :: removeRoot c ts' = t :: ts'
    rw [ih h.2]

theorem map_root_removeRoot {c : Ent} {ts : List HTree}
    (hnd : (ts.map HTree.root).Nodup) :
    (removeRoot c ts).map HTree.root = (ts.map HTree.root).erase c := by
  induction ts with
  | nil => rfl
  | cons t ts' ih =>
    rw [List.map_cons] at hnd ⊢
    by_cases hr : t.root = c
    · rw [removeRoot, List.filter_cons, if_neg (by rw [hr]; simp)]
      have hnc : ¬ c ∈ ts'.map HTree.root := fun hm =>
        (List.nodup_cons.mp hnd).1 (hr ▸ hm)
      show (removeRoot c ts').map HTree.root = _
      rw [removeRoot_notMem hnc, hr, List.erase_cons_head]
    · rw [removeRoot, List.filter_cons, if_pos (bne_iff_ne.mpr hr)]
      show (t :: removeRoot c ts').map HTree.root = _
      rw [List.map_cons, List.erase_cons_tail (by simp [hr]),
        ih (List.Nodup.of_cons hnd)]

theorem removeRoot_sublist {c : Ent} {ts : List HTree} : (removeRoot c ts).Sublist ts :=
  List.filter_sublist _

theorem flattenF_sublist_of_sublist {ts' ts : List HTree} (h : ts'.Sublist ts) :
    (HTree.flattenF ts').Sublist (HTree.flattenF ts) := by
  induction h with
  | slnil => exact List.Sublist.refl _
  | cons t htl ih =>
    rw [flattenF_cons]
    exact ih.trans (List.sublist_append_right _ _)
  | cons₂ t htl ih =>
    rw [flattenF_cons, flattenF_cons]
    exact ih.append_left _

/-- The subtree whose root is removed is disjoint from what remains. -/
theorem disjoint_removeRoot {c : Ent} {ts : List HTree} {tc : HTree}
    (hnd : (HTree.flattenF ts).Nodup) (hm : tc ∈ ts) (hr : tc.root = c) :
    tc.flatten.Disjoint (HTree.flattenF (removeRoot c ts)) := by
  induction ts with
  | nil => cases hm
  | cons t ts' ih =>
    rw [flattenF_cons] at hnd
    have hdisj := List.disjoint_of_nodup_append hnd
    rcases List.mem_cons.mp hm with rfl | hm'
    · rw [removeRoot, List.filter_cons, if_neg (by rw [hr]; simp)]
      have hnc : ¬ c ∈ ts'.map HTree.root := fun hmm =>
        hdisj (hr ▸ root_mem_flatten) (roots_mem_flattenF hmm)
      show tc.flatten.Disjoint (HTree.flattenF (removeRoot c ts'))
      rw [removeRoot_notMem hnc]
      exact hdisj
    · have hrt : ¬ t.root = c := fun hh =>
        hdisj (hh ▸ root_mem_flatten) (hr ▸ mem_flattenF_of_mem hm' root_mem_flatten)
      rw [removeRoot, List.filter_cons, if_pos (bne_iff_ne.mpr hrt)]
      show tc.flatten.Disjoint (HTree.flattenF (t :: removeRoot c ts'))
      rw [flattenF_cons]
      intro a ha hb
      rcases List.mem_append.mp hb with hb | hb
      · exact hdisj hb (mem_flattenF_of_mem hm' ha)
      · exact ih (hnd.sublist (List.sublist_append_right _ _)) hm' ha hb

/-- Removing the subtree rooted at `c` splits the flatten up to permutation. -/
theorem perm_removeRoot {c : Ent} {ts : List HTree} {tc : HTree}
    (hnd : (HTree.flattenF ts).Nodup) (hm : tc ∈ ts) (hr : tc.root = c) :
    (HTree.flattenF ts).Perm (tc.flatten ++ HTree.flattenF (removeRoot c ts)) := by
  induction ts with
  | nil => cases hm
  | cons t ts' ih =>
    rw [flattenF_cons] at hnd
    have hdisj := List.disjoint_of_nodup_append hnd
    rcases List.mem_cons.mp hm with rfl | hm'
    · rw [removeRoot, List.filter_cons, if_neg (by rw [hr]; simp)]
      have hnc : ¬ c ∈ ts'.map HTree.root := fun hmm =>
        hdisj (hr ▸ root_mem_flatten) (roots_mem_flattenF hmm)
      show (HTree.flattenF (tc :: ts')).Perm (tc.flatten ++ HTree.flattenF (removeRoot c ts'))
      rw [removeRoot_notMem hnc, flattenF_cons]
    · have hrt : ¬ t.root = c := fun hh =>
        hdisj (hh ▸ root_mem_flatten) (hr ▸ mem_flattenF_of_mem hm' root_mem_flatten)
      rw [removeRoot, List.filter_cons, if_pos (bne_iff_ne.mpr hrt)]
      show (HTree.flattenF (t :: ts')).Perm (tc.flatten ++ HTree.flattenF (t :: removeRoot c ts'))
      rw [flattenF_cons, flattenF_cons]
      refine List.Perm.trans
        ((ih (hnd.sublist (List.sublist_append_right _ _)) hm').append_left _) ?_
      rw [← List.append_assoc, ← List.append_assoc]
      exact (List.perm_append_comm).append_right _

/-! ### Locating the parent edge of an entity in the forest -/

mutual

theorem parent_link_T {s : Store ACompHierarchy} {lvl : Nat} {pa pr nx : Option Ent}
    {c : Ent} {hc : ACompHierarchy} (t : HTree) (h : RepT s lvl pa pr nx t)
    (hnd : t.flatten.Nodup) (hcmem : c ∈ t.flatten) (hgc : s.get c = some hc) :
    (c = t.root ∧ hc.m_parent = pa) ∨
      (∃ x usx, findNode x t = some usx ∧ hc.m_parent = some x ∧
        ∃ t' ∈ usx, t'.root = c) := by
  cases t with
  | node e ts =>
    cases h with
    | node hget hlvl hpar hprev hnext hcount hfirst hch =>
      rename_i h0
      rw [flatten_node] at hcmem hnd
      rcases List.mem_cons.mp hcmem with rfl | hdeep
      · left
        rw [hget] at hgc
        cases hgc
        exact ⟨rfl, hpar⟩
      · right
        have hce : ¬ c = e := fun hh => (List.nodup_cons.mp hnd).1 (hh ▸ hdeep)
        rcases parent_link_C ts hch (List.Nodup.of_cons hnd) hdeep hgc with hroot | hdeeper
        · obtain ⟨t', hmem, hroott', hpar'⟩ := hroot
          exact ⟨e, ts, by rw [findNode, if_pos rfl], hpar', t', hmem, hroott'⟩
        · obtain ⟨x, usx, hfindx, hparx, hwit⟩ := hdeeper
          refine ⟨x, usx, ?_, hparx, hwit⟩
          have hxmem : x ∈ HTree.flattenF ts :=
            (findNodeF_isSome_iff ts).mp (by rw [hfindx]; rfl)
          have hex : ¬ e = x := fun hh => (List.nodup_cons.mp hnd).1 (hh ▸ hxmem)
          rw [findNode, if_neg hex]
          exact hfindx

theorem parent_link_C {s : Store ACompHierarchy} {lvl : Nat} {pa pr : Option Ent}
    {c : Ent} {hc : ACompHierarchy} (ts : List HTree) (h : RepC s lvl pa pr ts)
    (hnd : (HTree.flattenF ts).Nodup) (hcmem : c ∈ HTree.flattenF ts)
    (hgc : s.get c = some hc) :
    (∃ t' ∈ ts, t'.root = c ∧ hc.m_parent = pa) ∨
      (∃ x usx, findNodeF x ts = some usx ∧ hc.m_parent = some x ∧
        ∃ t'' ∈ usx, t''.root = c) := by
  cases ts with
  | nil => rw [flattenF_nil] at hcmem; cases hcmem
  | cons t ts' =>
    cases h with
    | cons ht hts =>
      rw [flattenF_cons] at hcmem hnd
      have hdisj := List.disjoint_of_nodup_append hnd
      rcases List.mem_append.mp hcmem with hmt | hmr
      · rcases parent_link_T t ht (hnd.sublist (List.sublist_append_left _ _)) hmt hgc with
          ⟨hroot, hpar'⟩ | ⟨x, usx, hfindx, hparx, hwit⟩
        · exact Or.inl ⟨t, List.mem_cons_self _ _, hroot.symm, hpar'⟩
        · refine Or.inr ⟨x, usx, ?_, hparx, hwit⟩
          rw [findNodeF, hfindx]
      · rcases parent_link_C ts' hts (hnd.sublist (List.sublist_append_right _ _)) hmr hgc
          with ⟨t', hmem, hroott', hpar'⟩ | ⟨x, usx, hfindx, hparx, hwit⟩
        · exact Or.inl ⟨t', List.mem_cons_of_mem _ hmem, hroott', hpar'⟩
        · refine Or.inr ⟨x, usx, ?_, hparx, hwit⟩
          have hxmem : x ∈ HTree.flattenF ts' :=
            (findNodeF_isSome_iff ts').mp (by rw [hfindx]; rfl)
          have hnone : findNode x t = none := by
            cases hf0 : findNode x t with
            | none => rfl
            | some u =>
              exact absurd ((findNode_isSome_iff t).mp (by rw [hf0]; rfl))
                (fun hmem => hdisj hmem hxmem)
          rw [findNodeF, hnone]
          exact hfindx

end

/-- In an invariant state, the parent link of any alive entity locates it as
a child of its parent's node in the forest. -/
theorem parent_link_F {next : Ent} {s : Store ACompHierarchy} {F : List HTree}
    {c q : Ent} {hc : ACompHierarchy} (hI : InvWith next s F)
    (hgc : s.get c = some hc) (hq : hc.m_parent = some q) :
    ∃ usq, findNodeF q F = some usq ∧ ∃ t' ∈ usq, t'.root = c := by
  obtain ⟨hF, hnd, halive, _, _⟩ := hI
  have hcmem : c ∈ HTree.flattenF F := (halive c).mp (by rw [hgc]; rfl)
  obtain ⟨t, htm, hcm⟩ := mem_flattenF_decomp hcmem
  obtain ⟨lvl, ht⟩ := hF t htm
  rcases parent_link_T t ht (hnd.sublist (flatten_sublist_flattenF htm)) hcm hgc with
    ⟨_, hpar⟩ | ⟨x, usx, hfind, hparx, hwit⟩
  · rw [hq] at hpar; cases hpar
  · rw [hq] at hparx
    cases hparx
    exact ⟨usx, findNodeF_trans hnd htm hfind, hwit⟩

/-- In an invariant state, an alive entity that is the root of no forest
tree has its parent's record alive one level up. -/
theorem parent_level_F {next : Ent} {s : Store ACompHierarchy} {F : List HTree}
    {c q : Ent} {hc : ACompHierarchy} (hI : InvWith next s F)
    (hgc : s.get c = some hc) (hq : hc.m_parent = some q) :
    ∃ hq0, s.get q = some hq0 ∧ hc.m_level = hq0.m_level + 1 := by
  obtain ⟨usq, hfind, t', hmem, hroot⟩ := parent_link_F hI hgc hq
  obtain ⟨hq0, hgq, _, _, hch⟩ := repF_findNode_record hI.1 hfind
  obtain ⟨pr', nx', ht'⟩ := repC_mem hch hmem
  cases t' with
  | node e' ts' =>
    cases ht' with
    | node hget' hlvl' _ _ _ _ _ _ =>
      rw [HTree.root] at hroot
      subst hroot
      rw [hgc] at hget'
      cases hget'
      exact ⟨hq0, hgq, hlvl'⟩

/-! ### Invariant preservation: hier_create_child -/

theorem find_of_alive {F : List HTree} {p : Ent} (hmem : p ∈ HTree.flattenF F) :
    ∃ us, findNodeF p F = some us := by
  cases hf : findNodeF p F with
  | some us => exact ⟨us, rfl⟩
  | none =>
    exact absurd ((findNodeF_isSome_iff F).mpr hmem) (by rw [hf]; simp)

theorem alive_sub_keys {next : Ent} {s : Store ACompHierarchy} {F : List HTree}
    (hI : InvWith next s F) : ∀ e ∈ HTree.flattenF F, e ∈ s.keys := fun e he =>
  Store.get_isSome_iff_mem_keys.mp ((hI.2.2.1 e).mpr he)

theorem hierInv_create {sc : SceneState} (hI : HierInv sc.m_next sc.m_hier)
    {parent : Ent} {name : String} {sc' : SceneState} {child : Ent}
    (hop : hier_create_child sc parent name = some (sc', child)) :
    HierInv sc'.m_next sc'.m_hier := by
  obtain ⟨F, hIW⟩ := hI
  obtain ⟨hF, hnd, halive, hkeys, hfresh⟩ := hIW
  cases hget : sc.m_hier.get parent with
  | none => rw [hier_create_child, hget] at hop; cases hop
  | some ph =>
    simp only [hier_create_child, hget] at hop
    rw [Option.some.injEq, Prod.mk.injEq] at hop
    obtain ⟨hsc, hchild⟩ := hop
    subst hsc
    subst hchild
    have hIW : InvWith sc.m_next sc.m_hier F := ⟨hF, hnd, halive, hkeys, hfresh⟩
    -- the parent's node in the forest
    have hpmemF : parent ∈ HTree.flattenF F := (halive parent).mp (by rw [hget]; rfl)
    obtain ⟨us, hfind⟩ := find_of_alive hpmemF
    obtain ⟨hp0, hgp0, hfirst0, hcount0, hch0⟩ := repF_findNode_record hF hfind
    rw [hget] at hgp0
    cases hgp0
    obtain ⟨hpF, husF, hndus, hpus⟩ := nodeF_facts_of_findNodeF F hnd hfind
    -- freshness of the new entity
    have hchildK : ¬ sc.m_next ∈ sc.m_hier.keys :=
      fun hm => absurd (hfresh _ hm) (lt_irrefl _)
    have hchildF : ¬ sc.m_next ∈ HTree.flattenF F := fun hm =>
      hchildK (alive_sub_keys hIW _ hm)
    have hpnec : parent ≠ sc.m_next := fun hh =>
      hchildK (hh ▸ alive_sub_keys hIW _ hpmemF)
    -- names for the two stores built by the operation
    set rec0 : ACompHierarchy :=
      { m_name := name, m_level := ph.m_level + 1, m_parent := some parent } with hrec0
    set s1 := sc.m_hier.insert sc.m_next rec0 with hs1
    have hgp1 : s1.get parent = some ph := by
      rw [hs1, Store.get_insert_ne hpnec]; exact hget
    have huskeys1 : ∀ e ∈ HTree.flattenF us, e ∈ s1.keys := by
      intro e he
      rw [hs1, Store.keys_insert]
      exact List.mem_cons_of_mem _ (alive_sub_keys hIW _ (husF e he))
    have hchRepC1 : RepC s1 (ph.m_level + 1) (some parent) none us :=
      repC_frame us hch0 (fun e' he' => by
        rw [hs1]
        exact Store.get_insert_ne (fun hh : e' = sc.m_next =>
          hchildF (hh ▸ husF e' he')))
    have hchildren1 : childrenOf s1 parent = us.map HTree.root := by
      simp only [childrenOf, hgp1]
      rw [hfirst0]
      exact repC_chainFrom hchRepC1 (chain_fuel hndus huskeys1)
    -- the new child subtree
    set leaf : HTree := HTree.node sc.m_next [] with hleaf
    set vs : List HTree := leaf :: us with hvs
    have hflatvs : HTree.flattenF vs = sc.m_next :: HTree.flattenF us := by
      rw [hvs, flattenF_cons, hleaf, flatten_node, flattenF_nil]
      rfl
    have hvsmap : vs.map HTree.root = sc.m_next :: us.map HTree.root := by
      rw [hvs, List.map_cons, hleaf, HTree.root]
    have hndvs : (HTree.flattenF vs).Nodup := by
      rw [hflatvs]
      exact List.nodup_cons.mpr ⟨fun hm => hchildF (husF _ hm), hndus⟩
    have hpvs : ¬ parent ∈ HTree.flattenF vs := by
      rw [hflatvs]
      intro hm
      rcases List.mem_cons.mp hm with hh | hh
      · exact hpnec hh
      · exact hpus hh
    -- rewriting the operation's store into writeChainAux form
    have hop_eq : writeChain s1 parent (sc.m_next :: childrenOf s1 parent) =
        writeChainAux parent
          (s1.modify parent (fun h => { h with
            m_childFirst := (vs.map HTree.root).head?,
            m_childCount := (vs.map HTree.root).length }))
          none (vs.map HTree.root) := by
      rw [hchildren1, writeChain, hvsmap]
    have hrepsVs : ∀ t ∈ vs, ∃ a b c0,
        RepT (s1.modify parent (fun h => { h with
          m_childFirst := (vs.map HTree.root).head?,
          m_childCount := (vs.map HTree.root).length })) (ph.m_level + 1) a b c0 t := by
      intro t ht
      rw [hvs] at ht
      rcases List.mem_cons.mp ht with rfl | hm
      · refine ⟨some parent, none, none, ?_⟩
        have hgc : (s1.modify parent (fun h => { h with
            m_childFirst := (vs.map HTree.root).head?,
            m_childCount := (vs.map HTree.root).length })).get sc.m_next = some rec0 := by
          rw [Store.get_modify_ne (fun hh => hpnec hh.symm), hs1]
          exact Store.get_insert_self
        exact RepT.node hgc rfl rfl rfl rfl rfl rfl RepC.nil
      · obtain ⟨b, c0, hrep⟩ := repC_mem hchRepC1 hm
        refine ⟨some parent, b, c0, repT_frame _ hrep (fun e' he' => ?_)⟩
        exact Store.get_modify_ne (fun hh : e' = parent =>
          hpus (hh ▸ mem_flattenF_of_mem hm he'))
    have hRepCvs : RepC (writeChain s1 parent (sc.m_next :: childrenOf s1 parent))
        (ph.m_level + 1) (some parent) none vs := by
      rw [hop_eq]
      exact repC_writeChainAux vs hrepsVs hndvs hpvs
    -- parent's rewritten record
    have hpnotcs : ¬ parent ∈ sc.m_next :: childrenOf s1 parent := by
      rw [hchildren1]
      intro hm
      rcases List.mem_cons.mp hm with hh | hh
      · exact hpnec hh
      · exact hpus (roots_mem_flattenF hh)
    have hrecP : (writeChain s1 parent (sc.m_next :: childrenOf s1 parent)).get parent =
        some { ph with m_childFirst := rootsHead vs, m_childCount := vs.length } := by
      rw [get_writeChain_self hgp1 hpnotcs, hchildren1]
      simp [hvs, hleaf, rootsHead, HTree.root, List.length_map]
    -- frame for untouched entities
    have hagree : ∀ e ∈ HTree.flattenF F, e ≠ parent → ¬ e ∈ HTree.flattenF us →
        (writeChain s1 parent (sc.m_next :: childrenOf s1 parent)).get e =
          sc.m_hier.get e := by
      intro e he hne hnus
      have hnechild : e ≠ sc.m_next := fun hh => hchildF (hh ▸ he)
      rw [get_writeChain_notMem hne (fun hm => by
        rw [hchildren1] at hm
        rcases List.mem_cons.mp hm with hh | hh
        · exact hnechild hh
        · exact hnus (roots_mem_flattenF hh)),
        hs1, Store.get_insert_ne hnechild]
    -- graft the new children list into the forest
    have hgraft : RepF (writeChain s1 parent (sc.m_next :: childrenOf s1 parent))
        (replaceAtF parent vs F) := by
      refine repF_graft F hF hnd hfind hagree ?_ ?_
      · intro hp0 hgethp0
        rw [hget] at hgethp0
        cases hgethp0
        exact hrecP
      · intro hp0 hgethp0
        rw [hget] at hgethp0
        cases hgethp0
        exact hRepCvs
    -- bookkeeping: membership, nodup, keys, freshness
    obtain ⟨pre, suf, hdec1, hdec2⟩ := flattenF_replaceAtF_decomp (v := vs) F hnd hfind
    have hpermF' : (HTree.flattenF (replaceAtF parent vs F)).Perm
        (sc.m_next :: HTree.flattenF F) := by
      rw [hdec2, hdec1, hflatvs]
      have h1 : pre ++ parent :: ((sc.m_next :: HTree.flattenF us) ++ suf) =
          (pre ++ [parent]) ++ (sc.m_next :: (HTree.flattenF us ++ suf)) := by
        simp [List.append_assoc]
      have h2 : sc.m_next :: (pre ++ parent :: (HTree.flattenF us ++ suf)) =
          sc.m_next :: ((pre ++ [parent]) ++ (HTree.flattenF us ++ suf)) := by
        simp [List.append_assoc]
      rw [h1, h2]
      exact List.perm_middle
    have hndF' : (HTree.flattenF (replaceAtF parent vs F)).Nodup :=
      (List.Perm.nodup_iff hpermF').mpr (List.nodup_cons.mpr ⟨hchildF, hnd⟩)
    have hmemF' : ∀ e, e ∈ HTree.flattenF (replaceAtF parent vs F) ↔
        e = sc.m_next ∨ e ∈ HTree.flattenF F := by
      intro e
      rw [hpermF'.mem_iff, List.mem_cons]
    have hkeys2 : (writeChain s1 parent (sc.m_next :: childrenOf s1 parent)).keys =
        sc.m_next :: sc.m_hier.keys := by
      rw [keys_writeChain, hs1, Store.keys_insert]
    refine ⟨replaceAtF parent vs F, hgraft, hndF', ?_, ?_, ?_⟩
    · intro e
      show ((writeChain s1 parent (sc.m_next :: childrenOf s1 parent)).get e).isSome ↔ _
      rw [Store.get_isSome_iff_mem_keys, hkeys2, List.mem_cons, hmemF' e]
      constructor
      · rintro (h | h)
        · exact Or.inl h
        · exact Or.inr ((halive e).mp (Store.get_isSome_iff_mem_keys.mpr h))
      · rintro (h | h)
        · exact Or.inl h
        · exact Or.inr (Store.get_isSome_iff_mem_keys.mp ((halive e).mpr h))
    · show (writeChain s1 parent (sc.m_next :: childrenOf s1 parent)).keys.Nodup
      rw [hkeys2]
      exact List.nodup_cons.mpr ⟨hchildK, hkeys⟩
    · show ∀ e ∈ (writeChain s1 parent (sc.m_next :: childrenOf s1 parent)).keys,
        e < sc.m_next + 1
      intro e he
      rw [hkeys2] at he
      rcases List.mem_cons.mp he with rfl | he'
      · exact Nat.lt_succ_self _
      · exact Nat.lt_succ_of_lt (hfresh e he')

/-! ### Invariant preservation: detaching a subtree -/

theorem repT_root_level {s : Store ACompHierarchy} {lvl : Nat} {pa pr nx : Option Ent}
    {t : HTree} (h : RepT s lvl pa pr nx t) :
    ∃ h0, s.get t.root = some h0 ∧ h0.m_level = lvl := by
  cases t with
  | node e ts =>
    cases h with
    | node hget hlvl _ _ _ _ _ _ => exact ⟨_, hget, hlvl⟩

theorem invWith_detach {next : Ent} {s : Store ACompHierarchy} {F : List HTree}
    (hIW : InvWith next s F) {c q : Ent} {hc : ACompHierarchy}
    (hgc : s.get c = some hc) (hq : hc.m_parent = some q) :
    ∃ usq usc,
      findNodeF q F = some usq ∧
      HTree.node c usc ∈ usq ∧
      InvWith next (detachStore s c q)
        (replaceAtF q (removeRoot c usq) F ++ [HTree.node c usc]) ∧
      (∀ e h', s.get e = some h' →
        ∃ h'', (detachStore s c q).get e = some h'' ∧ h''.m_level = h'.m_level) := by
  obtain ⟨hF, hnd, halive, hkeys, hfresh⟩ := hIW
  have hIW : InvWith next s F := ⟨hF, hnd, halive, hkeys, hfresh⟩
  obtain ⟨usq, hfindq, tc, htcmem, htcroot⟩ := parent_link_F hIW hgc hq
  obtain ⟨hq0, hgq, hfirstq, hcountq, hchq⟩ := repF_findNode_record hF hfindq
  obtain ⟨hqmemF, husqF, hndusq, hqusq⟩ := nodeF_facts_of_findNodeF F hnd hfindq
  cases tc with
  | node c0 usc =>
    rw [HTree.root] at htcroot
    subst c0
    -- basic membership facts
    have hcmemusq : c ∈ HTree.flattenF usq := mem_flattenF_of_mem htcmem root_mem_flatten
    have hcq : c ≠ q := fun hh => hqusq (hh ▸ hcmemusq)
    have htcFlat : (HTree.node c usc).flatten.Nodup := by
      refine hndusq.sublist (flatten_sublist_flattenF htcmem)
    have hdisjvs : (HTree.node c usc).flatten.Disjoint
        (HTree.flattenF (removeRoot c usq)) := disjoint_removeRoot hndusq htcmem rfl
    have hcvs : ¬ c ∈ HTree.flattenF (removeRoot c usq) := fun hm =>
      hdisjvs (by rw [flatten_node]; exact List.mem_cons_self _ _) hm
    have hvsSubUsq : ∀ e ∈ HTree.flattenF (removeRoot c usq), e ∈ HTree.flattenF usq :=
      fun e he =>
        (flattenF_sublist_of_sublist removeRoot_sublist).subset he
    have hndvs : (HTree.flattenF (removeRoot c usq)).Nodup :=
      hndusq.sublist (flattenF_sublist_of_sublist removeRoot_sublist)
    have hqvs : ¬ q ∈ HTree.flattenF (removeRoot c usq) := fun hm => hqusq (hvsSubUsq _ hm)
    have hrootsNodup : (usq.map HTree.root).Nodup := hndusq.sublist roots_sublist_flattenF
    -- the stored chain of q, and the erase rewriting
    have husqkeys : ∀ e ∈ HTree.flattenF usq, e ∈ s.keys :=
      fun e he => alive_sub_keys hIW _ (husqF e he)
    have hchildrenq : childrenOf s q = usq.map HTree.root := by
      simp only [childrenOf, hgq]
      rw [hfirstq]
      exact repC_chainFrom hchq (chain_fuel hndusq husqkeys)
    have herase : (childrenOf s q).erase c = (removeRoot c usq).map HTree.root := by
      rw [hchildrenq, map_root_removeRoot hrootsNodup]
    -- establishing the rewritten chain of q
    have hrepsVs : ∀ t ∈ removeRoot c usq, ∃ a b c1,
        RepT (s.modify q (fun h => { h with
          m_childFirst := ((removeRoot c usq).map HTree.root).head?,
          m_childCount := ((removeRoot c usq).map HTree.root).length }))
          (hq0.m_level + 1) a b c1 t := by
      intro t ht
      obtain ⟨b, c1, hrep⟩ := repC_mem hchq (removeRoot_sublist.subset ht)
      refine ⟨some q, b, c1, repT_frame _ hrep (fun e' he' => ?_)⟩
      exact Store.get_modify_ne (fun hh : e' = q =>
        hqusq (hh ▸ mem_flattenF_of_mem (removeRoot_sublist.subset ht) he'))
    have hop_eq : writeChain s q ((childrenOf s q).erase c) =
        writeChainAux q (s.modify q (fun h => { h with
          m_childFirst := ((removeRoot c usq).map HTree.root).head?,
          m_childCount := ((removeRoot c usq).map HTree.root).length }))
          none ((removeRoot c usq).map HTree.root) := by
      rw [herase, writeChain]
    have hRepCvs : RepC (writeChain s q ((childrenOf s q).erase c))
        (hq0.m_level + 1) (some q) none (removeRoot c usq) := by
      rw [hop_eq]
      exact repC_writeChainAux _ hrepsVs hndvs hqvs
    have hqnotvsR : ¬ q ∈ (removeRoot c usq).map HTree.root :=
      fun hm => hqvs (roots_mem_flattenF hm)
    have hcnotvsR : ¬ c ∈ (removeRoot c usq).map HTree.root :=
      fun hm => hcvs (roots_mem_flattenF hm)
    have hrecq : (writeChain s q ((childrenOf s q).erase c)).get q =
        some { hq0 with m_childFirst := rootsHead (removeRoot c usq),
                        m_childCount := (removeRoot c usq).length } := by
      rw [herase, get_writeChain_self hgq hqnotvsR, rootsHead_eq_head_map, List.length_map]
    have hagree : ∀ e ∈ HTree.flattenF F, e ≠ q → ¬ e ∈ HTree.flattenF usq →
        (writeChain s q ((childrenOf s q).erase c)).get e = s.get e := by
      intro e he hne hnus
      rw [herase]
      exact get_writeChain_notMem hne
        (fun hm => hnus (hvsSubUsq _ (roots_mem_flattenF hm)))
    have hgraft : RepF (writeChain s q ((childrenOf s q).erase c))
        (replaceAtF q (removeRoot c usq) F) := by
      refine repF_graft F hF hnd hfindq hagree ?_ ?_
      · intro hp0 hget0; rw [hgq] at hget0; cases hget0; exact hrecq
      · intro hp0 hget0; rw [hgq] at hget0; cases hget0; exact hRepCvs
    -- c does not occur in the grafted forest
    obtain ⟨pre, suf, hdec1, hdec2⟩ :=
      flattenF_replaceAtF_decomp (v := removeRoot c usq) F hnd hfindq
    have hndparts : (pre ++ q :: (HTree.flattenF usq ++ suf)).Nodup := hdec1 ▸ hnd
    have hdisjPre := List.disjoint_of_nodup_append hndparts
    have hndtail : (q :: (HTree.flattenF usq ++ suf)).Nodup :=
      hndparts.sublist (List.sublist_append_right _ _)
    have hndtail2 : (HTree.flattenF usq ++ suf).Nodup := (List.nodup_cons.mp hndtail).2
    have hdisjUsqSuf := List.disjoint_of_nodup_append hndtail2
    have hcA : ¬ c ∈ HTree.flattenF (replaceAtF q (removeRoot c usq) F) := by
      rw [hdec2]
      intro hm
      rcases List.mem_append.mp hm with hm | hm
      · exact hdisjPre hm
          (List.mem_cons_of_mem _ (List.mem_append_left _ hcmemusq))
      · rcases List.mem_cons.mp hm with hm | hm
        · exact hcq hm
        · rcases List.mem_append.mp hm with hm | hm
          · exact hcvs hm
          · exact hdisjUsqSuf hcmemusq hm
    -- the record of c after the writeChain
    have hgetWc : (writeChain s q ((childrenOf s q).erase c)).get c = some hc := by
      rw [herase, get_writeChain_notMem hcq hcnotvsR]
      exact hgc
    have hgetDc : (detachStore s c q).get c = some (writeLinks hc none none none) := by
      show ((writeChain s q ((childrenOf s q).erase c)).modify c
        (fun h => writeLinks h none none none)).get c = _
      exact Store.get_modify_self hgetWc
    -- c's subtree representation in the detached store
    obtain ⟨prc, nxc, htcRep⟩ := repC_mem hchq htcmem
    have htcD : RepT (detachStore s c q) (hq0.m_level + 1) none none none
        (HTree.node c usc) := by
      cases htcRep with
      | node hgetc0 hlvlc hparc hprevc hnextc hcountc hfirstc hchc =>
        rename_i h0c
        rw [hgc] at hgetc0
        cases hgetc0
        have hcNotUsc : ¬ c ∈ HTree.flattenF usc := by
          rw [flatten_node] at htcFlat
          exact (List.nodup_cons.mp htcFlat).1
        refine RepT.node hgetDc hlvlc rfl rfl rfl hcountc hfirstc ?_
        refine repC_frame usc hchc (fun e' he' => ?_)
        have he'tc : e' ∈ (HTree.node c usc).flatten := by
          rw [flatten_node]; exact List.mem_cons_of_mem _ he'
        have he'usq : e' ∈ HTree.flattenF usq :=
          mem_flattenF_of_mem htcmem he'tc
        show ((writeChain s q ((childrenOf s q).erase c)).modify c
          (fun h => writeLinks h none none none)).get e' = _
        rw [Store.get_modify_ne (fun hh : e' = c => hcNotUsc (hh ▸ he')), herase]
        exact get_writeChain_notMem (fun hh : e' = q => hqusq (hh ▸ he'usq))
          (fun hm => hdisjvs he'tc (roots_mem_flattenF hm))
    -- assembled forest representation
    have hRepFD : RepF (detachStore s c q)
        (replaceAtF q (removeRoot c usq) F ++ [HTree.node c usc]) := by
      intro t' ht'
      rcases List.mem_append.mp ht' with hm | hm
      · obtain ⟨lvl', hrep'⟩ := hgraft t' hm
        refine ⟨lvl', repT_frame _ hrep' (fun e' he' => ?_)⟩
        show ((writeChain s q ((childrenOf s q).erase c)).modify c
          (fun h => writeLinks h none none none)).get e' = _
        exact Store.get_modify_ne
          (fun hh : e' = c => hcA (hh ▸ mem_flattenF_of_mem hm he'))
      · rw [List.mem_singleton] at hm
        subst hm
        exact ⟨hq0.m_level + 1, htcD⟩
    -- permutation of the alive set
    have hperm : (HTree.flattenF
        (replaceAtF q (removeRoot c usq) F ++ [HTree.node c usc])).Perm
        (HTree.flattenF F) := by
      rw [flattenF_append, hdec2, hdec1, flattenF_cons, flattenF_nil, List.append_nil]
      have hpermInner : (HTree.flattenF usq).Perm
          ((HTree.node c usc).flatten ++ HTree.flattenF (removeRoot c usq)) :=
        perm_removeRoot hndusq htcmem rfl
      refine List.Perm.symm ?_
      refine List.Perm.trans (List.Perm.append_left pre
        (List.Perm.cons q (hpermInner.append_right suf))) ?_
      have h1 : pre ++ q :: (((HTree.node c usc).flatten ++
          HTree.flattenF (removeRoot c usq)) ++ suf) =
          (pre ++ [q]) ++ ((HTree.node c usc).flatten ++
            (HTree.flattenF (removeRoot c usq) ++ suf)) := by
        simp [List.append_assoc]
      have h2 : (pre ++ q :: (HTree.flattenF (removeRoot c usq) ++ suf)) ++
          (HTree.node c usc).flatten =
          (pre ++ [q]) ++ ((HTree.flattenF (removeRoot c usq) ++ suf) ++
            (HTree.node c usc).flatten) := by
        simp [List.append_assoc]
      rw [h1, h2]
      exact List.Perm.append_left _ List.perm_append_comm
    have hkeysD : (detachStore s c q).keys = s.keys := by
      show ((writeChain s q ((childrenOf s q).erase c)).modify c
        (fun h => writeLinks h none none none)).keys = _
      rw [Store.keys_modify, keys_writeChain]
    refine ⟨usq, usc, hfindq, htcmem,
      ⟨hRepFD, (List.Perm.nodup_iff hperm).mpr hnd, ?_, ?_, ?_⟩, ?_⟩
    · intro e
      rw [Store.get_isSome_iff_mem_keys, hkeysD, hperm.mem_iff]
      rw [← Store.get_isSome_iff_mem_keys]
      exact halive e
    · rw [hkeysD]; exact hkeys
    · rw [hkeysD]; exact hfresh
    · -- levels are preserved
      intro e h' hgete
      by_cases hec : e = c
      · rw [hec] at hgete ⊢
        rw [hgc] at hgete
        cases hgete
        exact ⟨_, hgetDc, rfl⟩
      by_cases heq : e = q
      · rw [heq] at hgete ⊢
        rw [hgq] at hgete
        cases hgete
        have hgoal : ((writeChain s q ((childrenOf s q).erase c)).modify c
            (fun h => writeLinks h none none none)).get q =
            some { hq0 with m_childFirst := rootsHead (removeRoot c usq),
                            m_childCount := (removeRoot c usq).length } := by
          rw [Store.get_modify_ne (fun hh : q = c => hcq hh.symm)]
          exact hrecq
        exact ⟨_, hgoal, rfl⟩
      by_cases hevs : e ∈ (removeRoot c usq).map HTree.root
      · obtain ⟨t', ht'm, hroot'⟩ := List.mem_map.mp hevs
        obtain ⟨b1, c1, hrepW⟩ := repC_mem hRepCvs ht'm
        obtain ⟨hW, hgW, hlW⟩ := repT_root_level hrepW
        obtain ⟨b2, c2, hrepS⟩ := repC_mem hchq (removeRoot_sublist.subset ht'm)
        obtain ⟨hS, hgS, hlS⟩ := repT_root_level hrepS
        rw [hroot'] at hgS hgW
        rw [hgete] at hgS
        cases hgS
        refine ⟨hW, ?_, by rw [hlW, hlS]⟩
        show ((writeChain s q ((childrenOf s q).erase c)).modify c
          (fun h => writeLinks h none none none)).get e = _
        rw [Store.get_modify_ne (fun hh : e = c => hec hh)]
        exact hgW
      · refine ⟨h', ?_, rfl⟩
        show ((writeChain s q ((childrenOf s q).erase c)).modify c
          (fun h => writeLinks h none none none)).get e = _
        rw [Store.get_modify_ne (fun hh : e = c => hec hh), herase,
          get_writeChain_notMem heq hevs]
        exact hgete

/-! ### Invariant preservation: erasing a root subtree, cut, destroy -/

theorem eraseMany_put_mem {α : Type} {s : Store α} {es : List Ent} {c : Ent}
    {v' : α} (h : c ∈ es) : (s.put c v').eraseMany es = s.eraseMany es := by
  induction s with
  | nil => rfl
  | cons kv rest ih =>
    obtain ⟨k, w⟩ := kv
    by_cases hk : k = c
    · subst hk
      show Store.eraseMany (if k = k then (k, v') :: rest else _) es = _
      rw [if_pos rfl]
      unfold Store.eraseMany
      rw [List.filter_cons, List.filter_cons, if_neg (by simp [h]), if_neg (by simp [h])]
    · show Store.eraseMany (if k = c then _ else (k, w) :: Store.put rest c v') es = _
      rw [if_neg hk]
      unfold Store.eraseMany at *
      rw [List.filter_cons, List.filter_cons]
      by_cases hin : k ∈ es
      · rw [if_neg (by simp [hin]), if_neg (by simp [hin])]
        exact ih
      · rw [if_pos (by simp [hin]), if_pos (by simp [hin]), ih]

theorem eraseMany_modify_mem {α : Type} {s : Store α} {es : List Ent} {c : Ent}
    {f : α → α} (h : c ∈ es) : (s.modify c f).eraseMany es = s.eraseMany es := by
  unfold Store.modify
  cases s.get c with
  | none => rfl
  | some v => exact eraseMany_put_mem h

theorem self_mem_subtreeEnts {s : Store ACompHierarchy} {e : Ent} {fuel : Nat} :
    e ∈ subtreeEnts s (fuel + 1) e := by
  rw [subtreeEnts]
  simp only [subtreeDepths]
  exact List.mem_cons_self _ _

theorem subtree_eq {s : Store ACompHierarchy} {lvl : Nat} {pa pr nx : Option Ent}
    {t : HTree} (h : RepT s lvl pa pr nx t) (hnd : t.flatten.Nodup)
    (hsub : ∀ e ∈ t.flatten, e ∈ s.keys) :
    subtreeEnts s (s.size + 1) t.root = t.flatten := by
  rw [subtreeEnts, subtreeDepths_eq t h hnd hsub
    (Nat.le_succ_of_le (Nat.le_trans (height_le_length_flatten t) (flatten_le_size hnd hsub))) 0]
  exact map_fst_flattenDepth t 0

/-- Erasing the whole flatten of a root tree from the store drops that tree
from the forest. -/
theorem invWith_eraseRoot {next : Ent} {s : Store ACompHierarchy} {G : List HTree}
    (hIW : InvWith next s G) {tC : HTree} {c : Ent} (hm : tC ∈ G) (hr : tC.root = c) :
    InvWith next (s.eraseMany tC.flatten) (removeRoot c G) := by
  obtain ⟨hF, hnd, halive, hkeys, hfresh⟩ := hIW
  have hdisj : tC.flatten.Disjoint (HTree.flattenF (removeRoot c G)) :=
    disjoint_removeRoot hnd hm hr
  have hperm : (HTree.flattenF G).Perm
      (tC.flatten ++ HTree.flattenF (removeRoot c G)) := perm_removeRoot hnd hm hr
  refine ⟨?_, ?_, ?_, ?_, ?_⟩
  · intro t' ht'
    obtain ⟨lvl', hrep'⟩ := hF t' (removeRoot_sublist.subset ht')
    refine ⟨lvl', repT_frame _ hrep' (fun e' he' => ?_)⟩
    exact Store.get_eraseMany_notMem
      (fun hmm => hdisj hmm (mem_flattenF_of_mem ht' he'))
  · exact ((hperm.nodup_iff).mp hnd).sublist (List.sublist_append_right _ _)
  · intro e
    by_cases hesub : e ∈ tC.flatten
    · rw [Store.get_eraseMany_mem hesub]
      simp only [Option.isSome_none, Bool.false_eq_true, false_iff]
      exact fun hmm => hdisj hesub hmm
    · rw [Store.get_eraseMany_notMem hesub, halive e, hperm.mem_iff, List.mem_append]
      constructor
      · rintro (h | h)
        · exact absurd h hesub
        · exact h
      · exact Or.inr
  · exact hkeys.sublist Store.keys_eraseMany_sublist
  · exact fun e he => hfresh e (Store.keys_eraseMany_sublist.subset he)

theorem hierInv_cut {sc : SceneState} (hI : HierInv sc.m_next sc.m_hier)
    {ent : Ent} {sc' : SceneState} (hop : hier_cut sc ent = some sc') :
    HierInv sc'.m_next sc'.m_hier := by
  obtain ⟨F, hIW⟩ := hI
  cases hget : sc.m_hier.get ent with
  | none => rw [hier_cut, hget] at hop; cases hop
  | some h =>
    cases hq : h.m_parent with
    | none =>
      simp only [hier_cut, hget, hq] at hop
      cases hop
    | some q =>
      simp only [hier_cut, hget, hq] at hop
      rw [Option.some.injEq] at hop
      subst hop
      obtain ⟨usq, usc, _, _, hIW', _⟩ := invWith_detach hIW hget hq
      exact ⟨_, hIW'⟩

theorem hierInv_destroy {sc : SceneState} (hI : HierInv sc.m_next sc.m_hier)
    {ent : Ent} {sc' : SceneState} (hop : hier_destroy sc ent = some sc') :
    HierInv sc'.m_next sc'.m_hier := by
  obtain ⟨F, hIW⟩ := hI
  have hnd := hIW.2.1
  have halive := hIW.2.2.1
  cases hget : sc.m_hier.get ent with
  | none => rw [hier_destroy, hget] at hop; cases hop
  | some h =>
    cases hq : h.m_parent with
    | none =>
      simp only [hier_destroy, hget, hq] at hop
      rw [Option.some.injEq] at hop
      subst hop
      have hmem : ent ∈ HTree.flattenF F := (halive ent).mp (by rw [hget]; rfl)
      obtain ⟨t, htm, hentm⟩ := mem_flattenF_decomp hmem
      obtain ⟨lvl, hrep⟩ := hIW.1 t htm
      have hndT : t.flatten.Nodup := hnd.sublist (flatten_sublist_flattenF htm)
      rcases parent_link_T t hrep hndT hentm hget with ⟨hroot, _⟩ | ⟨x, usx, _, hpx, _⟩
      · have hkeysT : ∀ e ∈ t.flatten, e ∈ sc.m_hier.keys := fun e he =>
          alive_sub_keys hIW _ (mem_flattenF_of_mem htm he)
        have hsubeq : subtreeEnts sc.m_hier (sc.m_hier.size + 1) ent = t.flatten := by
          rw [hroot]
          exact subtree_eq hrep hndT hkeysT
        show HierInv sc.m_next (sc.m_hier.eraseMany
          (subtreeEnts sc.m_hier (sc.m_hier.size + 1) ent))
        rw [hsubeq]
        exact ⟨_, invWith_eraseRoot hIW htm hroot.symm⟩
      · rw [hq] at hpx; cases hpx
    | some q =>
      simp only [hier_destroy, hget, hq] at hop
      rw [Option.some.injEq] at hop
      subst hop
      obtain ⟨usq, usc, hfindq, htcmem, hIW', _⟩ := invWith_detach hIW hget hq
      obtain ⟨hqmemF, husqF, hndusq, hqusq⟩ := nodeF_facts_of_findNodeF F hnd hfindq
      obtain ⟨hq0, hgq, hfirstq, hcountq, hchq⟩ := repF_findNode_record hIW.1 hfindq
      obtain ⟨prc, nxc, htcRep⟩ := repC_mem hchq htcmem
      have hndtc : (HTree.node ent usc).flatten.Nodup :=
        hndusq.sublist (flatten_sublist_flattenF htcmem)
      have hkeystc : ∀ e ∈ (HTree.node ent usc).flatten, e ∈ sc.m_hier.keys :=
        fun e he => alive_sub_keys hIW _
          (husqF _ (mem_flattenF_of_mem htcmem he))
      have hsubeq : subtreeEnts sc.m_hier (sc.m_hier.size + 1) ent =
          (HTree.node ent usc).flatten :=
        subtree_eq htcRep hndtc hkeystc
      have hentsub : ent ∈ subtreeEnts sc.m_hier (sc.m_hier.size + 1) ent :=
        self_mem_subtreeEnts
      show HierInv sc.m_next ((writeChain sc.m_hier q
        ((childrenOf sc.m_hier q).erase ent)).eraseMany
          (subtreeEnts sc.m_hier (sc.m_hier.size + 1) ent))
      have hstoreEq : (writeChain sc.m_hier q
          ((childrenOf sc.m_hier q).erase ent)).eraseMany
            (subtreeEnts sc.m_hier (sc.m_hier.size + 1) ent) =
          (detachStore sc.m_hier ent q).eraseMany
            (subtreeEnts sc.m_hier (sc.m_hier.size + 1) ent) :=
        (eraseMany_modify_mem hentsub).symm
      rw [hstoreEq, hsubeq]
      exact ⟨_, invWith_eraseRoot hIW'
        (List.mem_append_right _ (List.mem_singleton.mpr rfl)) rfl⟩

/-! ### Invariant preservation: re-levelling a root subtree -/

theorem distinct_mem_disjoint {G : List HTree} (hnd : (HTree.flattenF G).Nodup)
    {t1 t2 : HTree} (h1 : t1 ∈ G) (h2 : t2 ∈ G) (hne : t1 ≠ t2) :
    t1.flatten.Disjoint t2.flatten := by
  induction G with
  | nil => cases h1
  | cons t G' ih =>
    rw [flattenF_cons] at hnd
    have hdisj := List.disjoint_of_nodup_append hnd
    rcases List.mem_cons.mp h1 with rfl | hm1
    · rcases List.mem_cons.mp h2 with rfl | hm2
      · exact absurd rfl hne
      · exact fun _ ha hb => hdisj ha (mem_flattenF_of_mem hm2 hb)
    · rcases List.mem_cons.mp h2 with rfl | hm2
      · exact fun _ ha hb => hdisj hb (mem_flattenF_of_mem hm1 ha)
      · exact ih (hnd.sublist (List.sublist_append_right _ _)) hm1 hm2

theorem invWith_relevel {next : Ent} {s : Store ACompHierarchy} {G : List HTree}
    (hIW : InvWith next s G) {tC : HTree} {c : Ent} (hm : tC ∈ G) (hr : tC.root = c)
    {lvl0 : Nat} (hrep : RepT s lvl0 none none none tC) (base : Nat) :
    InvWith next (relevel s c base) G ∧
      RepT (relevel s c base) base none none none tC ∧
      (∀ e, ¬ e ∈ tC.flatten → (relevel s c base).get e = s.get e) := by
  obtain ⟨hF, hnd, halive, hkeys, hfresh⟩ := hIW
  have hIW : InvWith next s G := ⟨hF, hnd, halive, hkeys, hfresh⟩
  have hndT : tC.flatten.Nodup := hnd.sublist (flatten_sublist_flattenF hm)
  have hkeysT : ∀ e ∈ tC.flatten, e ∈ s.keys := fun e he =>
    alive_sub_keys hIW _ (mem_flattenF_of_mem hm he)
  have htrav : subtreeDepths s (s.size + 1) c 0 = tC.flattenDepth 0 := by
    rw [← hr]
    exact subtreeDepths_eq tC hrep hndT hkeysT
      (Nat.le_succ_of_le (Nat.le_trans (height_le_length_flatten tC)
        (flatten_le_size hndT hkeysT))) 0
  have hrel_eq : relevel s c base = (tC.flattenDepth 0).foldl
      (fun acc x => acc.modify x.1 (fun hh => { hh with m_level := base + x.2 })) s := by
    rw [relevel, htrav]
  have hframe : ∀ e, ¬ e ∈ tC.flatten → (relevel s c base).get e = s.get e := by
    intro e he
    rw [hrel_eq]
    exact get_levelFold_notMem (by rw [map_fst_flattenDepth]; exact he)
  have hrepNew : RepT (relevel s c base) base none none none tC := by
    rw [hrel_eq]
    have := @repT_levelFold s s lvl0 none none none base tC hrep hndT (fun e' _ => rfl) 0
    simpa using this
  have hkeysEq : (relevel s c base).keys = s.keys := by
    rw [hrel_eq]
    exact keys_levelFold
  refine ⟨⟨?_, hnd, ?_, ?_, ?_⟩, hrepNew, hframe⟩
  · intro t' ht'
    by_cases htc : t' = tC
    · subst htc
      exact ⟨base, hrepNew⟩
    · obtain ⟨lvl', hrep'⟩ := hF t' ht'
      refine ⟨lvl', repT_frame _ hrep' (fun e' he' => ?_)⟩
      exact hframe e' (fun hm' => distinct_mem_disjoint hnd ht' hm htc he' hm')
  · intro e
    rw [Store.get_isSome_iff_mem_keys, hkeysEq, ← Store.get_isSome_iff_mem_keys]
    exact halive e
  · rw [hkeysEq]; exact hkeys
  · rw [hkeysEq]; exact hfresh

/-! ### Invariant preservation: attaching a root subtree as the first child -/

theorem invWith_attach {next : Ent} {s : Store ACompHierarchy} {G : List HTree}
    (hIW : InvWith next s G) {tC : HTree} {c : Ent} (hm : tC ∈ G) (hr : tC.root = c)
    {p : Ent} {ph : ACompHierarchy} (hgp : s.get p = some ph)
    (hpnotin : ¬ p ∈ tC.flatten)
    (hrepC : RepT s (ph.m_level + 1) none none none tC) :
    HierInv next (writeChain s p (c :: childrenOf s p)) := by
  obtain ⟨hF, hnd, halive, hkeys, hfresh⟩ := hIW
  have hIW : InvWith next s G := ⟨hF, hnd, halive, hkeys, hfresh⟩
  have hpermG : (HTree.flattenF G).Perm
      (tC.flatten ++ HTree.flattenF (removeRoot c G)) := perm_removeRoot hnd hm hr
  have hndBig : (tC.flatten ++ HTree.flattenF (removeRoot c G)).Nodup :=
    (List.Perm.nodup_iff hpermG).mp hnd
  have hnd2 : (HTree.flattenF (removeRoot c G)).Nodup :=
    hndBig.sublist (List.sublist_append_right _ _)
  have hdisjBig := List.disjoint_of_nodup_append hndBig
  have hF2 : RepF s (removeRoot c G) := fun t ht => hF t (removeRoot_sublist.subset ht)
  have hpmemG : p ∈ HTree.flattenF G := (halive p).mp (by rw [hgp]; rfl)
  have hpmem2 : p ∈ HTree.flattenF (removeRoot c G) := by
    rcases List.mem_append.mp (hpermG.mem_iff.mp hpmemG) with hh | hh
    · exact absurd hh hpnotin
    · exact hh
  obtain ⟨usp, hfindq⟩ := find_of_alive hpmem2
  obtain ⟨hp0, hgp0, hfirst0, hcount0, hch0⟩ := repF_findNode_record hF2 hfindq
  rw [hgp] at hgp0
  cases hgp0
  obtain ⟨hpF2, huspF, hndusp, hpusp⟩ := nodeF_facts_of_findNodeF _ hnd2 hfindq
  have huskeys : ∀ e ∈ HTree.flattenF usp, e ∈ s.keys := by
    intro e he
    refine alive_sub_keys hIW _ (hpermG.symm.mem_iff.mp ?_)
    exact List.mem_append_right _ (huspF e he)
  have hchildren : childrenOf s p = usp.map HTree.root := by
    simp only [childrenOf, hgp]
    rw [hfirst0]
    exact repC_chainFrom hch0 (chain_fuel hndusp huskeys)
  set vs : List HTree := tC :: usp with hvs
  have hflatvs : HTree.flattenF vs = tC.flatten ++ HTree.flattenF usp := by
    rw [hvs, flattenF_cons]
  have hvsmap : vs.map HTree.root = c :: usp.map HTree.root := by
    rw [hvs, List.map_cons, hr]
  have hndvs : (HTree.flattenF vs).Nodup := by
    rw [hflatvs]
    exact List.nodup_append.mpr ⟨hndBig.sublist (List.sublist_append_left _ _), hndusp,
      fun a ha hb => hdisjBig ha (huspF a hb)⟩
  have hpvs : ¬ p ∈ HTree.flattenF vs := by
    rw [hflatvs]
    intro hmm
    rcases List.mem_append.mp hmm with hh | hh
    · exact hpnotin hh
    · exact hpusp hh
  have hop_eq : writeChain s p (c :: childrenOf s p) =
      writeChainAux p
        (s.modify p (fun h => { h with
          m_childFirst := (vs.map HTree.root).head?,
          m_childCount := (vs.map HTree.root).length }))
        none (vs.map HTree.root) := by
    rw [hchildren, writeChain, hvsmap]
  have hrepsVs : ∀ t ∈ vs, ∃ a b c0,
      RepT (s.modify p (fun h => { h with
        m_childFirst := (vs.map HTree.root).head?,
        m_childCount := (vs.map HTree.root).length })) (ph.m_level + 1) a b c0 t := by
    intro t ht
    rw [hvs] at ht
    rcases List.mem_cons.mp ht with rfl | hmm
    · refine ⟨none, none, none, repT_frame _ hrepC (fun e' he' => ?_)⟩
      exact Store.get_modify_ne (fun hh : e' = p => hpnotin (hh ▸ he'))
    · obtain ⟨b, c0, hrep⟩ := repC_mem hch0 hmm
      refine ⟨some p, b, c0, repT_frame _ hrep (fun e' he' => ?_)⟩
      exact Store.get_modify_ne (fun hh : e' = p =>
        hpusp (hh ▸ mem_flattenF_of_mem hmm he'))
  have hRepCvs : RepC (writeChain s p (c :: childrenOf s p))
      (ph.m_level + 1) (some p) none vs := by
    rw [hop_eq]
    exact repC_writeChainAux vs hrepsVs hndvs hpvs
  have hpnotcs : ¬ p ∈ c :: childrenOf s p := by
    rw [hchildren]
    intro hmm
    rcases List.mem_cons.mp hmm with hh | hh
    · exact hpnotin (hh ▸ hr ▸ root_mem_flatten)
    · exact hpusp (roots_mem_flattenF hh)
  have hrecP : (writeChain s p (c :: childrenOf s p)).get p =
      some { ph with m_childFirst := rootsHead vs, m_childCount := vs.length } := by
    rw [get_writeChain_self hgp hpnotcs, hchildren]
    simp [hvs, rootsHead, hr, List.length_map]
  have hagree : ∀ e ∈ HTree.flattenF (removeRoot c G), e ≠ p →
      ¬ e ∈ HTree.flattenF usp →
      (writeChain s p (c :: childrenOf s p)).get e = s.get e := by
    intro e he hne hnus
    refine get_writeChain_notMem hne (fun hmm => ?_)
    rcases List.mem_cons.mp hmm with hh | hh
    · exact hdisjBig (hh ▸ hr ▸ root_mem_flatten) he
    · rw [hchildren] at hh
      exact hnus (roots_mem_flattenF hh)
  have hgraft : RepF (writeChain s p (c :: childrenOf s p))
      (replaceAtF p vs (removeRoot c G)) := by
    refine repF_graft _ hF2 hnd2 hfindq hagree ?_ ?_
    · intro hp0 hgethp0
      rw [hgp] at hgethp0
      cases hgethp0
      exact hrecP
    · intro hp0 hgethp0
      rw [hgp] at hgethp0
      cases hgethp0
      exact hRepCvs
  obtain ⟨pre, suf, hdec1, hdec2⟩ :=
    flattenF_replaceAtF_decomp (v := vs) _ hnd2 hfindq
  have hpermF' : (HTree.flattenF (replaceAtF p vs (removeRoot c G))).Perm
      (HTree.flattenF G) := by
    rw [hdec2, hflatvs]
    have h1 : pre ++ p :: ((tC.flatten ++ HTree.flattenF usp) ++ suf)
        = (pre ++ [p]) ++ (tC.flatten ++ (HTree.flattenF usp ++ suf)) := by
      simp [List.append_assoc]
    have h2 : tC.flatten ++ HTree.flattenF (removeRoot c G)
        = tC.flatten ++ ((pre ++ [p]) ++ (HTree.flattenF usp ++ suf)) := by
      rw [hdec1]
      simp [List.append_assoc]
    rw [h1]
    have hmid : ((pre ++ [p]) ++ (tC.flatten ++ (HTree.flattenF usp ++ suf))).Perm
        (tC.flatten ++ ((pre ++ [p]) ++ (HTree.flattenF usp ++ suf))) :=
      List.perm_append_comm_assoc _ _ _
    refine hmid.trans ?_
    rw [← h2]
    exact hpermG.symm
  have hndF' : (HTree.flattenF (replaceAtF p vs (removeRoot c G))).Nodup :=
    (List.Perm.nodup_iff hpermF').mpr hnd
  refine ⟨replaceAtF p vs (removeRoot c G), hgraft, hndF', ?_, ?_, ?_⟩
  · intro e
    show ((writeChain s p (c :: childrenOf s p)).get e).isSome ↔ _
    rw [Store.get_isSome_iff_mem_keys, keys_writeChain, hpermF'.mem_iff,
      ← Store.get_isSome_iff_mem_keys]
    exact halive e
  · show (writeChain s p (c :: childrenOf s p)).keys.Nodup
    rw [keys_writeChain]
    exact hkeys
  · show ∀ e ∈ (writeChain s p (c :: childrenOf s p)).keys, e < next
    intro e he
    rw [keys_writeChain] at he
    exact hfresh e he

/-! ### Invariant preservation: re-parenting -/

theorem hierInv_setParent {sc : SceneState} (hI : HierInv sc.m_next sc.m_hier)
    {parent child : Ent} {sc' : SceneState}
    (hop : hier_set_parent_child sc parent child = some sc') :
    HierInv sc'.m_next sc'.m_hier := by
  obtain ⟨F, hIW⟩ := hI
  have hF := hIW.1
  have hnd := hIW.2.1
  have halive := hIW.2.2.1
  cases hgp : sc.m_hier.get parent with
  | none =>
    cases hgc : sc.m_hier.get child with
    | none =>
      simp only [hier_set_parent_child, hgp, hgc] at hop
      cases hop
    | some ch =>
      simp only [hier_set_parent_child, hgp, hgc] at hop
      cases hop
  | some ph =>
    cases hgc : sc.m_hier.get child with
    | none =>
      simp only [hier_set_parent_child, hgp, hgc] at hop
      cases hop
    | some ch =>
      cases hqc : ch.m_parent with
      | none =>
        simp only [hier_set_parent_child, hgp, hgc, hqc] at hop
        by_cases hcyc : parent ∈ subtreeEnts sc.m_hier (sc.m_hier.size + 1) child
        · rw [if_pos hcyc] at hop; cases hop
        · rw [if_neg hcyc, Option.some.injEq] at hop
          subst hop
          show HierInv sc.m_next
            (writeChain (relevel sc.m_hier child (ph.m_level + 1)) parent
              (child :: childrenOf (relevel sc.m_hier child (ph.m_level + 1)) parent))
          -- the child is the root of a forest tree
          have hmem : child ∈ HTree.flattenF F := (halive child).mp (by rw [hgc]; rfl)
          obtain ⟨t, htm, hcm⟩ := mem_flattenF_decomp hmem
          obtain ⟨lvl, hrep⟩ := hF t htm
          have hndT : t.flatten.Nodup := hnd.sublist (flatten_sublist_flattenF htm)
          rcases parent_link_T t hrep hndT hcm hgc with ⟨hroot, _⟩ | ⟨x, usx, _, hpx, _⟩
          · have hkeysT : ∀ e ∈ t.flatten, e ∈ sc.m_hier.keys := fun e he =>
              alive_sub_keys hIW _ (mem_flattenF_of_mem htm he)
            have hsubeq : subtreeEnts sc.m_hier (sc.m_hier.size + 1) child = t.flatten := by
              rw [hroot]
              exact subtree_eq hrep hndT hkeysT
            have hpnotinT : ¬ parent ∈ t.flatten := fun hmm =>
              hcyc (by rw [hsubeq]; exact hmm)
            obtain ⟨hIW2, hrepB, hframe⟩ := invWith_relevel hIW htm hroot.symm hrep
              (ph.m_level + 1)
            have hgp2 : (relevel sc.m_hier child (ph.m_level + 1)).get parent
                = some ph := by
              rw [hframe parent hpnotinT]; exact hgp
            exact invWith_attach hIW2 htm hroot.symm hgp2 hpnotinT hrepB
          · rw [hqc] at hpx; cases hpx
      | some q =>
        simp only [hier_set_parent_child, hgp, hgc, hqc] at hop
        by_cases hcyc : parent ∈ subtreeEnts sc.m_hier (sc.m_hier.size + 1) child
        · rw [if_pos hcyc] at hop; cases hop
        · rw [if_neg hcyc, Option.some.injEq] at hop
          subst hop
          show HierInv sc.m_next
            (writeChain (relevel (detachStore sc.m_hier child q) child (ph.m_level + 1))
              parent
              (child :: childrenOf
                (relevel (detachStore sc.m_hier child q) child (ph.m_level + 1)) parent))
          obtain ⟨usq, usc, hfindq, htcmem, hIW', hlvl⟩ := invWith_detach hIW hgc hqc
          have htcG' : HTree.node child usc ∈
              replaceAtF q (removeRoot child usq) F ++ [HTree.node child usc] :=
            List.mem_append_right _ (List.mem_singleton.mpr rfl)
          obtain ⟨lvl0, hrep0⟩ := hIW'.1 _ htcG'
          -- the cycle guard transfers to the subtree's flatten
          obtain ⟨hqmemF, husqF, hndusq, hqusq⟩ := nodeF_facts_of_findNodeF F hnd hfindq
          obtain ⟨hq0, hgq, hfirstq, hcountq, hchq⟩ := repF_findNode_record hF hfindq
          obtain ⟨prc, nxc, htcRep⟩ := repC_mem hchq htcmem
          have hndtc : (HTree.node child usc).flatten.Nodup :=
            hndusq.sublist (flatten_sublist_flattenF htcmem)
          have hkeystc : ∀ e ∈ (HTree.node child usc).flatten, e ∈ sc.m_hier.keys :=
            fun e he => alive_sub_keys hIW _
              (husqF _ (mem_flattenF_of_mem htcmem he))
          have hsubeq : subtreeEnts sc.m_hier (sc.m_hier.size + 1) child =
              (HTree.node child usc).flatten :=
            subtree_eq htcRep hndtc hkeystc
          have hpnotinT : ¬ parent ∈ (HTree.node child usc).flatten := fun hmm =>
            hcyc (by rw [hsubeq]; exact hmm)
          -- the parent's record survives the detach with its level intact
          obtain ⟨ph2, hgp2, hlvl2⟩ := hlvl parent ph hgp
          obtain ⟨hIW2, hrepB, hframe⟩ := invWith_relevel hIW' htcG'
            (show (HTree.node child usc).root = child from rfl) hrep0 (ph.m_level + 1)
          have hgp3 : (relevel (detachStore sc.m_hier child q) child
              (ph.m_level + 1)).get parent = some ph2 := by
            rw [hframe parent hpnotinT]; exact hgp2
          have hrepB' : RepT (relevel (detachStore sc.m_hier child q) child
              (ph.m_level + 1)) (ph2.m_level + 1) none none none
              (HTree.node child usc) := by
            rw [hlvl2]; exact hrepB
          exact invWith_attach hIW2 htcG'
            (show (HTree.node child usc).root = child from rfl) hgp3 hpnotinT hrepB'

/-! ### The invariant holds in every reachable scene -/

theorem hierInv_applyOp {sc : SceneState} (hI : HierInv sc.m_next sc.m_hier) (op : Op) :
    HierInv (applyOp sc op).m_next (applyOp sc op).m_hier := by
  cases op with
  | createChild p name =>
    cases hop : hier_create_child sc p name with
    | none => simpa only [applyOp, hop] using hI
    | some pr =>
      obtain ⟨sc2, child⟩ := pr
      simpa only [applyOp, hop] using hierInv_create hI hop
  | setParentChild p c =>
    cases hop : hier_set_parent_child sc p c with
    | none => simpa only [applyOp, hop, Option.getD] using hI
    | some sc2 => simpa only [applyOp, hop, Option.getD] using hierInv_setParent hI hop
  | cut e =>
    cases hop : hier_cut sc e with
    | none => simpa only [applyOp, hop, Option.getD] using hI
    | some sc2 => simpa only [applyOp, hop, Option.getD] using hierInv_cut hI hop
  | destroy e =>
    cases hop : hier_destroy sc e with
    | none => simpa only [applyOp, hop, Option.getD] using hI
    | some sc2 => simpa only [applyOp, hop, Option.getD] using hierInv_destroy hI hop
  | emplaceTransform e t =>
    simp only [applyOp]
    split
    · exact hI
    · exact hI
  | emplaceMass e m =>
    simp only [applyOp]
    split
    · exact hI
    · exact hI
  | emplaceShape e sh =>
    simp only [applyOp]
    split
    · exact hI
    · exact hI
  | emplaceBody e b =>
    simp only [applyOp]
    split
    · exact hI
    · exact hI

theorem hierInv_runOps (ops : List Op) {sc : SceneState}
    (hI : HierInv sc.m_next sc.m_hier) :
    HierInv (runOps sc ops).m_next (runOps sc ops).m_hier := by
  induction ops generalizing sc with
  | nil => exact hI
  | cons op rest ih =>
    rw [runOps, List.foldl_cons]
    exact ih (hierInv_applyOp hI op)

theorem hierInv_initial : HierInv initialScene.m_next initialScene.m_hier := by
  refine ⟨[HTree.node 0 []], ?_, ?_, ?_, ?_, ?_⟩
  · intro t ht
    rw [List.mem_singleton] at ht
    subst ht
    exact ⟨0, RepT.node rfl rfl rfl rfl rfl rfl rfl RepC.nil⟩
  · decide
  · intro e
    rw [Store.get_isSome_iff_mem_keys]
    exact Iff.rfl
  · decide
  · intro e he
    have : e = 0 := List.mem_singleton.mp he
    subst this
    decide

theorem reachable_hierInv {sc : SceneState} (h : Reachable sc) :
    HierInv sc.m_next sc.m_hier := by
  obtain ⟨ops, rfl⟩ := h
  exact hierInv_runOps ops hierInv_initial

/-! ### Consequences of the invariant used by the claims -/

theorem findNode_of_findNodeF {F : List HTree} {x : Ent} {us : List HTree}
    {t : HTree} (hnd : (HTree.flattenF F).Nodup) (htm : t ∈ F)
    (hmem : x ∈ t.flatten) (hF : findNodeF x F = some us) :
    findNode x t = some us := by
  cases hfx : findNode x t with
  | none =>
    exact absurd ((findNode_isSome_iff t).mpr hmem) (by rw [hfx]; simp)
  | some us' =>
    have := findNodeF_trans hnd htm hfx
    rw [hF] at this
    cases this
    rfl

mutual

/-- Inside a duplicate-free subtree, the descendants of a node located below
`a` stay below `a`. -/
theorem findNode_nested {a p : Ent} {usa usp : List HTree} (t : HTree)
    (hnd : t.flatten.Nodup) (hfa : findNode a t = some usa)
    (hp : p ∈ (HTree.node a usa).flatten) (hfp : findNode p t = some usp) :
    ∀ e ∈ HTree.flattenF usp, e ∈ (HTree.node a usa).flatten := by
  cases t with
  | node r ts =>
    by_cases hra : r = a
    · subst hra
      rw [findNode, if_pos rfl] at hfa
      cases hfa
      exact (node_facts_of_findNode _ hnd hfp).2.1
    · have hfa' : findNodeF a ts = some usa := by
        rw [findNode, if_neg hra] at hfa; exact hfa
      have hndF : (HTree.flattenF ts).Nodup := by
        rw [flatten_node] at hnd; exact List.Nodup.of_cons hnd
      by_cases hrp : r = p
      · subst hrp
        obtain ⟨haF, husF, _, _⟩ := nodeF_facts_of_findNodeF ts hndF hfa'
        rw [flatten_node] at hp
        exfalso
        rcases List.mem_cons.mp hp with hh | hh
        · exact hra hh
        · rw [flatten_node] at hnd
          exact (List.nodup_cons.mp hnd).1 (husF _ hh)
      · have hfp' : findNodeF p ts = some usp := by
          rw [findNode, if_neg hrp] at hfp; exact hfp
        exact findNodeF_nested ts hndF hfa' hp hfp'

theorem findNodeF_nested {a p : Ent} {usa usp : List HTree} (ts : List HTree)
    (hnd : (HTree.flattenF ts).Nodup) (hfa : findNodeF a ts = some usa)
    (hp : p ∈ (HTree.node a usa).flatten) (hfp : findNodeF p ts = some usp) :
    ∀ e ∈ HTree.flattenF usp, e ∈ (HTree.node a usa).flatten := by
  cases ts with
  | nil => rw [findNodeF] at hfa; cases hfa
  | cons t0 ts' =>
    rw [flattenF_cons] at hnd
    have hdisj := List.disjoint_of_nodup_append hnd
    have hndt0 : t0.flatten.Nodup := hnd.sublist (List.sublist_append_left _ _)
    have hndts' : (HTree.flattenF ts').Nodup :=
      hnd.sublist (List.sublist_append_right _ _)
    cases hft : findNode a t0 with
    | some usa0 =>
      simp only [findNodeF, hft, Option.some.injEq] at hfa
      subst hfa
      obtain ⟨haT, husT, _, _⟩ := node_facts_of_findNode t0 hndt0 hft
      have hpT : p ∈ t0.flatten := by
        rw [flatten_node] at hp
        rcases List.mem_cons.mp hp with rfl | hh
        · exact haT
        · exact husT _ hh
      cases hft0p : findNode p t0 with
      | some usp0 =>
        simp only [findNodeF, hft0p, Option.some.injEq] at hfp
        subst hfp
        exact findNode_nested t0 hndt0 hft hp hft0p
      | none =>
        simp only [findNodeF, hft0p] at hfp
        have hpts' : p ∈ HTree.flattenF ts' :=
          (findNodeF_isSome_iff ts').mp (by rw [hfp]; rfl)
        exact absurd hpts' (fun hh => hdisj hpT hh)
    | none =>
      simp only [findNodeF, hft] at hfa
      obtain ⟨haF', husF', _, _⟩ := nodeF_facts_of_findNodeF ts' hndts' hfa
      have hpF' : p ∈ HTree.flattenF ts' := by
        rw [flatten_node] at hp
        rcases List.mem_cons.mp hp with rfl | hh
        · exact haF'
        · exact husF' _ hh
      cases hft0p : findNode p t0 with
      | some usp0 =>
        have hpT : p ∈ t0.flatten := (findNode_isSome_iff t0).mp (by rw [hft0p]; rfl)
        exact absurd hpF' (fun hh => hdisj hpT hh)
      | none =>
        simp only [findNodeF, hft0p] at hfp
        exact findNodeF_nested ts' hndts' hfa hp hfp

end

/-- The flatten of a located subtree is closed under taking store children. -/
theorem subtree_closed {next : Ent} {s : Store ACompHierarchy} {F : List HTree}
    (hIW : InvWith next s F) {a : Ent} {usa : List HTree}
    (hfa : findNodeF a F = some usa) {p e : Ent} {hrec : ACompHierarchy}
    (hp : p ∈ (HTree.node a usa).flatten)
    (hge : s.get e = some hrec) (hpe : hrec.m_parent = some p) :
    e ∈ (HTree.node a usa).flatten := by
  have hnd := hIW.2.1
  obtain ⟨usp, hfp, t', ht'm, hroot⟩ := parent_link_F hIW hge hpe
  have haF : a ∈ HTree.flattenF F := (findNodeF_isSome_iff F).mp (by rw [hfa]; rfl)
  obtain ⟨t, htm, hat⟩ := mem_flattenF_decomp haF
  have hndt : t.flatten.Nodup := hnd.sublist (flatten_sublist_flattenF htm)
  have hfat : findNode a t = some usa := findNode_of_findNodeF hnd htm hat hfa
  obtain ⟨haT, husT, _, _⟩ := node_facts_of_findNode t hndt hfat
  have hpt : p ∈ t.flatten := by
    rw [flatten_node] at hp
    rcases List.mem_cons.mp hp with rfl | hh
    · exact haT
    · exact husT _ hh
  have hfpt : findNode p t = some usp := findNode_of_findNodeF hnd htm hpt hfp
  have hsub := findNode_nested t hndt hfat hp hfpt
  exact hsub e (mem_flattenF_of_mem ht'm (hroot ▸ root_mem_flatten))

/-- Every descendant-or-self of `a` (an entity from which the parent chain
reaches `a`) lies in the flatten of `a`'s located subtree. -/
theorem ancestor_mem_subtree {next : Ent} {s : Store ACompHierarchy} {F : List HTree}
    (hIW : InvWith next s F) {a : Ent} {usa : List HTree}
    (hfa : findNodeF a F = some usa) {e : Ent} (hanc : AncestorOf s a e) :
    e ∈ (HTree.node a usa).flatten := by
  induction hanc with
  | refl => rw [flatten_node]; exact List.mem_cons_self _ _
  | step hg hp _ ih => exact subtree_closed hIW hfa ih hg hp

/-- The root record of a represented subtree: its level and parent field. -/
theorem repT_root_record {s : Store ACompHierarchy} {lvl : Nat} {pa pr nx : Option Ent}
    {t : HTree} (h : RepT s lvl pa pr nx t) :
    ∃ h0, s.get t.root = some h0 ∧ h0.m_level = lvl ∧ h0.m_parent = pa := by
  cases t with
  | node e ts =>
    cases h with
    | node hget hlvl hpar _ _ _ _ _ => exact ⟨_, hget, hlvl, hpar⟩

/-- The stored child chain of a node equals the roots of its subtrees. -/
theorem childrenOf_inv {next : Ent} {s : Store ACompHierarchy} {F : List HTree}
    (hIW : InvWith next s F) {e : Ent} {use : List HTree}
    (hfind : findNodeF e F = some use) :
    childrenOf s e = use.map HTree.root := by
  have hnd := hIW.2.1
  obtain ⟨h0, hg0, hfirst0, _, hch0⟩ := repF_findNode_record hIW.1 hfind
  obtain ⟨_, husF, hndus, _⟩ := nodeF_facts_of_findNodeF F hnd hfind
  have huskeys : ∀ x ∈ HTree.flattenF use, x ∈ s.keys := fun x hx =>
    alive_sub_keys hIW _ (husF x hx)
  simp only [childrenOf, hg0]
  rw [hfirst0]
  exact repC_chainFrom hch0 (chain_fuel hndus huskeys)

mutual

/-- Every link field of a record inside a represented subtree points into the
subtree, except for the root's own boundary links. -/
theorem linksT {s : Store ACompHierarchy} {lvl : Nat} {pa pr nx : Option Ent}
    (t : HTree) (h : RepT s lvl pa pr nx t) {e : Ent} {he : ACompHierarchy}
    (hge : s.get e = some he) (hmem : e ∈ t.flatten) :
    (∀ x, he.m_parent = some x → pa = some x ∨ x ∈ t.flatten) ∧
    (∀ x, he.m_siblingPrev = some x → pr = some x ∨ x ∈ t.flatten) ∧
    (∀ x, he.m_siblingNext = some x → nx = some x ∨ x ∈ t.flatten) ∧
    (∀ x, he.m_childFirst = some x → x ∈ t.flatten) := by
  cases t with
  | node r ts =>
    cases h with
    | node hget hlvl hpar hprev hnext hcount hfirst hch =>
      rename_i h0
      rw [flatten_node] at hmem
      rcases List.mem_cons.mp hmem with rfl | hdeep
      · rw [hget] at hge
        cases hge
        refine ⟨fun x hx => Or.inl (hpar ▸ hx), fun x hx => Or.inl (hprev ▸ hx),
          fun x hx => Or.inl (hnext ▸ hx), fun x hx => ?_⟩
        rw [hfirst] at hx
        cases ts with
        | nil => cases hx
        | cons t1 ts1 =>
          rw [rootsHead, Option.some.injEq] at hx
          subst hx
          rw [flatten_node]
          exact List.mem_cons_of_mem _
            (mem_flattenF_of_mem (List.mem_cons_self _ _) root_mem_flatten)
      · obtain ⟨h1, h2, h3, h4⟩ := linksC ts hch hge hdeep
        refine ⟨fun x hx => ?_, fun x hx => ?_, fun x hx => ?_, fun x hx => ?_⟩
        · rcases h1 x hx with hh | hh
          · rw [Option.some.injEq] at hh
            subst hh
            exact Or.inr (by rw [flatten_node]; exact List.mem_cons_self _ _)
          · exact Or.inr (by rw [flatten_node]; exact List.mem_cons_of_mem _ hh)
        · rcases h2 x hx with hh | hh
          · cases hh
          · exact Or.inr (by rw [flatten_node]; exact List.mem_cons_of_mem _ hh)
        · exact Or.inr (by rw [flatten_node]; exact List.mem_cons_of_mem _ (h3 x hx))
        · rw [flatten_node]; exact List.mem_cons_of_mem _ (h4 x hx)

theorem linksC {s : Store ACompHierarchy} {lvl : Nat} {pa pr : Option Ent}
    (ts : List HTree) (h : RepC s lvl pa pr ts) {e : Ent} {he : ACompHierarchy}
    (hge : s.get e = some he) (hmem : e ∈ HTree.flattenF ts) :
    (∀ x, he.m_parent = some x → pa = some x ∨ x ∈ HTree.flattenF ts) ∧
    (∀ x, he.m_siblingPrev = some x → pr = some x ∨ x ∈ HTree.flattenF ts) ∧
    (∀ x, he.m_siblingNext = some x → x ∈ HTree.flattenF ts) ∧
    (∀ x, he.m_childFirst = some x → x ∈ HTree.flattenF ts) := by
  cases ts with
  | nil => rw [flattenF_nil] at hmem; cases hmem
  | cons t0 ts' =>
    cases h with
    | cons ht hts =>
      rw [flattenF_cons] at hmem
      rcases List.mem_append.mp hmem with hh | hh
      · obtain ⟨h1, h2, h3, h4⟩ := linksT t0 ht hge hh
        refine ⟨fun x hx => ?_, fun x hx => ?_, fun x hx => ?_, fun x hx => ?_⟩
        · rcases h1 x hx with h5 | h5
          · exact Or.inl h5
          · exact Or.inr (by rw [flattenF_cons]; exact List.mem_append_left _ h5)
        · rcases h2 x hx with h5 | h5
          · exact Or.inl h5
          · exact Or.inr (by rw [flattenF_cons]; exact List.mem_append_left _ h5)
        · rcases h3 x hx with h5 | h5
          · cases ts' with
            | nil => rw [rootsHead] at h5; cases h5
            | cons t1 ts1 =>
              rw [rootsHead, Option.some.injEq] at h5
              subst h5
              rw [flattenF_cons]
              exact List.mem_append_right _
                (mem_flattenF_of_mem (List.mem_cons_self _ _) root_mem_flatten)
          · rw [flattenF_cons]; exact List.mem_append_left _ h5
        · rw [flattenF_cons]; exact List.mem_append_left _ (h4 x hx)
      · obtain ⟨h1, h2, h3, h4⟩ := linksC ts' hts hge hh
        refine ⟨fun x hx => ?_, fun x hx => ?_, fun x hx => ?_, fun x hx => ?_⟩
        · rcases h1 x hx with h5 | h5
          · exact Or.inl h5
          · exact Or.inr (by rw [flattenF_cons]; exact List.mem_append_right _ h5)
        · rcases h2 x hx with h5 | h5
          · rw [Option.some.injEq] at h5
            subst h5
            exact Or.inr (by
              rw [flattenF_cons]
              exact List.mem_append_left _ root_mem_flatten)
          · exact Or.inr (by rw [flattenF_cons]; exact List.mem_append_right _ h5)
        · rw [flattenF_cons]; exact List.mem_append_right _ (h3 x hx)
        · rw [flattenF_cons]; exact List.mem_append_right _ (h4 x hx)

end

/-- Under the invariant every stored link references an alive entity. -/
theorem links_alive {next : Ent} {s : Store ACompHierarchy} {F : List HTree}
    (hIW : InvWith next s F) {e : Ent} {he : ACompHierarchy}
    (hge : s.get e = some he) :
    ∀ x, (he.m_parent = some x ∨ he.m_siblingPrev = some x ∨
      he.m_siblingNext = some x ∨ he.m_childFirst = some x) →
      x ∈ HTree.flattenF F := by
  have halive := hIW.2.2.1
  have hmem : e ∈ HTree.flattenF F := (halive e).mp (by rw [hge]; rfl)
  obtain ⟨t, htm, het⟩ := mem_flattenF_decomp hmem
  obtain ⟨lvl, hrep⟩ := hIW.1 t htm
  obtain ⟨h1, h2, h3, h4⟩ := linksT t hrep hge het
  intro x hx
  rcases hx with hx | hx | hx | hx
  · rcases h1 x hx with hh | hh
    · cases hh
    · exact mem_flattenF_of_mem htm hh
  · rcases h2 x hx with hh | hh
    · cases hh
    · exact mem_flattenF_of_mem htm hh
  · rcases h3 x hx with hh | hh
    · cases hh
    · exact mem_flattenF_of_mem htm hh
  · exact mem_flattenF_of_mem htm (h4 x hx)

/-- An ancestor sits at a level at most that of its descendant. -/
theorem ancestor_level {next : Ent} {s : Store ACompHierarchy} {F : List HTree}
    (hIW : InvWith next s F) {a e : Ent} (hanc : AncestorOf s a e) :
    ∀ {he : ACompHierarchy}, s.get e = some he →
      ∃ ha, s.get a = some ha ∧ ha.m_level ≤ he.m_level := by
  induction hanc with
  | refl => intro he hge; exact ⟨he, hge, le_refl _⟩
  | step hg hp _ ih =>
    intro he hge
    rename_i h' p'
    rw [hge] at hg
    cases hg
    obtain ⟨hq0, hgq, hlvl⟩ := parent_level_F hIW hge hp
    obtain ⟨ha, hga, hle⟩ := ih hgq
    exact ⟨ha, hga, hle.trans (by rw [hlvl]; exact Nat.le_succ _)⟩

/-- No entity is an ancestor of its own parent. -/
theorem no_parent_cycle {next : Ent} {s : Store ACompHierarchy} {F : List HTree}
    (hIW : InvWith next s F) {e p : Ent} {he : ACompHierarchy}
    (hge : s.get e = some he) (hp : he.m_parent = some p) :
    ¬ AncestorOf s e p := by
  intro hanc
  obtain ⟨hp0, hgp0, hlvl⟩ := parent_level_F hIW hge hp
  obtain ⟨ha, hga, hle⟩ := ancestor_level hIW hanc hgp0
  rw [hge] at hga
  cases hga
  omega

/-! ### Floating-origin and cache helper lemmas -/

theorem fo_begin_zero {sc : SceneState} (h : sc.m_floatingOriginTranslate = 0) :
    floating_origin_translate_begin sc = sc := by
  rw [floating_origin_translate_begin, if_pos h]

theorem padVec_zero (i : Fin 4) : padVec 0 i = 0 := by
  simp only [padVec]
  split
  · rfl
  · rfl

theorem translatedBy_zero (m : Mat4) : m.translatedBy 0 = m := by
  funext i j
  rw [Mat4.translatedBy, Matrix.of_apply]
  by_cases hc : j = (3 : Fin 4) ∧ (i : Nat) < 3
  · rw [if_pos hc, padVec_zero, add_zero]
  · rw [if_neg hc]

theorem get_map_snd {α : Type} {f : α → α} {s : Store α} {e : Ent} :
    Store.get (s.map (fun kv => (kv.1, f kv.2))) e = (Store.get s e).map f := by
  induction s with
  | nil => rfl
  | cons kv rest ih =>
    obtain ⟨k, v⟩ := kv
    rw [List.map_cons]
    show Store.get ((k, f v) :: rest.map _) e = _
    rw [Store.get_cons, Store.get_cons]
    by_cases hk : k = e
    · rw [if_pos hk, if_pos hk]
      rfl
    · rw [if_neg hk, if_neg hk]
      exact ih

theorem setParent_rbAncestor {sc sc' : SceneState} {p c : Ent}
    (hop : hier_set_parent_child sc p c = some sc') :
    sc'.m_rbAncestor = sc.m_rbAncestor := by
  cases hgp : sc.m_hier.get p with
  | none =>
    cases hgc : sc.m_hier.get c with
    | none =>
      simp only [hier_set_parent_child, hgp, hgc] at hop
      cases hop
    | some ch =>
      simp only [hier_set_parent_child, hgp, hgc] at hop
      cases hop
  | some ph =>
    cases hgc : sc.m_hier.get c with
    | none =>
      simp only [hier_set_parent_child, hgp, hgc] at hop
      cases hop
    | some ch =>
      simp only [hier_set_parent_child, hgp, hgc] at hop
      by_cases hcyc : p ∈ subtreeEnts sc.m_hier (sc.m_hier.size + 1) c
      · rw [if_pos hcyc] at hop; cases hop
      · rw [if_neg hcyc, Option.some.injEq] at hop
        subst hop
        rfl

theorem cut_rbAncestor {sc sc' : SceneState} {e : Ent}
    (hop : hier_cut sc e = some sc') :
    sc'.m_rbAncestor = sc.m_rbAncestor := by
  cases hge : sc.m_hier.get e with
  | none => rw [hier_cut, hge] at hop; cases hop
  | some h =>
    cases hq : h.m_parent with
    | none =>
      simp only [hier_cut, hge, hq] at hop
      cases hop
    | some q =>
      simp only [hier_cut, hge, hq, Option.some.injEq] at hop
      subst hop
      rfl

/-! ### The claims -/

/-- C9: confirmed.  `ACtxNwtWorld` (ospnewton.h:64-90) declares the
`NewtonWorld` owner `m_world` first, and the body / collider handle owners
after it; C++ destroys non-static members in reverse declaration order, so
every member owning rigid-body or collider handles is destroyed strictly
before the member owning the world handle. -/
theorem C9_nwt_destruction_order :
    ∀ m ∈ nwtMemberDestructOrder, ∀ w ∈ nwtMemberDestructOrder,
      (ownsBodyHandles m || ownsColliderHandles m) = true →
      ownsWorldHandle w = true →
      nwtMemberDestructOrder.indexOf m < nwtMemberDestructOrder.indexOf w := by
  decide

theorem C9_nwt_destruction_order_witness :
    nwtMemberDestructOrder.indexOf NwtWorldMember.bodyPtrs <
      nwtMemberDestructOrder.indexOf NwtWorldMember.world :=
  C9_nwt_destruction_order NwtWorldMember.bodyPtrs (by decide)
    NwtWorldMember.world (by decide) (by decide) (by decide)

/-- C10: confirmed.  `hier_set_parent_child` and `hier_cut` mutate only the
hierarchy store; a cached `ACompRigidbodyAncestor` survives both unchanged,
and `try_get_or_find_rigidbody_ancestor` keeps returning the stale cached
record instead of re-running the walk. -/
theorem C10_cache_survives_hierarchy_mutation {sc sc' : SceneState} {e : Ent}
    {rba : ACompRigidbodyAncestor}
    (hcache : sc.m_rbAncestor.get e = some rba)
    (hop : (∃ p c, hier_set_parent_child sc p c = some sc') ∨
      ∃ x, hier_cut sc x = some sc') :
    sc'.m_rbAncestor.get e = some rba ∧
      try_get_or_find_rigidbody_ancestor sc' e = (sc', some rba) := by
  have hpres : sc'.m_rbAncestor = sc.m_rbAncestor := by
    rcases hop with ⟨p, c, h⟩ | ⟨x, h⟩
    · exact setParent_rbAncestor h
    · exact cut_rbAncestor h
  have hc' : sc'.m_rbAncestor.get e = some rba := by rw [hpres]; exact hcache
  refine ⟨hc', ?_⟩
  simp only [try_get_or_find_rigidbody_ancestor, hc']

theorem C10_cache_survives_hierarchy_mutation_witness :
    ((hier_cut cacheScene 1).getD cacheScene).m_rbAncestor.get 2
        = some { m_ancestor := 0, m_relTransform := 1 } ∧
      try_get_or_find_rigidbody_ancestor ((hier_cut cacheScene 1).getD cacheScene) 2
        = ((hier_cut cacheScene 1).getD cacheScene,
           some { m_ancestor := 0, m_relTransform := 1 }) :=
  @C10_cache_survives_hierarchy_mutation cacheScene
    ((hier_cut cacheScene 1).getD cacheScene) 2
    { m_ancestor := 0, m_relTransform := 1 } (by rfl) (Or.inr ⟨1, by rfl⟩)

/-- C8: confirmed.  `floating_origin_translate_begin` is a no-op on a zero
accumulated total; on a nonzero total it zeroes the accumulator and clears
the in-progress flag, so a second call with no intervening request changes
nothing (the function is idempotent). -/
theorem C8_begin_resets_and_noop (sc : SceneState) :
    (sc.m_floatingOriginTranslate = 0 → floating_origin_translate_begin sc = sc) ∧
    (sc.m_floatingOriginTranslate ≠ 0 →
      (floating_origin_translate_begin sc).m_floatingOriginTranslate = 0 ∧
      (floating_origin_translate_begin sc).m_floatingOriginInProgress = false) ∧
    floating_origin_translate_begin (floating_origin_translate_begin sc)
      = floating_origin_translate_begin sc := by
  refine ⟨fun h => fo_begin_zero h, fun h => ?_, ?_⟩
  · rw [floating_origin_translate_begin, if_neg h]
    exact ⟨rfl, rfl⟩
  · by_cases h : sc.m_floatingOriginTranslate = 0
    · rw [fo_begin_zero h]
      exact fo_begin_zero h
    · exact fo_begin_zero (by rw [floating_origin_translate_begin, if_neg h])

theorem C8_begin_resets_and_noop_witness :
    (floating_origin_translate_begin pendingScene).m_floatingOriginTranslate = 0 ∧
      (floating_origin_translate_begin pendingScene).m_floatingOriginInProgress
        = false :=
  (C8_begin_resets_and_noop pendingScene).2.1 (by decide)

/-- C3: confirmed.  Starting from a zero accumulator, two accumulated
requests followed by `floating_origin_translate_begin` shift every
floating-origin-enabled transform by exactly `d1 + d2`, forward the identical
delta to every backend rigid-body position, and leave unflagged transforms
untouched. -/
theorem C3_floating_origin_shift (sc : SceneState) (d1 d2 : Vec3)
    (h0 : sc.m_floatingOriginTranslate = 0) :
    (∀ e t, sc.m_transform.get e = some t → t.m_enableFloatingOrigin = true →
      (floating_origin_translate_begin
        (floating_origin_translate (floating_origin_translate sc d1) d2)).m_transform.get e
        = some { t with m_transform := t.m_transform.translatedBy (d1 + d2) }) ∧
    (∀ e t, sc.m_transform.get e = some t → t.m_enableFloatingOrigin = false →
      (floating_origin_translate_begin
        (floating_origin_translate (floating_origin_translate sc d1) d2)).m_transform.get e
        = some t) ∧
    (∀ e v, sc.m_backendPos.get e = some v →
      (floating_origin_translate_begin
        (floating_origin_translate (floating_origin_translate sc d1) d2)).m_backendPos.get e
        = some (v + (d1 + d2))) := by
  have hS : floating_origin_translate (floating_origin_translate sc d1) d2
      = { sc with m_floatingOriginTranslate := d1 + d2 } := by
    simp only [floating_origin_translate, h0, zero_add]
  rw [hS]
  by_cases hz : d1 + d2 = (0 : Vec3)
  · rw [fo_begin_zero
      (show ({ sc with m_floatingOriginTranslate := d1 + d2 } :
        SceneState).m_floatingOriginTranslate = 0 from hz)]
    refine ⟨fun e t hget hflag => ?_, fun e t hget hflag => hget, fun e v hget => ?_⟩
    · show sc.m_transform.get e
        = some { t with m_transform := t.m_transform.translatedBy (d1 + d2) }
      rw [hz, translatedBy_zero]
      exact hget
    · show sc.m_backendPos.get e = some (v + (d1 + d2))
      rw [hz, add_zero]
      exact hget
  · rw [floating_origin_translate_begin,
      if_neg (show ¬ ({ sc with m_floatingOriginTranslate := d1 + d2 } :
        SceneState).m_floatingOriginTranslate = 0 from hz)]
    refine ⟨fun e t hget hflag => ?_, fun e t hget hflag => ?_, fun e v hget => ?_⟩
    · show Store.get (translateAllTransforms sc.m_transform (d1 + d2)) e = _
      rw [translateAllTransforms, get_map_snd, hget, Option.map_some']
      rw [translateRecord, if_pos hflag]
    · show Store.get (translateAllTransforms sc.m_transform (d1 + d2)) e = some t
      rw [translateAllTransforms, get_map_snd, hget, Option.map_some']
      rw [translateRecord, if_neg (by rw [hflag]; exact Bool.false_ne_true)]
    · show Store.get (sc.m_backendPos.map
        (fun kv => (kv.1, kv.2 + (d1 + d2)))) e = some (v + (d1 + d2))
      rw [@get_map_snd Vec3 (fun x => x + (d1 + d2)) sc.m_backendPos e, hget,
        Option.map_some']

theorem C3_floating_origin_shift_witness :
    (floating_origin_translate_begin
      (floating_origin_translate
        (floating_origin_translate originScene (fun _ => 1)) (fun _ => 2))).m_transform.get 0
      = some { m_transform := Mat4.translatedBy 1 ((fun _ => 1) + fun _ => 2),
               m_transformWorld := 1, m_enableFloatingOrigin := true } ∧
    (floating_origin_translate_begin
      (floating_origin_translate
        (floating_origin_translate originScene (fun _ => 1)) (fun _ => 2))).m_transform.get 1
      = some { m_transform := 1, m_transformWorld := 1, m_enableFloatingOrigin := false } ∧
    (floating_origin_translate_begin
      (floating_origin_translate
        (floating_origin_translate originScene (fun _ => 1)) (fun _ => 2))).m_backendPos.get 0
      = some ((fun _ => 5) + ((fun _ => 1) + fun _ => 2)) := by
  obtain ⟨h1, h2, h3⟩ := C3_floating_origin_shift originScene (fun _ => 1) (fun _ => 2) rfl
  exact ⟨h1 0 _ rfl rfl, h2 1 _ rfl rfl, h3 0 _ rfl⟩

/-- The ancestor walk stops exactly at an entity of the physics level and its
result is an ancestor of the start entity. -/
theorem rigidbodyAncestorWalk_correct (sc : SceneState) :
    ∀ (fuel cur a : Ent), rigidbodyAncestorWalk sc fuel cur = some a →
      (∃ h, sc.m_hier.get a = some h ∧ h.m_level = gc_heir_physics_level) ∧
      AncestorOf sc.m_hier a cur := by
  intro fuel
  induction fuel with
  | zero =>
    intro cur a hw
    rw [rigidbodyAncestorWalk] at hw
    cases hw
  | succ f ih =>
    intro cur a hw
    cases hg : sc.m_hier.get cur with
    | none =>
      simp only [rigidbodyAncestorWalk, hg] at hw
      cases hw
    | some h =>
      simp only [rigidbodyAncestorWalk, hg] at hw
      by_cases hl : h.m_level = gc_heir_physics_level
      · rw [if_pos hl, Option.some.injEq] at hw
        subst hw
        exact ⟨⟨h, hg, hl⟩, AncestorOf.refl⟩
      · rw [if_neg hl] at hw
        cases hp : h.m_parent with
        | none =>
          simp only [hp] at hw
          cases hw
        | some p =>
          simp only [hp] at hw
          obtain ⟨hrec, hanc⟩ := ih p a hw
          exact ⟨hrec, AncestorOf.step hg hp hanc⟩

/-- C2: corrected.  The contract at SysNewton.h:118-120 makes
`find_rigidbody_ancestor` return the level-1 (`gc_heir_physics_level`)
ancestor of the entity — not the root — paired with whatever body record that
entity carries; `(none, none)` on a missing hierarchy record.  The claim's
"(root, null)" for a bodyless chain is wrong (see the counterexample). -/
theorem C2_find_rigidbody_ancestor_contract (sc : SceneState) (ent : Ent) :
    (sc.m_hier.get ent = none → find_rigidbody_ancestor sc ent = (none, none)) ∧
    (∀ a, (find_rigidbody_ancestor sc ent).1 = some a →
      (∃ h, sc.m_hier.get a = some h ∧ h.m_level = gc_heir_physics_level) ∧
      AncestorOf sc.m_hier a ent ∧
      (find_rigidbody_ancestor sc ent).2 = sc.m_nwtBody.get a) := by
  constructor
  · intro hnone
    have hw : rigidbodyAncestorWalk sc (sc.m_hier.size + 1) ent = none := by
      simp only [rigidbodyAncestorWalk, hnone]
    simp only [find_rigidbody_ancestor, hw]
  · intro a ha
    cases hw : rigidbodyAncestorWalk sc (sc.m_hier.size + 1) ent with
    | none =>
      simp only [find_rigidbody_ancestor, hw] at ha
      cases ha
    | some a0 =>
      simp only [find_rigidbody_ancestor, hw] at ha
      rw [Option.some.injEq] at ha
      subst ha
      obtain ⟨hrec, hanc⟩ := rigidbodyAncestorWalk_correct sc _ ent a0 hw
      refine ⟨hrec, hanc, ?_⟩
      simp only [find_rigidbody_ancestor, hw]

theorem C2_find_rigidbody_ancestor_contract_witness :
    (∃ h, chainScene.m_hier.get 1 = some h ∧ h.m_level = gc_heir_physics_level) ∧
      AncestorOf chainScene.m_hier 1 3 ∧
      (find_rigidbody_ancestor chainScene 3).2 = chainScene.m_nwtBody.get 1 :=
  (C2_find_rigidbody_ancestor_contract chainScene 3).2 1 (by rfl)

/-- C2, refutation of the claimed "(root, null)": on the bodyless chain
0 → 1 → 2 → 3 the walk from entity 3 returns the level-1 entity 1, not the
root 0. -/
theorem C2_counterexample :
    find_rigidbody_ancestor chainScene 3 = (some 1, none) ∧
      (find_rigidbody_ancestor chainScene 3).1 ≠ some 0 := by
  constructor
  · rfl
  · decide

/-- C5: confirmed.  In any reachable scene, `hier_set_parent_child` rejects a
missing hierarchy record on either argument and any attempt to parent an
entity under its own descendant (or itself); the rejection returns `none`
before any mutation, so the operation leaves the scene unchanged. -/
theorem C5_reparent_cycle_rejected {sc : SceneState} (hR : Reachable sc)
    (parent child : Ent)
    (hbad : sc.m_hier.get parent = none ∨ sc.m_hier.get child = none ∨
      AncestorOf sc.m_hier child parent) :
    hier_set_parent_child sc parent child = none ∧
      applyOp sc (Op.setParentChild parent child) = sc := by
  have hmain : hier_set_parent_child sc parent child = none := by
    cases hgp : sc.m_hier.get parent with
    | none =>
      cases hgc : sc.m_hier.get child with
      | none => simp only [hier_set_parent_child, hgp, hgc]
      | some ch => simp only [hier_set_parent_child, hgp, hgc]
    | some ph =>
      cases hgc : sc.m_hier.get child with
      | none => simp only [hier_set_parent_child, hgp, hgc]
      | some ch =>
        rcases hbad with hh | hh | hanc
        · rw [hgp] at hh; cases hh
        · rw [hgc] at hh; cases hh
        · obtain ⟨F, hIW⟩ := reachable_hierInv hR
          have halive := hIW.2.2.1
          have hnd := hIW.2.1
          have hmemc : child ∈ HTree.flattenF F := (halive child).mp (by rw [hgc]; rfl)
          obtain ⟨usc, hfc⟩ := find_of_alive hmemc
          have hpmem : parent ∈ (HTree.node child usc).flatten :=
            ancestor_mem_subtree hIW hfc hanc
          obtain ⟨h0, hg0, hfirst0, hcount0, hch0⟩ := repF_findNode_record hIW.1 hfc
          obtain ⟨hcmemF, husF, hndus, hcnotus⟩ := nodeF_facts_of_findNodeF F hnd hfc
          have hrepT : RepT sc.m_hier h0.m_level h0.m_parent h0.m_siblingPrev
              h0.m_siblingNext (HTree.node child usc) :=
            RepT.node hg0 rfl rfl rfl rfl hcount0 hfirst0 hch0
          have hndT : (HTree.node child usc).flatten.Nodup := by
            rw [flatten_node]
            exact List.nodup_cons.mpr ⟨hcnotus, hndus⟩
          have hkeysT : ∀ x ∈ (HTree.node child usc).flatten, x ∈ sc.m_hier.keys := by
            intro x hx
            rw [flatten_node] at hx
            rcases List.mem_cons.mp hx with rfl | hh
            · exact alive_sub_keys hIW _ hmemc
            · exact alive_sub_keys hIW _ (husF _ hh)
          have hsubeq : subtreeEnts sc.m_hier (sc.m_hier.size + 1) child
              = (HTree.node child usc).flatten := subtree_eq hrepT hndT hkeysT
          have hcyc : parent ∈ subtreeEnts sc.m_hier (sc.m_hier.size + 1) child := by
            rw [hsubeq]
            exact hpmem
          simp only [hier_set_parent_child, hgp, hgc]
          rw [if_pos hcyc]
  exact ⟨hmain, by simp only [applyOp, hmain, Option.getD_none]⟩

theorem C5_reparent_cycle_rejected_witness :
    hier_set_parent_child reparentScene 1 0 = none ∧
      applyOp reparentScene (Op.setParentChild 1 0) = reparentScene :=
  C5_reparent_cycle_rejected ⟨[Op.createChild 0 "A"], rfl⟩ 1 0
    (Or.inr (Or.inr (AncestorOf.step
      (show reparentScene.m_hier.get 1 = some
        { m_name := "A", m_level := 1, m_parent := some 0 } from rfl)
      rfl AncestorOf.refl)))

/-- C7: confirmed.  In a reachable scene, `hier_destroy ent` removes `ent`
and all of its descendants from every component store, and afterwards no
link field (parent, sibling, or child-first) of any surviving hierarchy
record references a destroyed entity: every stored link points to an entity
that is still alive and was not part of the destroyed subtree. -/
theorem C7_destroy_removes_subtree {sc : SceneState} (hR : Reachable sc)
    {ent : Ent} {sc' : SceneState} (hop : hier_destroy sc ent = some sc') :
    (∀ e, AncestorOf sc.m_hier ent e →
      sc'.m_hier.get e = none ∧ sc'.m_transform.get e = none ∧
      sc'.m_mass.get e = none ∧ sc'.m_shape.get e = none ∧
      sc'.m_rbAncestor.get e = none ∧ sc'.m_nwtBody.get e = none) ∧
    (∀ e h', sc'.m_hier.get e = some h' → ∀ x,
      h'.m_parent = some x ∨ h'.m_siblingPrev = some x ∨
        h'.m_siblingNext = some x ∨ h'.m_childFirst = some x →
      (sc'.m_hier.get x).isSome ∧ ¬ AncestorOf sc.m_hier ent x) := by
  obtain ⟨F, hIW⟩ := reachable_hierInv hR
  obtain ⟨F', hIW'⟩ := hierInv_destroy (⟨F, hIW⟩ : HierInv sc.m_next sc.m_hier) hop
  have hnd := hIW.2.1
  have halive := hIW.2.2.1
  cases hget : sc.m_hier.get ent with
  | none => rw [hier_destroy, hget] at hop; cases hop
  | some h =>
    have hmem : ent ∈ HTree.flattenF F := (halive ent).mp (by rw [hget]; rfl)
    obtain ⟨usc, hfc⟩ := find_of_alive hmem
    obtain ⟨h0, hg0, hfirst0, hcount0, hch0⟩ := repF_findNode_record hIW.1 hfc
    obtain ⟨hcmemF, husF, hndus, hcnotus⟩ := nodeF_facts_of_findNodeF F hnd hfc
    have hrepT : RepT sc.m_hier h0.m_level h0.m_parent h0.m_siblingPrev
        h0.m_siblingNext (HTree.node ent usc) :=
      RepT.node hg0 rfl rfl rfl rfl hcount0 hfirst0 hch0
    have hndT : (HTree.node ent usc).flatten.Nodup := by
      rw [flatten_node]
      exact List.nodup_cons.mpr ⟨hcnotus, hndus⟩
    have hkeysT : ∀ x ∈ (HTree.node ent usc).flatten, x ∈ sc.m_hier.keys := by
      intro x hx
      rw [flatten_node] at hx
      rcases List.mem_cons.mp hx with rfl | hh
      · exact alive_sub_keys hIW _ hmem
      · exact alive_sub_keys hIW _ (husF _ hh)
    have hsubeq : subtreeEnts sc.m_hier (sc.m_hier.size + 1) ent
        = (HTree.node ent usc).flatten := subtree_eq hrepT hndT hkeysT
    have hsub_none : ∀ e, e ∈ subtreeEnts sc.m_hier (sc.m_hier.size + 1) ent →
        sc'.m_hier.get e = none ∧ sc'.m_transform.get e = none ∧
        sc'.m_mass.get e = none ∧ sc'.m_shape.get e = none ∧
        sc'.m_rbAncestor.get e = none ∧ sc'.m_nwtBody.get e = none := by
      intro e he
      cases hq : h.m_parent with
      | none =>
        simp only [hier_destroy, hget, hq, Option.some.injEq] at hop
        subst hop
        exact ⟨Store.get_eraseMany_mem he, Store.get_eraseMany_mem he,
          Store.get_eraseMany_mem he, Store.get_eraseMany_mem he,
          Store.get_eraseMany_mem he, Store.get_eraseMany_mem he⟩
      | some q =>
        simp only [hier_destroy, hget, hq, Option.some.injEq] at hop
        subst hop
        exact ⟨Store.get_eraseMany_mem he, Store.get_eraseMany_mem he,
          Store.get_eraseMany_mem he, Store.get_eraseMany_mem he,
          Store.get_eraseMany_mem he, Store.get_eraseMany_mem he⟩
    have hanc_sub : ∀ e, AncestorOf sc.m_hier ent e →
        e ∈ subtreeEnts sc.m_hier (sc.m_hier.size + 1) ent := by
      intro e hanc
      rw [hsubeq]
      exact ancestor_mem_subtree hIW hfc hanc
    refine ⟨fun e hanc => hsub_none e (hanc_sub e hanc), ?_⟩
    intro e h' hge' x hx
    have hxalive : x ∈ HTree.flattenF F' := links_alive hIW' hge' x hx
    have hxsome : (sc'.m_hier.get x).isSome := (hIW'.2.2.1 x).mpr hxalive
    refine ⟨hxsome, fun hanc => ?_⟩
    have hxnone := (hsub_none x (hanc_sub x hanc)).1
    rw [hxnone] at hxsome
    simp at hxsome

theorem C7_destroy_removes_subtree_witness :
    ((hier_destroy destroyScene 1).getD destroyScene).m_hier.get 2 = none :=
  ((@C7_destroy_removes_subtree destroyScene
      ⟨[Op.createChild 0 "A", Op.createChild 1 "B"], rfl⟩ 1
      ((hier_destroy destroyScene 1).getD destroyScene)
      (by simp [hier_destroy, subtreeEnts, subtreeDepths, subtreeDepthsF, childrenOf,
        chainFrom, writeChain, writeChainAux, writeLinks, Store.get, Store.size,
        Store.modify, Store.put, Store.eraseMany, Store.insert, destroyScene, runOps,
        applyOp, hier_create_child, initialScene, List.erase])).1 2
    (AncestorOf.step
      (show destroyScene.m_hier.get 2 = some
        { m_name := "B", m_level := 2, m_parent := some 1 } from rfl)
      rfl AncestorOf.refl)).1

/-- The translation column of a pure translation transform is the offset. -/
theorem position_translationMat (o : Vec3) : Mat4.position (translationMat o) = o := by
  funext i
  have hlt : ((i.castSucc : Fin 4) : Nat) < 3 := by
    rw [Fin.coe_castSucc]
    exact i.isLt
  have hne : (i.castSucc : Fin 4) ≠ 3 := by
    intro hh
    rw [hh] at hlt
    exact absurd hlt (by decide)
  have hpad : padVec o i.castSucc = o i := by
    simp only [padVec]
    rw [dif_pos hlt]
    exact congrArg o (Fin.ext (by rw [Fin.coe_castSucc]))
  simp only [Mat4.position, translationMat, Mat4.translatedBy, Matrix.of_apply, true_and]
  rw [if_pos hlt, Matrix.one_apply_ne hne, zero_add, hpad]

/-- C6: confirmed.  On the two-mass scene, `compute_hier_CoM` without root
mass returns the centre of mass `(m1·o1 + m2·o2)/(m1+m2)` and total mass
`m1 + m2`; with root-mass inclusion the root's own mass `m0` is added to the
total. -/
theorem C6_compute_hier_CoM (m0 m1 m2 : ℚ) (o1 o2 : Vec3) (h : m1 + m2 ≠ 0) :
    compute_hier_CoM false (twoMassScene m0 m1 m2 o1 o2) 0
      = ((m1 + m2)⁻¹ • (m1 • o1 + m2 • o2), m1 + m2) ∧
    (compute_hier_CoM true (twoMassScene m0 m1 m2 o1 o2) 0).2 = m0 + (m1 + m2) := by
  have hoff : subtreeOffsets (twoMassScene m0 m1 m2 o1 o2)
      ((twoMassScene m0 m1 m2 o1 o2).m_hier.size + 1) 0 1
      = [(0, 1), (1, translationMat o1), (2, translationMat o2)] := by
    simp [subtreeOffsets, subtreeOffsetsF, childrenOf, chainFrom, Store.get,
      Store.size, twoMassScene]
  have hm0 : massContrib (twoMassScene m0 m1 m2 o1 o2) 0 = m0 := by
    simp [massContrib, Store.get, twoMassScene]
  have hm1 : massContrib (twoMassScene m0 m1 m2 o1 o2) 1 = m1 := by
    simp [massContrib, Store.get, twoMassScene]
  have hm2 : massContrib (twoMassScene m0 m1 m2 o1 o2) 2 = m2 := by
    simp [massContrib, Store.get, twoMassScene]
  constructor
  · simp only [compute_hier_CoM, hoff, Bool.false_eq_true, if_false, List.drop_succ_cons,
      List.drop_zero, List.map_cons, List.map_nil, List.sum_cons, List.sum_nil,
      hm1, hm2, add_zero, position_translationMat]
    rw [if_neg h]
  · simp only [compute_hier_CoM, hoff, if_true, List.map_cons, List.map_nil,
      List.sum_cons, List.sum_nil, hm0, hm1, hm2, add_zero]

theorem C6_compute_hier_CoM_witness :
    compute_hier_CoM false (twoMassScene 5 1 3 (fun _ => 4) (fun _ => 8)) 0
      = (((1 : ℚ) + 3)⁻¹ •
          ((1 : ℚ) • ((fun _ => 4) : Vec3) + (3 : ℚ) • ((fun _ => 8) : Vec3)),
         (1 : ℚ) + 3) ∧
    (compute_hier_CoM true (twoMassScene 5 1 3 (fun _ => 4) (fun _ => 8)) 0).2
      = 5 + ((1 : ℚ) + 3) :=
  C6_compute_hier_CoM 5 1 3 (fun _ => 4) (fun _ => 8) (by norm_num)

/-- C1: corrected.  After `hier_cut` the hierarchy is a forest, not a
single-rooted tree (see the counterexample); the remaining invariants hold in
every reachable scene: each parented entity's level is its parent's level
plus one, each record's `m_childCount` equals the length of its actual
linked child chain, that chain is duplicate-free and each linked child's
parent link points back, and following parent links never returns to a
descendant (no cycles). -/
theorem C1_hierarchy_invariants {sc : SceneState} (hR : Reachable sc) :
    (∀ e h p, sc.m_hier.get e = some h → h.m_parent = some p →
      ∃ hp, sc.m_hier.get p = some hp ∧ h.m_level = hp.m_level + 1) ∧
    (∀ e h, sc.m_hier.get e = some h →
      h.m_childCount = (childrenOf sc.m_hier e).length ∧
      (childrenOf sc.m_hier e).Nodup ∧
      ∀ c ∈ childrenOf sc.m_hier e, ∃ hc, sc.m_hier.get c = some hc ∧
        hc.m_parent = some e) ∧
    (∀ e h p, sc.m_hier.get e = some h → h.m_parent = some p →
      ¬ AncestorOf sc.m_hier e p) := by
  obtain ⟨F, hIW⟩ := reachable_hierInv hR
  refine ⟨fun e h p hget hp => parent_level_F hIW hget hp,
    fun e h hget => ?_, fun e h p hget hp => no_parent_cycle hIW hget hp⟩
  have halive := hIW.2.2.1
  have hnd := hIW.2.1
  have hmem : e ∈ HTree.flattenF F := (halive e).mp (by rw [hget]; rfl)
  obtain ⟨use, hfind⟩ := find_of_alive hmem
  obtain ⟨h0, hg0, hfirst0, hcount0, hch0⟩ := repF_findNode_record hIW.1 hfind
  rw [hget] at hg0
  cases hg0
  have hch_eq : childrenOf sc.m_hier e = use.map HTree.root := childrenOf_inv hIW hfind
  obtain ⟨_, husF, hndus, _⟩ := nodeF_facts_of_findNodeF F hnd hfind
  refine ⟨by rw [hch_eq, List.length_map]; exact hcount0, ?_, ?_⟩
  · rw [hch_eq]
    exact hndus.sublist roots_sublist_flattenF
  · intro c hc
    rw [hch_eq] at hc
    obtain ⟨t', ht'm, hroot⟩ := List.mem_map.mp hc
    obtain ⟨pr, nx, hrep'⟩ := repC_mem hch0 ht'm
    obtain ⟨hc0, hgc0, _, hpar0⟩ := repT_root_record hrep'
    exact ⟨hc0, hroot ▸ hgc0, hpar0⟩

theorem C1_hierarchy_invariants_witness :
    ∃ hp, reparentScene.m_hier.get 0 = some hp ∧
      ({ m_name := "A", m_level := 1, m_parent := some 0 } : ACompHierarchy).m_level
        = hp.m_level + 1 :=
  (C1_hierarchy_invariants ⟨[Op.createChild 0 "A"], rfl⟩).1 1
    { m_name := "A", m_level := 1, m_parent := some 0 } 0 rfl rfl

/-- C1, refutation of "single-rooted": creating a child of the root and then
cutting it leaves two parentless roots in the hierarchy store — the state is
a forest with two trees, not a single-rooted tree. -/
theorem C1_counterexample :
    rootsOfStore (runOps initialScene [Op.createChild 0 "A", Op.cut 1]).m_hier
      = [1, 0] := by
  rfl

/-! ### Transform propagation machinery (C4) -/

theorem mem_of_get {α : Type} {s : Store α} {e : Ent} {v : α}
    (h : Store.get s e = some v) : List.Mem (e, v) s := by
  induction s with
  | nil => cases h
  | cons kv rest ih =>
    obtain ⟨k, w⟩ := kv
    rw [Store.get_cons] at h
    by_cases hk : k = e
    · rw [if_pos hk, Option.some.injEq] at h
      subst h
      subst hk
      exact List.mem_cons_self _ _
    · rw [if_neg hk] at h
      exact List.mem_cons_of_mem _ (ih h)

theorem get_of_mem_nodup {α : Type} {s : Store α} {e : Ent} {v : α}
    (hnd : (Store.keys s).Nodup) (h : List.Mem (e, v) s) : Store.get s e = some v := by
  induction s with
  | nil => cases h
  | cons kv rest ih =>
    obtain ⟨k, w⟩ := kv
    rw [Store.keys_cons] at hnd
    rw [Store.get_cons]
    rcases List.mem_cons.mp h with hh | hh
    · rw [Prod.mk.injEq] at hh
      obtain ⟨h1, h2⟩ := hh
      subst h1
      rw [if_pos rfl, h2]
    · have heKeys : e ∈ Store.keys rest := by
        have := List.mem_map_of_mem Prod.fst hh
        exact this
      have hke : ¬ k = e := fun hk => (List.nodup_cons.mp hnd).1 (hk ▸ heKeys)
      rw [if_neg hke]
      exact ih (List.nodup_cons.mp hnd).2 hh

theorem foldl_max_facts (s : Store ACompHierarchy) :
    ∀ a : Nat, a ≤ s.foldl (fun acc kv => max acc kv.2.m_level) a ∧
      ∀ kv, List.Mem kv s →
        kv.2.m_level ≤ s.foldl (fun acc kv => max acc kv.2.m_level) a := by
  induction s with
  | nil => intro a; exact ⟨le_refl _, fun kv hkv => absurd hkv (List.not_mem_nil _)⟩
  | cons kv0 rest ih =>
    intro a
    rw [List.foldl_cons]
    obtain ⟨h1, h2⟩ := ih (max a kv0.2.m_level)
    refine ⟨le_trans (le_max_left _ _) h1, fun kv hkv => ?_⟩
    rcases List.mem_cons.mp hkv with rfl | hm
    · exact le_trans (le_max_right _ _) h1
    · exact h2 kv hm

theorem level_le_maxLevel {s : Store ACompHierarchy} {e : Ent} {h : ACompHierarchy}
    (hget : Store.get s e = some h) : h.m_level ≤ maxLevel s :=
  (foldl_max_facts s 0).2 (e, h) (mem_of_get hget)

theorem mem_entsAtLevel_of_get {s : Store ACompHierarchy} {e : Ent} {h : ACompHierarchy}
    (hget : Store.get s e = some h) : e ∈ entsAtLevel s h.m_level := by
  rw [entsAtLevel]
  exact List.mem_map.mpr ⟨(e, h), List.mem_filter.mpr ⟨mem_of_get hget, by simp⟩, rfl⟩

theorem get_of_mem_entsAtLevel {s : Store ACompHierarchy} (hnd : (Store.keys s).Nodup)
    {e : Ent} {lvl : Nat} (h : e ∈ entsAtLevel s lvl) :
    ∃ hr, Store.get s e = some hr ∧ hr.m_level = lvl := by
  rw [entsAtLevel] at h
  obtain ⟨kv, hmem, hfst⟩ := List.mem_map.mp h
  obtain ⟨hmem', hbeq⟩ := List.mem_filter.mp hmem
  obtain ⟨k, hr⟩ := kv
  cases hfst
  exact ⟨hr, get_of_mem_nodup hnd hmem', by simpa using hbeq⟩

theorem entsAtLevel_nodup {s : Store ACompHierarchy} (hnd : (Store.keys s).Nodup)
    (lvl : Nat) : (entsAtLevel s lvl).Nodup := by
  rw [entsAtLevel]
  have hsub : ((s.filter (fun kv => kv.2.m_level == lvl)).map Prod.fst).Sublist
      (s.map Prod.fst) := List.Sublist.map _ (List.filter_sublist _)
  exact List.Nodup.sublist hsub hnd

theorem mem_processOrder_of_get {s : Store ACompHierarchy} {e : Ent}
    {h : ACompHierarchy} (hget : Store.get s e = some h) : e ∈ processOrder s := by
  rw [processOrder]
  refine List.mem_flatMap.mpr ⟨h.m_level, ?_, mem_entsAtLevel_of_get hget⟩
  rw [List.mem_range]
  exact Nat.lt_succ_of_le (level_le_maxLevel hget)

theorem foldl_flatMap {α β γ : Type} (l : List α) (f : α → List β) (g : γ → β → γ)
    (a : γ) :
    (l.flatMap f).foldl g a = l.foldl (fun acc x => (f x).foldl g acc) a := by
  induction l generalizing a with
  | nil => rfl
  | cons x xs ih => rw [List.flatMap_cons, List.foldl_append, List.foldl_cons, ih]

/-- A member of an earlier level group appears strictly before any member of
a later group in the flattened by-level order. -/
theorem flatMap_order {f : Nat → List Ent} {n lp lc : Nat} {p c : Ent}
    (hlt : lp < lc) (hcn : lc < n) (hp : p ∈ f lp) (hcm : c ∈ f lc) :
    ∃ u v, (List.range n).flatMap f = u ++ c :: v ∧ p ∈ u := by
  have hn : n = lc + (n - lc) := by omega
  rw [hn, List.range_add, List.flatMap_append]
  have hm : n - lc = (n - lc - 1) + 1 := by omega
  rw [hm, List.range_succ_eq_map, List.map_cons, List.flatMap_cons, Nat.add_zero]
  obtain ⟨g1, g2, hg⟩ := List.append_of_mem hcm
  rw [hg]
  refine ⟨(List.range lc).flatMap f ++ g1,
    g2 ++ (((List.range (n - lc - 1)).map Nat.succ).map (fun x => lc + x)).flatMap f,
    ?_, ?_⟩
  · simp [List.append_assoc]
  · exact List.mem_append_left _
      (List.mem_flatMap.mpr ⟨lp, List.mem_range.mpr hlt, hp⟩)

/-- Folding one level group of the propagation: entities strictly above the
level stay untouched, presence of transforms is preserved, and every entity
at or below the level that is not still pending satisfies the
world-transform relation. -/
theorem propagate_group (hier : Store ACompHierarchy) (tr : Store ACompTransform)
    (L : Nat)
    (hplevel : ∀ e h p, Store.get hier e = some h → h.m_parent = some p →
      ∃ hp, Store.get hier p = some hp ∧ h.m_level = hp.m_level + 1) :
    ∀ (R : List Ent) (B : Store ACompTransform),
      (∀ e ∈ R, ∃ h, Store.get hier e = some h ∧ h.m_level = L) →
      R.Nodup →
      (∀ x, (Store.get B x).isSome = (Store.get tr x).isSome) →
      (∀ e h, Store.get hier e = some h → L < h.m_level →
        Store.get B e = Store.get tr e) →
      (∀ e ∈ R, Store.get B e = Store.get tr e) →
      (∀ e h t, Store.get hier e = some h → h.m_level ≤ L → ¬ e ∈ R →
        Store.get tr e = some t →
        (h.m_parent = none →
          Store.get B e = some { t with m_transformWorld := t.m_transform }) ∧
        (∀ p, h.m_parent = some p →
          ((Store.get tr p).isSome →
            ∃ pt, Store.get B p = some pt ∧
              Store.get B e = some
                { t with m_transformWorld := pt.m_transformWorld * t.m_transform }) ∧
          (Store.get tr p = none → Store.get B e = some t))) →
      (∀ x, (Store.get (R.foldl (propagateStep hier) B) x).isSome
          = (Store.get tr x).isSome) ∧
      (∀ e h, Store.get hier e = some h → L < h.m_level →
        Store.get (R.foldl (propagateStep hier) B) e = Store.get tr e) ∧
      (∀ e h t, Store.get hier e = some h → h.m_level ≤ L →
        Store.get tr e = some t →
        (h.m_parent = none →
          Store.get (R.foldl (propagateStep hier) B) e
            = some { t with m_transformWorld := t.m_transform }) ∧
        (∀ p, h.m_parent = some p →
          ((Store.get tr p).isSome →
            ∃ pt, Store.get (R.foldl (propagateStep hier) B) p = some pt ∧
              Store.get (R.foldl (propagateStep hier) B) e = some
                { t with m_transformWorld := pt.m_transformWorld * t.m_transform }) ∧
          (Store.get tr p = none →
            Store.get (R.foldl (propagateStep hier) B) e = some t))) := by
  intro R
  induction R with
  | nil =>
    intro B hmem hnd hpres habove hunt hcorr
    rw [List.foldl_nil]
    exact ⟨hpres, habove, fun e h t hget hle htr =>
      hcorr e h t hget hle (List.not_mem_nil e) htr⟩
  | cons r R' ih =>
    intro B hmem hnd hpres habove hunt hcorr
    rw [List.foldl_cons]
    obtain ⟨hr, hgr, hlr⟩ := hmem r (List.mem_cons_self _ _)
    have hrnotR' : ¬ r ∈ R' := (List.nodup_cons.mp hnd).1
    have hndR' := (List.nodup_cons.mp hnd).2
    have hBr_tr : Store.get B r = Store.get tr r := hunt r (List.mem_cons_self _ _)
    have hmem' : ∀ e ∈ R', ∃ h, Store.get hier e = some h ∧ h.m_level = L :=
      fun e he => hmem e (List.mem_cons_of_mem _ he)
    have hunt' : ∀ e ∈ R', Store.get B e = Store.get tr e :=
      fun e he => hunt e (List.mem_cons_of_mem _ he)
    have hnotR : ∀ e, e ≠ r → ¬ e ∈ R' → ¬ e ∈ r :: R' := by
      intro e her hnot hm
      rcases List.mem_cons.mp hm with hh | hh
      · exact her hh
      · exact hnot hh
    have hparent_ne_r : ∀ e h p, Store.get hier e = some h → h.m_level ≤ L →
        h.m_parent = some p → p ≠ r := by
      intro e h p hget hle hp hpr
      obtain ⟨hp0, hgp0, hlvl⟩ := hplevel e h p hget hp
      rw [hpr, hgr] at hgp0
      cases hgp0
      omega
    cases hBr : Store.get B r with
    | none =>
      have htrr : Store.get tr r = none := by
        have hh := hpres r
        rw [hBr] at hh
        cases htm : Store.get tr r with
        | none => rfl
        | some v => rw [htm] at hh; cases hh
      have hstep : propagateStep hier B r = B := by
        simp only [propagateStep, hgr, hBr]
      rw [hstep]
      refine ih B hmem' hndR' hpres habove hunt' ?_
      intro e h t hget hle hnot htr
      by_cases her : e = r
      · subst her
        rw [htrr] at htr
        cases htr
      · exact hcorr e h t hget hle (hnotR e her hnot) htr
    | some t0 =>
      have htrr : Store.get tr r = some t0 := hBr_tr.symm.trans hBr
      have hkeyr : r ∈ Store.keys B :=
        Store.get_isSome_iff_mem_keys.mp (by rw [hBr]; rfl)
      cases hpar : hr.m_parent with
      | none =>
        have hstep : propagateStep hier B r
            = Store.put B r { t0 with m_transformWorld := t0.m_transform } := by
          simp only [propagateStep, hgr, hBr, hpar]
        rw [hstep]
        have hget_put_r : Store.get
            (Store.put B r { t0 with m_transformWorld := t0.m_transform }) r
            = some { t0 with m_transformWorld := t0.m_transform } :=
          Store.get_put_self hkeyr
        refine ih _ hmem' hndR' ?_ ?_ ?_ ?_
        · intro x
          by_cases hxr : x = r
          · subst hxr
            rw [hget_put_r, htrr]
            rfl
          · rw [Store.get_put_ne hxr]
            exact hpres x
        · intro e h hget hlt
          have her : e ≠ r := by
            intro hh
            subst hh
            rw [hgr] at hget
            cases hget
            omega
          rw [Store.get_put_ne her]
          exact habove e h hget hlt
        · intro e he
          have her : e ≠ r := fun hh => hrnotR' (hh ▸ he)
          rw [Store.get_put_ne her]
          exact hunt' e he
        · intro e h t hget hle hnot htr
          by_cases her : e = r
          · subst her
            rw [hgr] at hget
            cases hget
            rw [htrr] at htr
            cases htr
            constructor
            · intro _
              exact hget_put_r
            · intro p hp
              rw [hpar] at hp
              cases hp
          · obtain ⟨hc1, hc2⟩ := hcorr e h t hget hle (hnotR e her hnot) htr
            constructor
            · intro hpnone
              rw [Store.get_put_ne her]
              exact hc1 hpnone
            · intro p hp
              obtain ⟨hc3, hc4⟩ := hc2 p hp
              have hpner : p ≠ r := hparent_ne_r e h p hget hle hp
              constructor
              · intro hsome
                obtain ⟨pt, hBp, hBe⟩ := hc3 hsome
                exact ⟨pt, by rw [Store.get_put_ne hpner]; exact hBp,
                  by rw [Store.get_put_ne her]; exact hBe⟩
              · intro hnone
                rw [Store.get_put_ne her]
                exact hc4 hnone
      | some p =>
        obtain ⟨hp0, hgp0, hlvlr⟩ := hplevel r hr p hgr hpar
        have hpL : hp0.m_level < L := by omega
        have hpner : p ≠ r := by
          intro hh
          rw [hh, hgr] at hgp0
          cases hgp0
          omega
        have hpnotR : ¬ p ∈ r :: R' := by
          intro hm
          obtain ⟨h', hg', hl'⟩ := hmem p hm
          rw [hgp0] at hg'
          cases hg'
          omega
        cases htrp : Store.get tr p with
        | none =>
          have hBp : Store.get B p = none := by
            have hh := hpres p
            rw [htrp] at hh
            cases hbm : Store.get B p with
            | none => rfl
            | some v => rw [hbm] at hh; cases hh
          have hstep : propagateStep hier B r = B := by
            simp only [propagateStep, hgr, hBr, hpar, hBp]
          rw [hstep]
          refine ih B hmem' hndR' hpres habove hunt' ?_
          intro e h t hget hle hnot htr
          by_cases her : e = r
          · subst her
            rw [hgr] at hget
            cases hget
            rw [htrr] at htr
            cases htr
            constructor
            · intro hpnone
              rw [hpar] at hpnone
              cases hpnone
            · intro p' hp'
              rw [hpar, Option.some.injEq] at hp'
              subst hp'
              constructor
              · intro hsome
                rw [htrp] at hsome
                simp at hsome
              · intro _
                exact hBr
          · exact hcorr e h t hget hle (hnotR e her hnot) htr
        | some pt0 =>
          have hBpex : ∃ pt, Store.get B p = some pt := by
            obtain ⟨hc1, hc2⟩ := hcorr p hp0 pt0 hgp0 (le_of_lt hpL) hpnotR htrp
            cases hpp : hp0.m_parent with
            | none => exact ⟨_, hc1 hpp⟩
            | some pp =>
              obtain ⟨hc3, hc4⟩ := hc2 pp hpp
              cases htpp : Store.get tr pp with
              | some v =>
                obtain ⟨ppt, _, hBP⟩ := hc3 (by rw [htpp]; rfl)
                exact ⟨_, hBP⟩
              | none => exact ⟨_, hc4 htpp⟩
          obtain ⟨pt, hBp⟩ := hBpex
          have hstep : propagateStep hier B r
              = Store.put B r
                { t0 with m_transformWorld := pt.m_transformWorld * t0.m_transform } := by
            simp only [propagateStep, hgr, hBr, hpar, hBp]
          rw [hstep]
          have hget_put_r : Store.get (Store.put B r
              { t0 with m_transformWorld := pt.m_transformWorld * t0.m_transform }) r
              = some { t0 with m_transformWorld := pt.m_transformWorld * t0.m_transform } :=
            Store.get_put_self hkeyr
          refine ih _ hmem' hndR' ?_ ?_ ?_ ?_
          · intro x
            by_cases hxr : x = r
            · subst hxr
              rw [hget_put_r, htrr]
              rfl
            · rw [Store.get_put_ne hxr]
              exact hpres x
          · intro e h hget hlt
            have her : e ≠ r := by
              intro hh
              subst hh
              rw [hgr] at hget
              cases hget
              omega
            rw [Store.get_put_ne her]
            exact habove e h hget hlt
          · intro e he
            have her : e ≠ r := fun hh => hrnotR' (hh ▸ he)
            rw [Store.get_put_ne her]
            exact hunt' e he
          · intro e h t hget hle hnot htr
            by_cases her : e = r
            · subst her
              rw [hgr] at hget
              cases hget
              rw [htrr] at htr
              cases htr
              constructor
              · intro hpnone
                rw [hpar] at hpnone
                cases hpnone
              · intro p' hp'
                rw [hpar, Option.some.injEq] at hp'
                subst hp'
                constructor
                · intro _
                  exact ⟨pt, by rw [Store.get_put_ne hpner]; exact hBp, hget_put_r⟩
                · intro hnone
                  rw [htrp] at hnone
                  cases hnone
            · obtain ⟨hc1, hc2⟩ := hcorr e h t hget hle (hnotR e her hnot) htr
              constructor
              · intro hpnone
                rw [Store.get_put_ne her]
                exact hc1 hpnone
              · intro p' hp'
                obtain ⟨hc3, hc4⟩ := hc2 p' hp'
                have hpner' : p' ≠ r := hparent_ne_r e h p' hget hle hp'
                constructor
                · intro hsome
                  obtain ⟨pt', hBp', hBe'⟩ := hc3 hsome
                  exact ⟨pt', by rw [Store.get_put_ne hpner']; exact hBp',
                    by rw [Store.get_put_ne her]; exact hBe'⟩
                · intro hnone
                  rw [Store.get_put_ne her]
                  exact hc4 hnone

/-- Folding the level groups `0..n-1`: levels `≥ n` untouched, levels `< n`
satisfy the world-transform relation. -/
theorem propagate_stages (hier : Store ACompHierarchy) (tr : Store ACompTransform)
    (hkeysnd : (Store.keys hier).Nodup)
    (hplevel : ∀ e h p, Store.get hier e = some h → h.m_parent = some p →
      ∃ hp, Store.get hier p = some hp ∧ h.m_level = hp.m_level + 1) :
    ∀ n : Nat,
      (∀ x, (Store.get ((List.range n).foldl
          (fun acc lvl => (entsAtLevel hier lvl).foldl (propagateStep hier) acc)
          tr) x).isSome = (Store.get tr x).isSome) ∧
      (∀ e h, Store.get hier e = some h → n ≤ h.m_level →
        Store.get ((List.range n).foldl
          (fun acc lvl => (entsAtLevel hier lvl).foldl (propagateStep hier) acc)
          tr) e = Store.get tr e) ∧
      (∀ e h t, Store.get hier e = some h → h.m_level < n →
        Store.get tr e = some t →
        (h.m_parent = none →
          Store.get ((List.range n).foldl
            (fun acc lvl => (entsAtLevel hier lvl).foldl (propagateStep hier) acc)
            tr) e = some { t with m_transformWorld := t.m_transform }) ∧
        (∀ p, h.m_parent = some p →
          ((Store.get tr p).isSome →
            ∃ pt, Store.get ((List.range n).foldl
                (fun acc lvl => (entsAtLevel hier lvl).foldl (propagateStep hier) acc)
                tr) p = some pt ∧
              Store.get ((List.range n).foldl
                (fun acc lvl => (entsAtLevel hier lvl).foldl (propagateStep hier) acc)
                tr) e = some
                { t with m_transformWorld := pt.m_transformWorld * t.m_transform }) ∧
          (Store.get tr p = none →
            Store.get ((List.range n).foldl
              (fun acc lvl => (entsAtLevel hier lvl).foldl (propagateStep hier) acc)
              tr) e = some t))) := by
  intro n
  induction n with
  | zero =>
    rw [List.range_zero, List.foldl_nil]
    exact ⟨fun x => rfl, fun e h _ _ => rfl,
      fun e h t _ hlt _ => absurd hlt (Nat.not_lt_zero _)⟩
  | succ n ih =>
    rw [List.range_succ, List.foldl_append, List.foldl_cons, List.foldl_nil]
    obtain ⟨ih1, ih2, ih3⟩ := ih
    have hcorrPre : ∀ e h t, Store.get hier e = some h → h.m_level ≤ n →
        ¬ e ∈ entsAtLevel hier n → Store.get tr e = some t →
        (h.m_parent = none →
          Store.get ((List.range n).foldl
            (fun acc lvl => (entsAtLevel hier lvl).foldl (propagateStep hier) acc)
            tr) e = some { t with m_transformWorld := t.m_transform }) ∧
        (∀ p, h.m_parent = some p →
          ((Store.get tr p).isSome →
            ∃ pt, Store.get ((List.range n).foldl
                (fun acc lvl => (entsAtLevel hier lvl).foldl (propagateStep hier) acc)
                tr) p = some pt ∧
              Store.get ((List.range n).foldl
                (fun acc lvl => (entsAtLevel hier lvl).foldl (propagateStep hier) acc)
                tr) e = some
                { t with m_transformWorld := pt.m_transformWorld * t.m_transform }) ∧
          (Store.get tr p = none →
            Store.get ((List.range n).foldl
              (fun acc lvl => (entsAtLevel hier lvl).foldl (propagateStep hier) acc)
              tr) e = some t)) := by
      intro e h t hget hle hnot htr
      rcases Nat.lt_or_ge h.m_level n with hlt | hge
      · exact ih3 e h t hget hlt htr
      · have heq : h.m_level = n := le_antisymm hle hge
        exact absurd (heq ▸ mem_entsAtLevel_of_get hget) hnot
    have hgrp := propagate_group hier tr n hplevel (entsAtLevel hier n)
      ((List.range n).foldl
        (fun acc lvl => (entsAtLevel hier lvl).foldl (propagateStep hier) acc) tr)
      (fun e he => get_of_mem_entsAtLevel hkeysnd he)
      (entsAtLevel_nodup hkeysnd n)
      ih1
      (fun e h hget hlt => ih2 e h hget (le_of_lt hlt))
      (fun e he => by
        obtain ⟨h', hg', hl'⟩ := get_of_mem_entsAtLevel hkeysnd he
        exact ih2 e h' hg' (le_of_eq hl'.symm))
      hcorrPre
    exact ⟨hgrp.1, fun e h hget hle => hgrp.2.1 e h hget hle,
      fun e h t hget hlt htr => hgrp.2.2 e h t hget (Nat.lt_succ_iff.mp hlt) htr⟩

/-- C4: confirmed.  After `update_hierarchy_transforms` the root's cached
world transform equals its local transform, every non-root entity with
hierarchy and transform records (whose parent also has a transform) gets
`world(child) = world(parent) * local(child)`, and in the by-level
processing order every parent is placed strictly before each of its
children.  The scene is arbitrary (any reachable tree, any depth). -/
theorem C4_update_hierarchy_transforms {sc : SceneState} (hR : Reachable sc) :
    (∀ e h t, sc.m_hier.get e = some h → sc.m_transform.get e = some t →
      h.m_parent = none →
      (update_hierarchy_transforms sc).m_transform.get e
        = some { t with m_transformWorld := t.m_transform }) ∧
    (∀ e h t p, sc.m_hier.get e = some h → sc.m_transform.get e = some t →
      h.m_parent = some p → (sc.m_transform.get p).isSome →
      ∃ pt, (update_hierarchy_transforms sc).m_transform.get p = some pt ∧
        (update_hierarchy_transforms sc).m_transform.get e
          = some { t with m_transformWorld := pt.m_transformWorld * t.m_transform }) ∧
    (∀ c hc p, sc.m_hier.get c = some hc → hc.m_parent = some p →
      ∃ u v, processOrder sc.m_hier = u ++ c :: v ∧ p ∈ u) := by
  obtain ⟨F, hIW⟩ := reachable_hierInv hR
  have hkeysnd := hIW.2.2.2.1
  have hplevel : ∀ e h p, Store.get sc.m_hier e = some h → h.m_parent = some p →
      ∃ hp, Store.get sc.m_hier p = some hp ∧ h.m_level = hp.m_level + 1 :=
    fun e h p hget hp => parent_level_F hIW hget hp
  have hfold : (processOrder sc.m_hier).foldl (propagateStep sc.m_hier) sc.m_transform
      = (List.range (maxLevel sc.m_hier + 1)).foldl
        (fun acc lvl => (entsAtLevel sc.m_hier lvl).foldl (propagateStep sc.m_hier) acc)
        sc.m_transform := by
    rw [processOrder, foldl_flatMap]
  obtain ⟨hs1, hs2, hs3⟩ := propagate_stages sc.m_hier sc.m_transform hkeysnd hplevel
    (maxLevel sc.m_hier + 1)
  refine ⟨?_, ?_, ?_⟩
  · intro e h t hget htr hpar
    have hcor := hs3 e h t hget (Nat.lt_succ_of_le (level_le_maxLevel hget)) htr
    show Store.get
      ((processOrder sc.m_hier).foldl (propagateStep sc.m_hier) sc.m_transform) e = _
    rw [hfold]
    exact hcor.1 hpar
  · intro e h t p hget htr hpar hsome
    have hcor := hs3 e h t hget (Nat.lt_succ_of_le (level_le_maxLevel hget)) htr
    obtain ⟨pt, h1, h2⟩ := (hcor.2 p hpar).1 hsome
    refine ⟨pt, ?_, ?_⟩
    · show Store.get
        ((processOrder sc.m_hier).foldl (propagateStep sc.m_hier) sc.m_transform) p = _
      rw [hfold]
      exact h1
    · show Store.get
        ((processOrder sc.m_hier).foldl (propagateStep sc.m_hier) sc.m_transform) e = _
      rw [hfold]
      exact h2
  · intro c hc p hget hpar
    obtain ⟨hp0, hgp0, hlvl⟩ := hplevel c hc p hget hpar
    rw [processOrder]
    exact @flatMap_order (entsAtLevel sc.m_hier) (maxLevel sc.m_hier + 1)
      hp0.m_level hc.m_level p c (by omega)
      (Nat.lt_succ_of_le (level_le_maxLevel hget))
      (mem_entsAtLevel_of_get hgp0) (mem_entsAtLevel_of_get hget)

theorem C4_update_hierarchy_transforms_witness :
    ∃ pt, Store.get (update_hierarchy_transforms propagateScene).m_transform 0
        = some pt ∧
      Store.get (update_hierarchy_transforms propagateScene).m_transform 1
        = some { m_transform := (1 : Mat4),
                 m_transformWorld := pt.m_transformWorld * (1 : Mat4),
                 m_enableFloatingOrigin := false } :=
  (C4_update_hierarchy_transforms
    (show Reachable propagateScene from
      ⟨[Op.createChild 0 "A",
        Op.emplaceTransform 0
          { m_transform := 1, m_transformWorld := 0, m_enableFloatingOrigin := false },
        Op.emplaceTransform 1
          { m_transform := 1, m_transformWorld := 0, m_enableFloatingOrigin := false }],
       rfl⟩)).2.1 1
    { m_name := "A", m_level := 1, m_parent := some 0 }
    { m_transform := 1, m_transformWorld := 0, m_enableFloatingOrigin := false }
    0 rfl rfl rfl rfl

end OspActive
